import Mathlib

/-!
# KDDPrioritized: bit-packed columns and the chi-square scorer

A shallow embedding of `src/main.cpp`.

* `bitset_t` (a `vector<uint64_t>`) is a list of words; every word written by
  the code is reduced modulo `2 ^ 64`.
* An access outside a vector (undefined behaviour in C++) makes the embedded
  function return `none`.
* `double` arithmetic is taken over the rationals; a division whose divisor is
  zero makes the embedded function return `none`, so that a result `some v`
  certifies that no division by zero was performed.
* The values the program computes are `double`s: `chiSquareDouble` is `chiSquare` with every
  conversion and operation rounded to the nearest `double` (`roundDouble`); it is used where
  a property is about the computed values and not about the formula.
* `std::stoi` throws; the decoder therefore returns in `Except`.
* `std::sort` is taken by its contract (`StdSort`); a ranked output of `main` is any list the
  contract allows for the vector of scores. `sortLibstdcxx` is the algorithm by which the GNU
  C++ library (libstdc++) implements it, used to evaluate the ranking step on a given vector.
* A record is a line; its fields are the texts between its commas (`recordFields`), of which
  `getline` reads all but an empty last one (`fieldsOf`).
-/

namespace KDD

/-! ## Constants and types -/

/-- Each `uint64_t` stores 64 bits (`#define BITS_PER_BLOCK 64`). -/
def BITS_PER_BLOCK : Nat := 64

/-- The schema width (`#define NUM_COLS 42`). -/
def NUM_COLS : Nat := 42

/-- Width of a `uint64_t` word. -/
def WORD : Nat := 2 ^ 64

/-- The type `bitset_t`, a `vector<uint64_t>`. -/
abbrev bitset_t := List Nat

/-- The function `numBlocks`: `(numRows + BITS_PER_BLOCK - 1) / BITS_PER_BLOCK` in `size_t`. -/
def numBlocks (numRows : Nat) : Nat :=
  ((numRows + BITS_PER_BLOCK - 1) % WORD) / BITS_PER_BLOCK

/-- Bitwise complement of a `uint64_t`. -/
def not64 (x : Nat) : Nat := WORD - 1 - x % WORD

/-! ## Bit access -/

/-- The function `setBit`: `column[blockIndex] |= (1ULL << bitIndex)` when `value`, otherwise
`column[blockIndex] &= ~(1ULL << bitIndex)`. The result is `none` when `blockIndex` is not an
index of the vector. -/
def setBit (column : bitset_t) (row : Nat) (value : Bool) : Option bitset_t :=
  let blockIndex := row / BITS_PER_BLOCK
  let bitIndex := row % BITS_PER_BLOCK
  match column[blockIndex]? with
  | none => none
  | some w =>
    if value then
      some (column.set blockIndex ((w ||| ((1 <<< bitIndex) % WORD)) % WORD))
    else
      some (column.set blockIndex ((w &&& not64 ((1 <<< bitIndex) % WORD)) % WORD))

/-- The function `getBit`: `(column[blockIndex] >> bitIndex) & 1`, converted to `bool`. The
result is `none` when `blockIndex` is not an index of the vector. -/
def getBit (column : bitset_t) (row : Nat) : Option Bool :=
  let blockIndex := row / BITS_PER_BLOCK
  let bitIndex := row % BITS_PER_BLOCK
  match column[blockIndex]? with
  | none => none
  | some w => some (((w >>> bitIndex) &&& 1) != 0)

/-! ## The contingency scorer -/

/-- The four joint counters `tp, tn, fp, fn` of `chiSquare`. They are C `int`s that are only
ever incremented, one of them per row, so that their sum is the number of rows scanned
(`countLoop_total`) and they hold their exact values for every row count below `2 ^ 31` (the
program allocates columns of 500032 bits); they are kept as naturals. -/
structure Counts where
  tp : Nat
  tn : Nat
  fp : Nat
  fn : Nat
  deriving DecidableEq

/-- Body of the counting loop of `chiSquare` for one row: the `if / else if` chain. -/
def Counts.bump (c : Counts) (f t : Bool) : Counts :=
  if f && t then { c with tp := c.tp + 1 }
  else if !f && !t then { c with tn := c.tn + 1 }
  else if f && !t then { c with fp := c.fp + 1 }
  else if !f && t then { c with fn := c.fn + 1 }
  else c

/-- The counting loop of `chiSquare`, `for (row = 0; row < numRows; ++row)`: the counters after
the rows `0 .. numRows - 1` have been scanned in ascending order. -/
def countLoop (feature target : bitset_t) : Nat → Option Counts
  | 0 => some ⟨0, 0, 0, 0⟩
  | row + 1 => do
    let c ← countLoop feature target row
    let f ← getBit feature row
    let t ← getBit target row
    pure (c.bump f t)

/-- Division of `double`s, taken over the rationals; `none` when the divisor is zero. -/
def fdiv (a b : ℚ) : Option ℚ := if b = 0 then none else some (a / b)

/-- The function `chiSquare`. -/
def chiSquare (feature target : bitset_t) (numRows : Nat) : Option ℚ := do
  let c ← countLoop feature target numRows
  let row1 : ℚ := ((c.tp + c.fp : Nat) : ℚ)
  let row2 : ℚ := ((c.tn + c.fn : Nat) : ℚ)
  let col1 : ℚ := ((c.tp + c.fn : Nat) : ℚ)
  let col2 : ℚ := ((c.fp + c.tn : Nat) : ℚ)
  let e1 ← fdiv (row1 * col1) numRows
  let e2 ← fdiv (row1 * col2) numRows
  let e3 ← fdiv (row2 * col1) numRows
  let e4 ← fdiv (row2 * col2) numRows
  if e1 = 0 ∨ e2 = 0 ∨ e3 = 0 ∨ e4 = 0 then pure 0
  else do
    let t1 ← fdiv (((c.tp : ℚ) - e1) ^ 2) e1
    let t2 ← fdiv (((c.fp : ℚ) - e2) ^ 2) e2
    let t3 ← fdiv (((c.fn : ℚ) - e3) ^ 2) e3
    let t4 ← fdiv (((c.tn : ℚ) - e4) ^ 2) e4
    pure (t1 + t2 + t3 + t4)

/-- The normalisation applied in `main`: `score / numRows`. -/
def normalize (score : ℚ) (numRows : Nat) : Option ℚ := fdiv score numRows

/-! ## The row decoder -/

/-- The exceptions `std::stoi` throws. -/
inductive StoiError
  | invalid_argument
  | out_of_range
  deriving DecidableEq

/-- Smallest value of a C `int`. -/
def INT_MIN : Int := -(2 ^ 31)

/-- Largest value of a C `int`. -/
def INT_MAX : Int := 2 ^ 31 - 1

/-- The value `SENTINEL` of a row slot: "not reducible to binary". -/
def SENTINEL : Nat := 2

/-- The type `row_t`, a `uint8_t[NUM_COLS]`: the list of its slots. -/
abbrev row_t := List Nat

/-- The C library's `isdigit` on a `char` of a field. -/
def isdigit (c : Char) : Bool := decide (48 ≤ c.toNat ∧ c.toNat ≤ 57)

/-- The C library's `isspace` in the "C" locale: space, `\t`, `\n`, `\v`, `\f`, `\r`. -/
def isspace (c : Char) : Bool := decide (c.toNat = 32 ∨ (9 ≤ c.toNat ∧ c.toNat ≤ 13))

/-- The function `isInteger`: non-empty, and every character after an optional leading `-` is a
digit. -/
def isInteger (str : String) : Bool :=
  match str.data with
  | [] => false
  | c :: cs => if c = '-' then cs.all isdigit else (c :: cs).all isdigit

/-- Decimal value of a run of digits. -/
def digitsValue (ds : List Char) : Nat :=
  ds.foldl (fun acc c => 10 * acc + (c.toNat - 48)) 0

/-- The library function `std::stoi(str)` (base 10), after its contract: leading white space is
skipped, an optional sign is read, then the longest run of digits; `invalid_argument` is thrown
when there is no digit, `out_of_range` when the value does not fit an `int`. -/
def stoi (str : String) : Except StoiError Int :=
  let s := str.data.dropWhile isspace
  let signed : Bool × List Char :=
    match s with
    | [] => (false, [])
    | c :: cs => if c = '-' then (true, cs) else if c = '+' then (false, cs) else (false, c :: cs)
  let ds := signed.2.takeWhile isdigit
  if ds = [] then Except.error StoiError.invalid_argument
  else
    let v : Int := if signed.1 then -(digitsValue ds : Int) else (digitsValue ds : Int)
    if v < INT_MIN ∨ INT_MAX < v then Except.error StoiError.out_of_range
    else Except.ok v

/-- The tokens `getline(ss, token, ',')` yields for a line, in order: the pieces between commas;
after the last comma an empty rest yields no token. -/
def getlineTokens (cur : List Char) : List Char → List String
  | [] => if cur = [] then [] else [String.mk cur.reverse]
  | c :: cs =>
    if c = ',' then String.mk cur.reverse :: getlineTokens [] cs
    else getlineTokens (c :: cur) cs

/-- Value stored for an attribute field that `isInteger` accepts, from its `stoi` value. -/
def codeOfValue (value : Int) : Nat :=
  if value = 0 then 0 else if value = 1 then 1 else 2

/-- The loop of `parseRow` over the tokens of a line, `i` being the slot index. The row buffer
is updated in place; slots for which no token is read are not written. An exception of `stoi`
leaves the function. -/
def parseRowLoop : List String → Nat → row_t → Except StoiError row_t
  | [], _, row => Except.ok row
  | token :: rest, i, row =>
    if i < NUM_COLS then
      if i = NUM_COLS - 1 then
        parseRowLoop rest (i + 1) (row.set (NUM_COLS - 1) (if token = "normal" then 0 else 1))
      else if isInteger token then
        match stoi token with
        | Except.error e => Except.error e
        | Except.ok value => parseRowLoop rest (i + 1) (row.set i (codeOfValue value))
      else
        parseRowLoop rest (i + 1) (row.set i 2)
    else Except.ok row

/-- The function `parseRow` on the fields of a record; `row` holds the contents of the buffer
on entry. -/
def parseRowFields (fields : List String) (row : row_t) : Except StoiError row_t :=
  parseRowLoop fields 0 row

/-- The function `parseRow`. -/
def parseRow (line : String) (row : row_t) : Except StoiError row_t :=
  parseRowFields (getlineTokens [] line.data) row

/-! ## The encoding pass -/

/-- The data of `parseCSVFile`: the columns, the binarity flags and the row counter. -/
structure Store where
  columns : List bitset_t
  isBinary : List Bool
  numRows : Nat
  deriving DecidableEq

/-- Body of the loop over `col` in `parseCSVFile`. -/
def encodeCol (row : row_t) (col : Nat) (s : Store) : Option Store :=
  match s.isBinary[col]? with
  | none => none
  | some false => some s
  | some true =>
    match row[col]? with
    | none => none
    | some v =>
      if v = 2 then some { s with isBinary := s.isBinary.set col false }
      else
        match s.columns[col]? with
        | none => none
        | some column =>
          match setBit column s.numRows (v != 0) with
          | none => none
          | some c => some { s with columns := s.columns.set col c }

/-- The loop `for (col = 0; col < NUM_COLS; ++col)` of `parseCSVFile`, up to `col`. -/
def encodeCols (row : row_t) : Nat → Store → Option Store
  | 0, s => some s
  | col + 1, s => (encodeCols row col s).bind (encodeCol row col)

/-- One iteration of the `while` loop of `parseCSVFile` once the row is decoded: the loop over
the columns, then `++numRows`. -/
def encodeRow (row : row_t) (s : Store) : Option Store :=
  (encodeCols row NUM_COLS s).map (fun t => { t with numRows := t.numRows + 1 })

/-- The encoding pass over a sequence of decoded rows. -/
def encodeRows : List row_t → Store → Option Store
  | [], s => some s
  | row :: rest, s => (encodeRow row s).bind (encodeRows rest)

/-- The ways `parseCSVFile` fails to return. -/
inductive Fault
  | exit1
  | uncaught (e : StoiError)
  | outOfBounds
  deriving DecidableEq

/-- The method `vector::resize(n, v)`. -/
def resize {α : Type} (l : List α) (n : Nat) (v : α) : List α :=
  l.take n ++ List.replicate (n - l.length) v

/-- The store after the header line is read: `columns.resize(NUM_COLS,
bitset_t(numBlocks(500000)))`, `isBinary.resize(NUM_COLS, true)`, `numRows = 0`. -/
def initStore (columns : List bitset_t) (isBinary : List Bool) : Store :=
  { columns := resize columns NUM_COLS (List.replicate (numBlocks 500000) 0)
    isBinary := resize isBinary NUM_COLS true
    numRows := 0 }

/-- The `while (getline(file, line))` loop of `parseCSVFile`. `junk k` is the content of the
freshly declared, uninitialised buffer `row_t row` when the store holds `k` rows. -/
def parseLoop (junk : Nat → row_t) : List String → Store → Except Fault Store
  | [], s => Except.ok s
  | line :: rest, s =>
    match parseRow line (junk s.numRows) with
    | Except.error e => Except.error (Fault.uncaught e)
    | Except.ok row =>
      match encodeRow row s with
      | none => Except.error Fault.outOfBounds
      | some t => parseLoop junk rest t

/-- The function `parseCSVFile`. The file is `none` when it cannot be opened, otherwise its
lines. The result is the returned row count (`-1` as a `size_t` when there is no header line)
with the columns and flags left in the reference parameters. -/
def parseCSVFile (file : Option (List String)) (junk : Nat → row_t)
    (columns : List bitset_t) (isBinary : List Bool) :
    Except Fault (Nat × List bitset_t × List Bool) :=
  match file with
  | none => Except.error Fault.exit1
  | some [] => Except.ok (WORD - 1, columns, isBinary)
  | some (_ :: lines) =>
    match parseLoop junk lines (initStore columns isBinary) with
    | Except.error e => Except.error e
    | Except.ok s => Except.ok (s.numRows, s.columns, s.isBinary)

/-! ## Definitions used to state the properties -/

/-- Bit `i` of a column read off its word list: the value of row `i`. -/
def bitAt (column : bitset_t) (i : Nat) : Bool :=
  (column.getD (i / 64) 0).testBit (i % 64)

/-- The number of rows `i < n` with `(feature_i, target_i) = (a, b)`. -/
def cellCount (feature target : bitset_t) (n : Nat) (a b : Bool) : Nat :=
  ((List.range n).filter (fun i => bitAt feature i == a && bitAt target i == b)).length

/-- Reference expected count of a cell: `rowTotal * colTotal / n`. -/
def refExpected (rowTotal colTotal n : Nat) : ℚ := ((rowTotal : ℚ) * (colTotal : ℚ)) / (n : ℚ)

/-- Reference expected count `e1` (the tp cell): `row1 * col1 / n`. -/
def refE1 (feature target : bitset_t) (n : Nat) : ℚ :=
  refExpected (cellCount feature target n true true + cellCount feature target n true false)
    (cellCount feature target n true true + cellCount feature target n false true) n

/-- Reference expected count `e2` (the fp cell): `row1 * col2 / n`. -/
def refE2 (feature target : bitset_t) (n : Nat) : ℚ :=
  refExpected (cellCount feature target n true true + cellCount feature target n true false)
    (cellCount feature target n true false + cellCount feature target n false false) n

/-- Reference expected count `e3` (the fn cell): `row2 * col1 / n`. -/
def refE3 (feature target : bitset_t) (n : Nat) : ℚ :=
  refExpected (cellCount feature target n false false + cellCount feature target n false true)
    (cellCount feature target n true true + cellCount feature target n false true) n

/-- Reference expected count `e4` (the tn cell): `row2 * col2 / n`. -/
def refE4 (feature target : bitset_t) (n : Nat) : ℚ :=
  refExpected (cellCount feature target n false false + cellCount feature target n false true)
    (cellCount feature target n true false + cellCount feature target n false false) n

/-- Reference statistic: the sum over the four cells of `(observed - expected)^2 / expected`. -/
def chiSquareRef (feature target : bitset_t) (n : Nat) : ℚ :=
  ((cellCount feature target n true true : ℚ) - refE1 feature target n) ^ 2
      / refE1 feature target n
    + ((cellCount feature target n true false : ℚ) - refE2 feature target n) ^ 2
      / refE2 feature target n
    + ((cellCount feature target n false true : ℚ) - refE3 feature target n) ^ 2
      / refE3 feature target n
    + ((cellCount feature target n false false : ℚ) - refE4 feature target n) ^ 2
      / refE4 feature target n

/-- The score `main` stores for a column: `chiSquare(...) / numRows`. -/
def normalizedScore (feature target : bitset_t) (numRows : Nat) : Option ℚ :=
  (chiSquare feature target numRows).bind (fun score => normalize score numRows)

/-- Whether `parseRow` leaves through an exception on an attribute field: `isInteger` accepts
the text and `stoi` throws on it. -/
def fieldThrows (token : String) : Bool :=
  isInteger token && (match stoi token with
    | Except.error _ => true
    | Except.ok _ => false)

/-- What `parseRow` stores in slot `j` for the field `token`, when `stoi` does not throw. -/
def slotCode (j : Nat) (token : String) : Nat :=
  if j = NUM_COLS - 1 then (if token = "normal" then 0 else 1)
  else if isInteger token then
    (match stoi token with
      | Except.ok value => codeOfValue value
      | Except.error _ => 2)
  else 2

/-- What the claim's reading of the decoder stores for an attribute field: the text `"0"` gives
0, the text `"1"` gives 1, every other text gives `SENTINEL`. -/
def specDecode (token : String) : Nat :=
  if token = "0" then 0 else if token = "1" then 1 else SENTINEL

/-- Shape of the store inside `parseCSVFile`: `NUM_COLS` columns and `NUM_COLS` flags. -/
def Store.WF (s : Store) : Prop :=
  s.columns.length = NUM_COLS ∧ s.isBinary.length = NUM_COLS

/-- Every column has room for `k` more rows. -/
def Store.room (s : Store) (k : Nat) : Prop :=
  ∀ column, column ∈ s.columns → s.numRows + k ≤ BITS_PER_BLOCK * column.length

/-- The flag of an attribute after a row whose slot holds `v`. -/
def flagAfter (b : Bool) (v : Nat) : Bool := b && (v != 2)

/-- The column of an attribute after a row whose slot holds `v`, `b` being its flag before. -/
def columnAfter (b : Bool) (v numRows : Nat) (column : bitset_t) : bitset_t :=
  if b && (v != 2) then (setBit column numRows (v != 0)).getD column else column

/-- A complete record of 41 attribute fields `0` and the label `normal`. -/
def zeroLine : String :=
  "0,0,0,0,0,0,0,0,0,0,0,0,0,0,0,0,0,0,0,0,0,0,0,0,0,0,0,0,0,0,0,0,0,0,0,0,0,0,0,0,0,normal"

/-- The word capacity of a column in bits: `BITS_PER_BLOCK * numBlocks(500000)`. -/
def CAPACITY : Nat := BITS_PER_BLOCK * numBlocks 500000

/-- A store of 42 one-word columns with every flag true and no row yet. -/
def smallStore : Store :=
  { columns := List.replicate 42 [0], isBinary := List.replicate 42 true, numRows := 0 }

/-- The number of rows `i < n` whose bit in `column` is `b`: a margin of the table. -/
def marginCount (column : bitset_t) (n : Nat) (b : Bool) : Nat :=
  ((List.range n).filter (fun i => bitAt column i == b)).length

/-- Lines 54 to 60 of `chiSquare`: the margins `row1, row2, col1, col2` and the expected
counts `e1, e2, e3, e4`, in this order. -/
def expectedCounts (c : Counts) (numRows : Nat) : Option (ℚ × ℚ × ℚ × ℚ) := do
  let row1 : ℚ := ((c.tp + c.fp : Nat) : ℚ)
  let row2 : ℚ := ((c.tn + c.fn : Nat) : ℚ)
  let col1 : ℚ := ((c.tp + c.fn : Nat) : ℚ)
  let col2 : ℚ := ((c.fp + c.tn : Nat) : ℚ)
  let e1 ← fdiv (row1 * col1) numRows
  let e2 ← fdiv (row1 * col2) numRows
  let e3 ← fdiv (row2 * col1) numRows
  let e4 ← fdiv (row2 * col2) numRows
  pure (e1, e2, e3, e4)

/-- Lines 62 to 69 of `chiSquare`: the guard on the expected counts and the sum of the four
terms, each cell with its expected count. -/
def chiSum (c : Counts) (e : ℚ × ℚ × ℚ × ℚ) : Option ℚ :=
  if e.1 = 0 ∨ e.2.1 = 0 ∨ e.2.2.1 = 0 ∨ e.2.2.2 = 0 then pure 0
  else do
    let t1 ← fdiv (((c.tp : ℚ) - e.1) ^ 2) e.1
    let t2 ← fdiv (((c.fp : ℚ) - e.2.1) ^ 2) e.2.1
    let t3 ← fdiv (((c.fn : ℚ) - e.2.2.1) ^ 2) e.2.2.1
    let t4 ← fdiv (((c.tn : ℚ) - e.2.2.2) ^ 2) e.2.2.2
    pure (t1 + t2 + t3 + t4)

/-- An element of `scores` in `main`, a `pair<size_t, double>`: the 1-based column number and
the normalised score. -/
abbrev ScoreEntry := Nat × ℚ

/-- The comparator `main` passes to `sort`: `a.second > b.second`. -/
def scoreGreater (a b : ScoreEntry) : Bool := decide (a.2 > b.2)

/-- The library function `std::sort(first, last, comp)`, after its contract in the C++
standard: `output` is what the range may hold afterwards when it held `input` before, namely
a permutation of `input` in which no element is ordered by `comp` before an element that
precedes it. The standard does not fix the order of elements that `comp` leaves unordered. -/
def StdSort {α : Type} (comp : α → α → Bool) (input output : List α) : Prop :=
  output.Perm input ∧ output.Pairwise (fun x y => comp y x = false)

/-- One sorting function within the contract of `std::sort` for the comparator of `main`:
insertion of each entry after the entries whose score is at least its own. -/
def rankStable (scores : List ScoreEntry) : List ScoreEntry :=
  scores.insertionSort (fun a b => b.2 ≤ a.2)

/-- The loop `for (col = 0; col < NUM_COLS; ++col)` of `main` that fills `scores`, up to
`col`: a column whose flag is false is skipped, otherwise `(col + 1, score / numRows)` is
appended with `score = chiSquare(columns[col], target, numRows)`. -/
def scoreLoop (columns : List bitset_t) (isBinary : List Bool) (target : bitset_t)
    (numRows : Nat) : Nat → Option (List ScoreEntry)
  | 0 => some []
  | col + 1 =>
    match scoreLoop columns isBinary target numRows col with
    | none => none
    | some scores =>
      match isBinary[col]? with
      | none => none
      | some false => some scores
      | some true =>
        match columns[col]? with
        | none => none
        | some column =>
          match normalizedScore column target numRows with
          | none => none
          | some score => some (scores ++ [(col + 1, score)])

/-- The function `main` up to the call of `sort`: the vector `scores`. The result is `none`
when `main` does not get there with defined scores (`parseCSVFile` does not return, a vector
is accessed outside its range, or a score is `0/0`, which happens for zero rows). -/
def mainScores (file : Option (List String)) (junk : Nat → row_t) : Option (List ScoreEntry) :=
  match parseCSVFile file junk [] [] with
  | Except.error _ => none
  | Except.ok (numRows, columns, isBinary) =>
    match columns[NUM_COLS - 1]? with
    | none => none
    | some target => scoreLoop columns isBinary target numRows NUM_COLS

/-- The function `main`: `out` is a ranked output of `main` on the file, the vector `scores`
after `sort(scores.begin(), scores.end(), comparator)`, which is then written line by line. -/
def mainRanked (file : Option (List String)) (junk : Nat → row_t) (out : List ScoreEntry) :
    Prop :=
  ∃ scores, mainScores file junk = some scores ∧ StdSort scoreGreater scores out

/-- The fields of a line: the tokens `parseRow` reads from it. -/
def fieldsOf (line : String) : List String := getlineTokens [] line.data

/-- The decoded row of a complete record: slot `j` holds the code of field `j`. -/
def decodeLine (line : String) : row_t :=
  (List.range NUM_COLS).map (fun j => slotCode j ((fieldsOf line).getD j ""))

/-- A complete record: at least `NUM_COLS` fields. -/
def complete (line : String) : Prop := NUM_COLS ≤ (fieldsOf line).length

/-- No attribute field of the line makes `stoi` throw. -/
def decodable (line : String) : Prop :=
  ∀ k, k < NUM_COLS - 1 → fieldThrows ((fieldsOf line).getD k "") = false

/-- A 4-row dataset: attribute 1 has the values `0,1,7,0`, attribute 2 is constantly `1`,
attribute 3 has `0,1,1,0`, attribute 4 has `0,0,1,1`, the other attributes are `0`, and the
labels are `normal, attack, attack, normal`. -/
def exampleLines : List String :=
  ["0,1,0,0,0,0,0,0,0,0,0,0,0,0,0,0,0,0,0,0,0,0,0,0,0,0,0,0,0,0,0,0,0,0,0,0,0,0,0,0,0,normal",
   "1,1,1,0,0,0,0,0,0,0,0,0,0,0,0,0,0,0,0,0,0,0,0,0,0,0,0,0,0,0,0,0,0,0,0,0,0,0,0,0,0,attack",
   "7,1,1,1,0,0,0,0,0,0,0,0,0,0,0,0,0,0,0,0,0,0,0,0,0,0,0,0,0,0,0,0,0,0,0,0,0,0,0,0,0,attack",
   "0,1,0,1,0,0,0,0,0,0,0,0,0,0,0,0,0,0,0,0,0,0,0,0,0,0,0,0,0,0,0,0,0,0,0,0,0,0,0,0,0,normal"]

/-! ## Records and their fields -/

/-- The pieces of a line between its commas, an empty piece included: a line with `c` commas
has `c + 1` pieces. -/
def splitFields (cur : List Char) : List Char → List String
  | [] => [String.mk cur.reverse]
  | c :: cs =>
    if c = ',' then String.mk cur.reverse :: splitFields [] cs
    else splitFields (c :: cur) cs

/-- The fields of a record: the texts between the commas of its line. A record that ends in a
comma has an empty last field. -/
def recordFields (line : String) : List String := splitFields [] line.data

/-- Field `i` of the record is its last field and is empty: the line is empty or ends in a
comma, and `getline` yields no token for this field. -/
def trailingEmpty (line : String) (i : Nat) : Prop :=
  i + 1 = (recordFields line).length ∧ (recordFields line).getD i "" = ""

/-- A record of 42 fields whose label field is empty: 41 attribute fields `0`, each followed by
a comma. -/
def emptyLabelLine : String :=
  "0,0,0,0,0,0,0,0,0,0,0,0,0,0,0,0,0,0,0,0,0,0,0,0,0,0,0,0,0,0,0,0,0,0,0,0,0,0,0,0,0,"

/-! ## The scorer in `double` arithmetic -/

/-- Rounding of a rational to the nearest `double` (IEEE 754 binary64: 53 significant bits,
round to nearest, ties to even). The exponent range is not modelled: no overflow and no
subnormal number arises from the counts of the program. -/
def roundDouble (q : ℚ) : ℚ :=
  if q = 0 then 0
  else
    let ulp : ℚ := 2 ^ (Int.log 2 |q| - 52)
    let t : ℚ := |q| / ulp
    let m : ℤ := ⌊t⌋
    let k : ℤ := if t - m < 1 / 2 ∨ (t - m = 1 / 2 ∧ m % 2 = 0) then m else m + 1
    (if q < 0 then -1 else 1) * k * ulp

/-- Division of `double`s: the quotient rounded to the nearest `double`; `none` when the
divisor is zero (the result is then not a finite number). -/
def ddiv (a b : ℚ) : Option ℚ := if b = 0 then none else some (roundDouble (a / b))

/-- Lines 54 to 60 of `chiSquare` in `double` arithmetic: the margins `row1, row2, col1,
col2` (the `int` sums converted to `double`) and the expected counts `e1, e2, e3, e4`, each
product and each quotient rounded to the nearest `double`; `numRows` is converted to `double`
for the division. -/
def expectedCountsDouble (c : Counts) (numRows : Nat) : Option (ℚ × ℚ × ℚ × ℚ) := do
  let row1 : ℚ := roundDouble ((c.tp + c.fp : Nat) : ℚ)
  let row2 : ℚ := roundDouble ((c.tn + c.fn : Nat) : ℚ)
  let col1 : ℚ := roundDouble ((c.tp + c.fn : Nat) : ℚ)
  let col2 : ℚ := roundDouble ((c.fp + c.tn : Nat) : ℚ)
  let n : ℚ := roundDouble (numRows : ℚ)
  let e1 ← ddiv (roundDouble (row1 * col1)) n
  let e2 ← ddiv (roundDouble (row1 * col2)) n
  let e3 ← ddiv (roundDouble (row2 * col1)) n
  let e4 ← ddiv (roundDouble (row2 * col2)) n
  pure (e1, e2, e3, e4)

/-- One term `pow(o - e, 2) / e` of the sum in `chiSquare`, in `double` arithmetic: the counter
`o` is converted to `double`, the difference, the square and the quotient are each rounded to
the nearest `double`. The square is taken as the rounded product of the difference with
itself, which is what the compiler makes of `pow(x, 2)` when it optimises; the library
function `pow` returns the same `double` on the arguments evaluated below. -/
def chiTermDouble (o : Nat) (e : ℚ) : Option ℚ :=
  ddiv (roundDouble (roundDouble (roundDouble (o : ℚ) - e) ^ 2)) e

/-- Lines 62 to 69 of `chiSquare` in `double` arithmetic: the guard on the expected counts and
the sum of the four terms, added from left to right. -/
def chiSumDouble (c : Counts) (e : ℚ × ℚ × ℚ × ℚ) : Option ℚ :=
  if e.1 = 0 ∨ e.2.1 = 0 ∨ e.2.2.1 = 0 ∨ e.2.2.2 = 0 then pure 0
  else do
    let t1 ← chiTermDouble c.tp e.1
    let t2 ← chiTermDouble c.fp e.2.1
    let t3 ← chiTermDouble c.fn e.2.2.1
    let t4 ← chiTermDouble c.tn e.2.2.2
    pure (roundDouble (roundDouble (roundDouble (t1 + t2) + t3) + t4))

/-- The function `chiSquare` in `double` arithmetic: the counting loop, the expected counts
and the guarded sum, every arithmetic operation rounding its exact result to the nearest
`double`. -/
def chiSquareDouble (feature target : bitset_t) (numRows : Nat) : Option ℚ :=
  (countLoop feature target numRows).bind
    (fun c => (expectedCountsDouble c numRows).bind (chiSumDouble c))

/-- The score `main` stores for a column in `double` arithmetic: `score / numRows`. -/
def normalizedScoreDouble (feature target : bitset_t) (numRows : Nat) : Option ℚ :=
  (chiSquareDouble feature target numRows).bind
    (fun score => ddiv score (roundDouble (numRows : ℚ)))

/-! ## The sort of the GNU C++ library -/

/-- The call `comp(i, j)` on two positions of the range; `none` when a position lies outside
the vector. -/
def compAt {α : Type} (comp : α → α → Bool) (v : List α) (i j : Nat) : Option Bool :=
  match v[i]?, v[j]? with
  | some x, some y => some (comp x y)
  | _, _ => none

/-- The library function `std::iter_swap(i, j)`; `none` when a position lies outside
the vector. -/
def iterSwap {α : Type} (v : List α) (i j : Nat) : Option (List α) :=
  match v[i]?, v[j]? with
  | some x, some y => some ((v.set i y).set j x)
  | _, _ => none

/-- The function `__move_median_to_first(result, a, b, c, comp)` of libstdc++: swaps the
median of the elements at `a`, `b`, `c` with the element at `result`. -/
def moveMedianToFirst {α : Type} (comp : α → α → Bool) (v : List α) (result a b c : Nat) :
    Option (List α) := do
  if (← compAt comp v a b) then
    if (← compAt comp v b c) then iterSwap v result b
    else if (← compAt comp v a c) then iterSwap v result c
    else iterSwap v result a
  else if (← compAt comp v a c) then iterSwap v result a
  else if (← compAt comp v b c) then iterSwap v result c
  else iterSwap v result b

/-- The loop `while (comp(first, pivot)) ++first;` of `__unguarded_partition`: the position it
stops at; `none` when it runs beyond the last element of the vector. The first argument bounds
the number of iterations; the caller passes more than the length of the vector, which the loop
cannot use up. -/
def scanUp {α : Type} (comp : α → α → Bool) (v : List α) (pivot : Nat) :
    Nat → Nat → Option Nat
  | 0, _ => none
  | fuel + 1, first => do
    if (← compAt comp v first pivot) then scanUp comp v pivot fuel (first + 1) else pure first

/-- The loop `while (comp(pivot, last)) --last;` of `__unguarded_partition`: the position it
stops at; `none` when it runs below the first element of the vector. The first argument
bounds the number of iterations, as in `scanUp`. -/
def scanDown {α : Type} (comp : α → α → Bool) (v : List α) (pivot : Nat) :
    Nat → Nat → Option Nat
  | 0, _ => none
  | fuel + 1, last => do
    if (← compAt comp v pivot last) then
      if last = 0 then none else scanDown comp v pivot fuel (last - 1)
    else pure last

/-- The function `__unguarded_partition(first, last, pivot, comp)` of libstdc++: the loop
`while (true)` that moves `first` up and `last` down and swaps the two elements until the
positions meet; it returns the position `first` and leaves the range partitioned. Every
iteration but the last moves `first` up, so that a bound above the length of the vector is
never used up. -/
def unguardedPartition {α : Type} (comp : α → α → Bool) (pivot : Nat) :
    Nat → List α → Nat → Nat → Option (Nat × List α)
  | 0, _, _, _ => none
  | fuel + 1, v, first, last => do
    let first1 ← scanUp comp v pivot (v.length + 1) first
    if last = 0 then none
    else
      let last1 ← scanDown comp v pivot (v.length + 1) (last - 1)
      if first1 < last1 then
        let w ← iterSwap v first1 last1
        unguardedPartition comp pivot fuel w (first1 + 1) last1
      else pure (first1, v)

/-- The function `__introsort_loop(first, last, depth_limit, comp)` of libstdc++: while the
range holds more than 16 elements, partition it around the median of three, sort the upper
part by a recursive call and go on with the lower part. The result is `none` when the depth
limit reaches 0, where the library switches to heap sort, which is not modelled. The first
argument bounds the nesting of the calls; the depth limit `2 * __lg(n)` stays below the bound
`n + 1` that `sortLibstdcxx` passes. -/
def introsortLoop {α : Type} (comp : α → α → Bool) :
    Nat → List α → Nat → Nat → Nat → Option (List α)
  | 0, _, _, _, _ => none
  | fuel + 1, v, first, last, depthLimit =>
    if last - first > 16 then
      if depthLimit = 0 then none
      else do
        let mid := first + (last - first) / 2
        let v1 ← moveMedianToFirst comp v first (first + 1) mid (last - 1)
        let (cut, v2) ← unguardedPartition comp first (v1.length + 1) v1 (first + 1) last
        let v3 ← introsortLoop comp fuel v2 cut last (depthLimit - 1)
        introsortLoop comp fuel v3 first cut (depthLimit - 1)
    else some v

/-- The function `__unguarded_linear_insert(last, comp)` of libstdc++ with `val` the element
taken out of position `last`: elements before it that `val` is ordered before move up by one
position, then `val` is stored; `none` when the scan runs below the first element of the
vector. The first argument bounds the number of iterations, as in `scanUp`. -/
def unguardedLinearInsert {α : Type} (comp : α → α → Bool) (val : α) :
    Nat → List α → Nat → Option (List α)
  | 0, _, _ => none
  | fuel + 1, v, last =>
    if last = 0 then none
    else
      match v[last - 1]? with
      | none => none
      | some x =>
        if comp val x then unguardedLinearInsert comp val fuel (v.set last x) (last - 1)
        else some (v.set last val)

/-- The loop `for (i = first + 1; i != last; ++i)` of `__insertion_sort(first, last, comp)` of
libstdc++, with `count` iterations left: an element ordered before the first one is moved to
the front (`move_backward`), any other is inserted by `__unguarded_linear_insert`. -/
def insertionSortLoop {α : Type} (comp : α → α → Bool) (first : Nat) :
    Nat → Nat → List α → Option (List α)
  | 0, _, v => some v
  | count + 1, i, v =>
    match v[i]?, v[first]? with
    | some x, some f =>
      if comp x f then
        insertionSortLoop comp first count (i + 1)
          (v.take first ++ x :: ((v.drop first).take (i - first) ++ v.drop (i + 1)))
      else
        (unguardedLinearInsert comp x (v.length + 1) v i).bind
          (insertionSortLoop comp first count (i + 1))
    | _, _ => none

/-- The function `__insertion_sort(first, last, comp)` of libstdc++. -/
def insertionSort {α : Type} (comp : α → α → Bool) (v : List α) (first last : Nat) :
    Option (List α) :=
  if first = last then some v else insertionSortLoop comp first (last - (first + 1)) (first + 1) v

/-- The function `__unguarded_insertion_sort(first, last, comp)` of libstdc++, with `count`
iterations left. -/
def unguardedInsertionSort {α : Type} (comp : α → α → Bool) :
    Nat → Nat → List α → Option (List α)
  | 0, _, v => some v
  | count + 1, i, v =>
    match v[i]? with
    | none => none
    | some x =>
      (unguardedLinearInsert comp x (v.length + 1) v i).bind
        (unguardedInsertionSort comp count (i + 1))

/-- The function `__final_insertion_sort(first, last, comp)` of libstdc++. -/
def finalInsertionSort {α : Type} (comp : α → α → Bool) (v : List α) (first last : Nat) :
    Option (List α) :=
  if last - first > 16 then
    (insertionSort comp v first (first + 16)).bind
      (unguardedInsertionSort comp (last - (first + 16)) (first + 16))
  else insertionSort comp v first last

/-- The loop behind `std::__lg(n)`, the position of the highest set bit of `n`: halving until
the value is below 2. -/
def lgLoop : Nat → Nat → Nat
  | 0, _ => 0
  | fuel + 1, n => if n < 2 then 0 else lgLoop fuel (n / 2) + 1

/-- The library function `std::__lg(n)`: the floor of the binary logarithm of `n`. -/
def lg (n : Nat) : Nat := lgLoop n n

/-- The library function `std::sort(first, last, comp)` as the GNU C++ library (libstdc++,
`bits/stl_algo.h`) implements it, on the whole vector: `__introsort_loop` with the depth limit
`2 * __lg(last - first)`, then `__final_insertion_sort`. -/
def sortLibstdcxx {α : Type} (comp : α → α → Bool) (v : List α) : Option (List α) :=
  if v.length = 0 then some v
  else
    (introsortLoop comp (v.length + 1) v 0 v.length (2 * lg v.length)).bind
      (fun w => finalInsertionSort comp w 0 w.length)

/-- The vector `scores` that `main` builds when every one of the 42 columns is constant (as
in a dataset of one record): the identifiers 1 to 42 in ascending order, each with score 0. -/
def tiedScores : List ScoreEntry :=
  (List.range 42).map (fun i => (i + 1, 0))

/-- The order in which the `std::sort` of libstdc++ leaves the 42 entries of `tiedScores`. -/
def tiedRanked : List ScoreEntry :=
  [33, 23, 24, 25, 26, 27, 28, 29, 30, 31, 32, 22, 34, 35, 36, 37, 38, 39, 40, 41, 42,
    12, 2, 3, 4, 5, 6, 7, 8, 9, 10, 11, 1, 13, 14, 15, 16, 17, 18, 19, 20, 21].map
    (fun i => (i, 0))

/-! ## Lemmas and theorems -/

theorem testBit_not64 (x i : Nat) :
    (not64 x).testBit i = (decide (i < 64) && !x.testBit i) := by
  have hx : x % 2 ^ 64 < 2 ^ 64 := Nat.mod_lt _ (by positivity)
  have h := Nat.testBit_two_pow_sub_succ hx i
  have e : not64 x = 2 ^ 64 - (x % 2 ^ 64 + 1) := by
    unfold not64 WORD; omega
  rw [e, h, Nat.testBit_mod_two_pow]
  by_cases hi : i < 64 <;> simp [hi]

theorem testBit_mod_WORD (x i : Nat) :
    (x % WORD).testBit i = (decide (i < 64) && x.testBit i) :=
  Nat.testBit_mod_two_pow x 64 i

theorem getBit_eq (column : bitset_t) (row : Nat) :
    getBit column row = (column[row / 64]?).map (fun w => w.testBit (row % 64)) := by
  simp only [getBit, BITS_PER_BLOCK]
  cases h : column[row / 64]? with
  | none => simp
  | some w => simp [Nat.testBit, Nat.and_comm]

theorem blockIndex_lt {len r : Nat} (h : r < BITS_PER_BLOCK * len) : r / 64 < len := by
  unfold BITS_PER_BLOCK at h
  exact Nat.div_lt_of_lt_mul h

theorem setBit_eq (column : bitset_t) (row : Nat) (value : Bool) :
    setBit column row value = (column[row / 64]?).map (fun w =>
      column.set (row / 64) (if value then (w ||| (2 ^ (row % 64))) % WORD
        else (w &&& not64 (2 ^ (row % 64))) % WORD)) := by
  have hb : (1 <<< (row % 64)) % WORD = 2 ^ (row % 64) := by
    rw [Nat.one_shiftLeft]
    apply Nat.mod_eq_of_lt
    exact Nat.pow_lt_pow_right (by norm_num) (Nat.mod_lt _ (by norm_num))
  simp only [setBit, BITS_PER_BLOCK]
  cases h : column[row / 64]? with
  | none => simp
  | some w => cases value <;> simp [hb]

theorem setBit_length {column c : bitset_t} {row : Nat} {value : Bool}
    (h : setBit column row value = some c) : c.length = column.length := by
  rw [setBit_eq] at h
  cases hw : column[row / 64]? with
  | none => simp [hw] at h
  | some w => simp [hw] at h; subst h; simp

theorem newWord_testBit (w b : Nat) (value : Bool) (i : Nat) (hi : i < 64) :
    (if value then (w ||| (2 ^ b)) % WORD else (w &&& not64 (2 ^ b)) % WORD).testBit i
      = if b = i then value else w.testBit i := by
  cases value
  · simp only [Bool.false_eq_true, if_false, testBit_mod_WORD, Nat.testBit_and, testBit_not64, Nat.testBit_two_pow]
    by_cases hb : b = i <;> simp [hb, hi]
  · simp only [if_true, testBit_mod_WORD, Nat.testBit_or, Nat.testBit_two_pow]
    by_cases hb : b = i <;> simp [hb, hi]

theorem setBit_getBit (column : bitset_t) (r : Nat) (v : Bool)
    (h : r < BITS_PER_BLOCK * column.length) :
    ∃ c, setBit column r v = some c ∧ getBit c r = some v := by
  have hlt := blockIndex_lt h
  rw [setBit_eq, List.getElem?_eq_getElem hlt]
  refine ⟨_, rfl, ?_⟩
  rw [getBit_eq, List.getElem?_set_self hlt, Option.map_some', 
    newWord_testBit _ _ _ _ (Nat.mod_lt _ (by norm_num))]
  simp

theorem getBit_of_lt {column : bitset_t} {i : Nat} (h : i < BITS_PER_BLOCK * column.length) :
    getBit column i = some (bitAt column i) := by
  have hlt := blockIndex_lt h
  rw [getBit_eq, List.getElem?_eq_getElem hlt]
  simp [bitAt, List.getD_eq_getElem?_getD, List.getElem?_eq_getElem hlt]

theorem cellCount_zero (feature target : bitset_t) (a b : Bool) :
    cellCount feature target 0 a b = 0 := by
  simp [cellCount]

theorem cellCount_succ (feature target : bitset_t) (n : Nat) (a b : Bool) :
    cellCount feature target (n + 1) a b = cellCount feature target n a b
      + (if bitAt feature n = a ∧ bitAt target n = b then 1 else 0) := by
  simp only [cellCount, List.range_succ, List.filter_append, List.length_append]
  by_cases h : bitAt feature n = a ∧ bitAt target n = b
  · simp [h]
  · rw [if_neg h]
    have : (bitAt feature n == a && bitAt target n == b) = false := by
      simpa using h
    simp [List.filter_cons, this]

theorem countLoop_eq (feature target : bitset_t) (n : Nat)
    (hf : n ≤ BITS_PER_BLOCK * feature.length) (ht : n ≤ BITS_PER_BLOCK * target.length) :
    countLoop feature target n = some
      ⟨cellCount feature target n true true, cellCount feature target n false false,
        cellCount feature target n true false, cellCount feature target n false true⟩ := by
  induction n with
  | zero => simp [countLoop, cellCount_zero]
  | succ k ih =>
    have hf1 : k < BITS_PER_BLOCK * feature.length := hf
    have ht1 : k < BITS_PER_BLOCK * target.length := ht
    simp only [countLoop, ih (Nat.le_of_lt hf1) (Nat.le_of_lt ht1), getBit_of_lt hf1,
      getBit_of_lt ht1, cellCount_succ]
    cases bitAt feature k <;> cases bitAt target k <;> simp [Counts.bump]

theorem bump_total (c : Counts) (f t : Bool) :
    (c.bump f t).tp + (c.bump f t).tn + (c.bump f t).fp + (c.bump f t).fn
      = c.tp + c.tn + c.fp + c.fn + 1 := by
  cases f <;> cases t <;> simp [Counts.bump] <;> omega

theorem countLoop_total (feature target : bitset_t) :
    ∀ (n : Nat) (c : Counts), countLoop feature target n = some c →
      c.tp + c.tn + c.fp + c.fn = n := by
  intro n
  induction n with
  | zero =>
    intro c h
    simp only [countLoop, Option.some.injEq] at h
    subst h
    rfl
  | succ k ih =>
    intro c h
    simp only [countLoop, Option.bind_eq_bind, Option.bind_eq_some, Option.pure_def,
      Option.some.injEq] at h
    obtain ⟨c0, hc0, f, _, t, _, hc⟩ := h
    rw [← hc, bump_total, ih c0 hc0]

theorem fdiv_of_ne {a b : ℚ} (h : b ≠ 0) : fdiv a b = some (a / b) := by
  simp [fdiv, h]

theorem chiSquare_eq (feature target : bitset_t) (n : Nat) (hn : 1 ≤ n)
    (hf : n ≤ BITS_PER_BLOCK * feature.length) (ht : n ≤ BITS_PER_BLOCK * target.length) :
    chiSquare feature target n = some
      (if refE1 feature target n = 0 ∨ refE2 feature target n = 0
          ∨ refE3 feature target n = 0 ∨ refE4 feature target n = 0 then 0
        else chiSquareRef feature target n) := by
  have hn0 : (n : ℚ) ≠ 0 := by
    have : 0 < n := hn
    exact_mod_cast this.ne.symm
  unfold chiSquare
  rw [countLoop_eq feature target n hf ht]
  simp only [Option.bind_eq_bind, Option.some_bind, fdiv_of_ne hn0]
  by_cases hz : refE1 feature target n = 0 ∨ refE2 feature target n = 0
      ∨ refE3 feature target n = 0 ∨ refE4 feature target n = 0
  · rw [if_pos hz, if_pos]
    · rfl
    · simpa [refE1, refE2, refE3, refE4, refExpected] using hz
  · rw [if_neg hz, if_neg]
    · have h1 : refE1 feature target n ≠ 0 := fun h => hz (Or.inl h)
      have h2 : refE2 feature target n ≠ 0 := fun h => hz (Or.inr (Or.inl h))
      have h3 : refE3 feature target n ≠ 0 := fun h => hz (Or.inr (Or.inr (Or.inl h)))
      have h4 : refE4 feature target n ≠ 0 := fun h => hz (Or.inr (Or.inr (Or.inr h)))
      simp only [refE1, refE2, refE3, refE4, refExpected] at h1 h2 h3 h4
      simp only [fdiv_of_ne h1, fdiv_of_ne h2, fdiv_of_ne h3, fdiv_of_ne h4,
        Option.some_bind, chiSquareRef, refE1, refE2, refE3, refE4, refExpected]
      rfl
    · simpa [refE1, refE2, refE3, refE4, refExpected] using hz

theorem refExpected_nonneg (r c n : Nat) : 0 ≤ refExpected r c n := by
  unfold refExpected
  positivity

theorem chiSquareRef_nonneg (feature target : bitset_t) (n : Nat) :
    0 ≤ chiSquareRef feature target n := by
  unfold chiSquareRef
  have h1 : 0 ≤ refE1 feature target n := refExpected_nonneg _ _ _
  have h2 : 0 ≤ refE2 feature target n := refExpected_nonneg _ _ _
  have h3 : 0 ≤ refE3 feature target n := refExpected_nonneg _ _ _
  have h4 : 0 ≤ refE4 feature target n := refExpected_nonneg _ _ _
  have s1 := div_nonneg (sq_nonneg ((cellCount feature target n true true : ℚ)
    - refE1 feature target n)) h1
  have s2 := div_nonneg (sq_nonneg ((cellCount feature target n true false : ℚ)
    - refE2 feature target n)) h2
  have s3 := div_nonneg (sq_nonneg ((cellCount feature target n false true : ℚ)
    - refE3 feature target n)) h3
  have s4 := div_nonneg (sq_nonneg ((cellCount feature target n false false : ℚ)
    - refE4 feature target n)) h4
  linarith

theorem cellCount_eq_zero {feature target : bitset_t} {n : Nat} {a : Bool} (b : Bool)
    (h : ∀ i, i < n → bitAt feature i = !a) : cellCount feature target n a b = 0 := by
  simp only [cellCount, List.length_eq_zero, List.filter_eq_nil_iff, List.mem_range]
  intro i hi
  rw [h i hi]
  cases a <;> simp

theorem holds_of_getBit {column : bitset_t} {n : Nat} {v : Bool} (hn : 1 ≤ n)
    (h : getBit column (n - 1) = some v) : n ≤ BITS_PER_BLOCK * column.length := by
  rw [getBit_eq] at h
  have hlt : (n - 1) / 64 < column.length := by
    by_contra hc
    rw [List.getElem?_eq_none (Nat.le_of_not_lt hc)] at h
    simp at h
  have := (Nat.div_lt_iff_lt_mul (by norm_num : 0 < 64)).1 hlt
  unfold BITS_PER_BLOCK
  omega

theorem bitAt_of_getBit {column : bitset_t} {i : Nat} {v : Bool}
    (h : getBit column i = some v) : bitAt column i = v := by
  have hb := holds_of_getBit (Nat.succ_le_succ (Nat.zero_le i)) (by simpa using h)
  have := getBit_of_lt (Nat.lt_of_succ_le hb)
  rw [h] at this
  exact (Option.some.inj this).symm

theorem parseRowLoop_spec (fields : List String) :
    ∀ (i : Nat) (row : row_t), row.length = NUM_COLS →
      (∀ k, k < fields.length → i + k < NUM_COLS - 1 → fieldThrows (fields.getD k "") = false) →
      ∃ out, parseRowLoop fields i row = Except.ok out ∧ out.length = NUM_COLS ∧
        ∀ j, j < NUM_COLS → out[j]? =
          if i ≤ j ∧ j < i + fields.length then some (slotCode j (fields.getD (j - i) ""))
          else row[j]? := by
  induction fields with
  | nil =>
    intro i row hlen _
    refine ⟨row, rfl, hlen, ?_⟩
    intro j _
    have hc : ¬ (i ≤ j ∧ j < i + ([] : List String).length) := by
      simp only [List.length_nil]; omega
    rw [if_neg hc]
  | cons token rest ih =>
    intro i row hlen hok
    have hrest : ∀ k, k < rest.length → (i + 1) + k < NUM_COLS - 1 →
        fieldThrows (rest.getD k "") = false := by
      intro k hk hik
      have := hok (k + 1) (by simpa using hk) (by omega)
      simpa using this
    by_cases hi : i < NUM_COLS
    · by_cases hlast : i = NUM_COLS - 1
      · obtain ⟨out, ho, hl, hs⟩ := ih (i + 1)
          (row.set (NUM_COLS - 1) (if token = "normal" then 0 else 1)) (by simpa using hlen) hrest
        refine ⟨out, ?_, hl, ?_⟩
        · rw [parseRowLoop, if_pos hi, if_pos hlast]; exact ho
        · intro j hj
          rw [hs j hj]
          have hnot : ¬ (i + 1 ≤ j ∧ j < i + 1 + rest.length) := by
            unfold NUM_COLS at hj hlast; omega
          rw [if_neg hnot]
          by_cases hji : j = i
          · subst hji
            have hc : (j ≤ j ∧ j < j + (token :: rest).length) := by simp
            rw [if_pos hc, ← hlast, List.getElem?_set_self (by omega)]
            simp [slotCode, hlast]
          · have hc : ¬ (i ≤ j ∧ j < i + (token :: rest).length) := by
              unfold NUM_COLS at hj hlast; omega
            rw [if_neg hc, ← hlast, List.getElem?_set_ne (Ne.symm hji)]
      · have hthrow := hok 0 (by simp) (by unfold NUM_COLS at hi hlast ⊢; omega)
        simp only [List.getD_cons_zero] at hthrow
        have hstep : parseRowLoop (token :: rest) i row
            = parseRowLoop rest (i + 1) (row.set i (slotCode i token)) := by
          rw [parseRowLoop, if_pos hi, if_neg hlast]
          by_cases hint : isInteger token = true
          · rw [if_pos hint]
            cases hst : stoi token with
            | error e => simp [fieldThrows, hint, hst] at hthrow
            | ok v => simp [slotCode, hlast, hint, hst]
          · rw [if_neg hint]
            simp [slotCode, hlast, hint]
        obtain ⟨out, ho, hl, hs⟩ := ih (i + 1) (row.set i (slotCode i token))
          (by simpa using hlen) hrest
        refine ⟨out, by rw [hstep]; exact ho, hl, ?_⟩
        intro j hj
        rw [hs j hj]
        by_cases hji : j = i
        · subst hji
          have h1 : ¬ (j + 1 ≤ j ∧ j < j + 1 + rest.length) := by omega
          have h2 : (j ≤ j ∧ j < j + (token :: rest).length) := by simp
          rw [if_neg h1, if_pos h2, List.getElem?_set_self (by omega)]
          simp
        · rw [List.getElem?_set_ne (Ne.symm hji)]
          by_cases hin : i + 1 ≤ j ∧ j < i + 1 + rest.length
          · have h2 : (i ≤ j ∧ j < i + (token :: rest).length) := by
              simp only [List.length_cons]; omega
            rw [if_pos hin, if_pos h2]
            have : j - i = (j - (i + 1)) + 1 := by omega
            rw [this, List.getD_cons_succ]
          · have h2 : ¬ (i ≤ j ∧ j < i + (token :: rest).length) := by
              simp only [List.length_cons]; omega
            rw [if_neg hin, if_neg h2]
    · refine ⟨row, ?_, hlen, ?_⟩
      · rw [parseRowLoop, if_neg hi]
      · intro j hj
        have hc : ¬ (i ≤ j ∧ j < i + (token :: rest).length) := by omega
        rw [if_neg hc]

theorem setBit_isSome {column : bitset_t} {r : Nat} (v : Bool)
    (h : r < BITS_PER_BLOCK * column.length) : ∃ c, setBit column r v = some c := by
  obtain ⟨c, hc, _⟩ := setBit_getBit column r v h
  exact ⟨c, hc⟩

theorem columnAfter_length (b : Bool) (v numRows : Nat) (column : bitset_t) :
    (columnAfter b v numRows column).length = column.length := by
  unfold columnAfter
  split
  · cases h : setBit column numRows (v != 0) with
    | none => simp
    | some c => simpa using setBit_length h
  · rfl

theorem encodeCol_spec (row : row_t) (col : Nat) (s : Store) (b : Bool) (v : Nat)
    (column : bitset_t) (hb : s.isBinary[col]? = some b) (hv : row[col]? = some v)
    (hc : s.columns[col]? = some column)
    (hroom : s.numRows < BITS_PER_BLOCK * column.length) :
    encodeCol row col s = some
      { columns := s.columns.set col (columnAfter b v s.numRows column)
        isBinary := s.isBinary.set col (flagAfter b v)
        numRows := s.numRows } := by
  obtain ⟨c, hset⟩ := setBit_isSome (v != 0) hroom
  have hcol : s.columns.set col column = s.columns := by
    apply List.ext_getElem?
    intro j
    by_cases hj : col = j
    · subst hj
      rw [List.getElem?_set_self ((List.getElem?_eq_some_iff.1 hc).1), hc]
    · rw [List.getElem?_set_ne hj]
  have hflag : s.isBinary.set col b = s.isBinary := by
    apply List.ext_getElem?
    intro j
    by_cases hj : col = j
    · subst hj
      rw [List.getElem?_set_self ((List.getElem?_eq_some_iff.1 hb).1), hb]
    · rw [List.getElem?_set_ne hj]
  unfold encodeCol
  rw [hb]
  cases b with
  | false => simp [flagAfter, columnAfter, hcol, hflag]
  | true =>
    simp only [hv, hc, hset]
    by_cases h2 : v = 2
    · simp [h2, flagAfter, columnAfter, hcol]
    · have h2b : (v != 2) = true := by simpa using h2
      simp [h2, h2b, flagAfter, columnAfter, hset, hflag]

theorem encodeCols_spec (row : row_t) (s : Store) (hwf : s.WF) (hrow : row.length = NUM_COLS)
    (hroom : s.room 1) :
    ∀ c, c ≤ NUM_COLS → ∃ t, encodeCols row c s = some t ∧ t.numRows = s.numRows ∧
      t.columns.length = NUM_COLS ∧ t.isBinary.length = NUM_COLS ∧
      (∀ j, j < NUM_COLS → t.isBinary[j]? = some
        (if j < c then flagAfter (s.isBinary.getD j false) (row.getD j 0)
          else s.isBinary.getD j false)) ∧
      (∀ j, j < NUM_COLS → t.columns[j]? = some
        (if j < c then columnAfter (s.isBinary.getD j false) (row.getD j 0) s.numRows
            (s.columns.getD j [])
          else s.columns.getD j [])) := by
  intro c
  induction c with
  | zero =>
    intro _
    refine ⟨s, rfl, rfl, hwf.1, hwf.2, ?_, ?_⟩
    · intro j hj
      simp [List.getD_eq_getElem?_getD, List.getElem?_eq_getElem (hwf.2.symm ▸ hj)]
    · intro j hj
      simp [List.getD_eq_getElem?_getD, List.getElem?_eq_getElem (hwf.1.symm ▸ hj)]
  | succ c ih =>
    intro hc
    have hc1 : c < NUM_COLS := hc
    obtain ⟨t, ht, hnum, hcl, hbl, hflags, hcols⟩ := ih (Nat.le_of_lt hc1)
    have hb := hflags c hc1
    have hcc := hcols c hc1
    rw [if_neg (Nat.lt_irrefl c)] at hb hcc
    have hv : row[c]? = some (row.getD c 0) := by
      simp [List.getD_eq_getElem?_getD, List.getElem?_eq_getElem (hrow.symm ▸ hc1)]
    have hmem : s.columns.getD c [] ∈ s.columns := by
      have hlt : c < s.columns.length := hwf.1.symm ▸ hc1
      simp [List.getD_eq_getElem?_getD, List.getElem?_eq_getElem hlt]
    have hr : t.numRows < BITS_PER_BLOCK * (s.columns.getD c []).length := by
      have := hroom _ hmem
      omega
    have hstep := encodeCol_spec row c t _ _ _ hb hv hcc hr
    refine ⟨{ columns := t.columns.set c (columnAfter (s.isBinary.getD c false)
                  (row.getD c 0) t.numRows (s.columns.getD c []))
              isBinary := t.isBinary.set c (flagAfter (s.isBinary.getD c false) (row.getD c 0))
              numRows := t.numRows }, ?_, hnum, ?_, ?_, ?_, ?_⟩
    · rw [encodeCols, ht]; exact hstep
    · simpa using hcl
    · simpa using hbl
    · intro j hj
      by_cases hjc : j = c
      · subst hjc
        simp [List.getElem?_set_self (hbl.symm ▸ hj)]
      · simp only [List.getElem?_set_ne (Ne.symm hjc), hflags j hj]
        have : (j < c + 1) = (j < c) := by
          apply propext; constructor <;> intro h <;> omega
        simp only [this]
    · intro j hj
      by_cases hjc : j = c
      · subst hjc
        simp [List.getElem?_set_self (hcl.symm ▸ hj), hnum]
      · simp only [List.getElem?_set_ne (Ne.symm hjc), hcols j hj]
        have : (j < c + 1) = (j < c) := by
          apply propext; constructor <;> intro h <;> omega
        simp only [this]

theorem getD_mem_of_lt {α : Type} {l : List α} {j : Nat} (d : α) (h : j < l.length) :
    l.getD j d ∈ l := by
  simp [List.getD_eq_getElem?_getD, List.getElem?_eq_getElem h]

theorem getElem?_eq_some_getD {α : Type} {l : List α} {j : Nat} (d : α) (h : j < l.length) :
    l[j]? = some (l.getD j d) := by
  simp [List.getD_eq_getElem?_getD, List.getElem?_eq_getElem h]

theorem getD_of_getElem? {α : Type} {l : List α} {j : Nat} {a : α} (d : α)
    (h : l[j]? = some a) : l.getD j d = a := by
  simp [List.getD_eq_getElem?_getD, h]

theorem encodeRow_spec (row : row_t) (s : Store) (hwf : s.WF) (hrow : row.length = NUM_COLS)
    (hroom : s.room 1) :
    ∃ t, encodeRow row s = some t ∧ t.numRows = s.numRows + 1 ∧ t.WF ∧
      (∀ j, j < NUM_COLS → t.isBinary[j]? = some
        (flagAfter (s.isBinary.getD j false) (row.getD j 0))) ∧
      (∀ j, j < NUM_COLS → t.columns[j]? = some
        (columnAfter (s.isBinary.getD j false) (row.getD j 0) s.numRows
          (s.columns.getD j []))) := by
  obtain ⟨t, ht, hnum, hcl, hbl, hflags, hcols⟩ :=
    encodeCols_spec row s hwf hrow hroom NUM_COLS (Nat.le_refl _)
  refine ⟨{ t with numRows := t.numRows + 1 }, ?_, ?_, ⟨hcl, hbl⟩, ?_, ?_⟩
  · simp [encodeRow, ht]
  · simp [hnum]
  · intro j hj
    have := hflags j hj
    rw [if_pos hj] at this
    exact this
  · intro j hj
    have := hcols j hj
    rw [if_pos hj] at this
    exact this

theorem room_step {s t : Store} {k : Nat} (hwf : s.WF) (hroom : s.room (k + 1))
    (hnum : t.numRows = s.numRows + 1) (htl : t.columns.length = NUM_COLS)
    (hlen : ∀ j, j < NUM_COLS → (t.columns.getD j []).length = (s.columns.getD j []).length) :
    t.room k := by
  intro column hmem
  obtain ⟨j, hj, hget⟩ := List.getElem_of_mem hmem
  have hj42 : j < NUM_COLS := htl ▸ hj
  have h1 : t.columns.getD j [] = column := by
    rw [getD_of_getElem? [] ((List.getElem?_eq_some_iff).2 ⟨hj, hget⟩)]
  have h2 := hroom _ (getD_mem_of_lt ([] : bitset_t) (hwf.1.symm ▸ hj42 : j < s.columns.length))
  have h3 := hlen j hj42
  rw [h1] at h3
  rw [h3, hnum]
  omega

theorem room_mono {s : Store} {k m : Nat} (h : s.room k) (hm : m ≤ k) : s.room m := by
  intro column hmem
  have := h column hmem
  omega

theorem encodeRows_spec (rows : List row_t) :
    ∀ s : Store, s.WF → (∀ row, row ∈ rows → row.length = NUM_COLS) → s.room rows.length →
    ∃ t, encodeRows rows s = some t ∧ t.numRows = s.numRows + rows.length ∧ t.WF ∧
      (∀ j, j < NUM_COLS → t.isBinary[j]? = some
        (s.isBinary.getD j false && rows.all (fun row => row.getD j 0 != 2))) ∧
      (∀ j, j < NUM_COLS → (t.columns.getD j []).length = (s.columns.getD j []).length) ∧
      (∀ j, j < NUM_COLS → s.isBinary.getD j false = false →
        t.columns[j]? = s.columns[j]?) := by
  induction rows with
  | nil =>
    intro s hwf _ _
    refine ⟨s, rfl, rfl, hwf, ?_, ?_, ?_⟩
    · intro j hj
      simpa using getElem?_eq_some_getD false (hwf.2.symm ▸ hj : j < s.isBinary.length)
    · intro j _; rfl
    · intro j _ _; rfl
  | cons row rest ih =>
    intro s hwf hrows hroom
    have hrow : row.length = NUM_COLS := hrows row (List.mem_cons_self _ _)
    obtain ⟨u, hu, hunum, huwf, huflags, hucols⟩ :=
      encodeRow_spec row s hwf hrow (room_mono hroom (by simp))
    have hulen : ∀ j, j < NUM_COLS →
        (u.columns.getD j []).length = (s.columns.getD j []).length := by
      intro j hj
      rw [getD_of_getElem? [] (hucols j hj), columnAfter_length]
    have huroom : u.room rest.length := room_step hwf hroom hunum huwf.1 hulen
    obtain ⟨t, ht, htnum, htwf, htflags, htlen, htlatch⟩ :=
      ih u huwf (fun r hr => hrows r (List.mem_cons_of_mem _ hr)) huroom
    refine ⟨t, ?_, ?_, htwf, ?_, ?_, ?_⟩
    · simp [encodeRows, hu, ht]
    · rw [htnum, hunum, List.length_cons]; omega
    · intro j hj
      rw [htflags j hj, getD_of_getElem? false (huflags j hj)]
      simp [flagAfter, Bool.and_assoc]
    · intro j hj
      rw [htlen j hj, hulen j hj]
    · intro j hj hfalse
      have hu1 : u.isBinary.getD j false = false := by
        rw [getD_of_getElem? false (huflags j hj), hfalse]; rfl
      rw [htlatch j hj hu1, hucols j hj, hfalse]
      simp only [columnAfter, Bool.false_and, Bool.false_eq_true, if_false]
      exact (getElem?_eq_some_getD [] (hwf.1.symm ▸ hj : j < s.columns.length)).symm

theorem parseRowLoop_length (fields : List String) :
    ∀ (i : Nat) (row out : row_t), parseRowLoop fields i row = Except.ok out →
      out.length = row.length := by
  induction fields with
  | nil =>
    intro i row out h
    simp only [parseRowLoop, Except.ok.injEq] at h
    rw [← h]
  | cons token rest ih =>
    intro i row out h
    rw [parseRowLoop] at h
    split at h
    · split at h
      · simpa using ih _ _ _ h
      · split at h
        · split at h
          · cases h
          · simpa using ih _ _ _ h
        · simpa using ih _ _ _ h
    · simp only [Except.ok.injEq] at h
      rw [← h]

theorem parseRow_length {line : String} {buf out : row_t}
    (h : parseRow line buf = Except.ok out) : out.length = buf.length :=
  parseRowLoop_length _ _ _ _ h

theorem numBlocks_500000 : numBlocks 500000 = 7813 := by decide

theorem capacity_eq : CAPACITY = 500032 := by
  simp [CAPACITY, numBlocks_500000, BITS_PER_BLOCK]

theorem initStore_wf : (initStore [] []).WF := by
  simp [Store.WF, initStore, resize]

theorem initStore_room : (initStore [] []).room CAPACITY := by
  intro column hmem
  simp only [initStore, resize, List.take_nil, List.nil_append, List.length_nil,
    List.mem_replicate] at hmem
  rw [hmem.2]
  simp [initStore, CAPACITY]

theorem parseLoop_nil (junk : Nat → row_t) (s : Store) :
    parseLoop junk [] s = Except.ok s := rfl

theorem parseLoop_cons (junk : Nat → row_t) (line : String) (rest : List String) (s : Store) :
    parseLoop junk (line :: rest) s =
      match parseRow line (junk s.numRows) with
      | Except.error e => Except.error (Fault.uncaught e)
      | Except.ok row =>
        match encodeRow row s with
        | none => Except.error Fault.outOfBounds
        | some t => parseLoop junk rest t := rfl

theorem parseLoop_in_bounds (junk : Nat → row_t) (hjunk : ∀ k, (junk k).length = NUM_COLS)
    (lines : List String) :
    ∀ s : Store, s.WF → s.room lines.length →
      parseLoop junk lines s ≠ Except.error Fault.outOfBounds := by
  induction lines with
  | nil =>
    intro s _ _ h
    rw [parseLoop_nil] at h
    cases h
  | cons line rest ih =>
    intro s hwf hroom
    rw [parseLoop_cons]
    cases hp : parseRow line (junk s.numRows) with
    | error e =>
      intro h
      cases h
    | ok row =>
      have hrow : row.length = NUM_COLS := by rw [parseRow_length hp, hjunk]
      obtain ⟨t, ht, htnum, htwf, _, htcols⟩ :=
        encodeRow_spec row s hwf hrow (room_mono hroom (by simp))
      have htlen : ∀ j, j < NUM_COLS →
          (t.columns.getD j []).length = (s.columns.getD j []).length := by
        intro j hj
        rw [getD_of_getElem? [] (htcols j hj), columnAfter_length]
      simp only [ht]
      exact ih t htwf (room_step hwf hroom htnum htwf.1 htlen)

theorem encodeRows_append (xs ys : List row_t) :
    ∀ s : Store, encodeRows (xs ++ ys) s = (encodeRows xs s).bind (encodeRows ys) := by
  induction xs with
  | nil => intro s; rfl
  | cons x rest ih =>
    intro s
    simp only [List.cons_append, encodeRows]
    cases encodeRow x s with
    | none => rfl
    | some t => simpa using ih t

theorem parseLoop_replicate (junk : Nat → row_t) (line : String) (row : row_t)
    (hp : ∀ n, parseRow line (junk n) = Except.ok row) :
    ∀ (k : Nat) (s : Store), parseLoop junk (List.replicate k line) s =
      match encodeRows (List.replicate k row) s with
      | none => Except.error Fault.outOfBounds
      | some t => Except.ok t := by
  intro k
  induction k with
  | zero => intro s; rfl
  | succ k ih =>
    intro s
    rw [List.replicate_succ, List.replicate_succ, parseLoop_cons, hp]
    simp only [encodeRows]
    cases encodeRow row s with
    | none => rfl
    | some t => simpa using ih t

theorem setBit_none {column : bitset_t} {r : Nat} (v : Bool)
    (h : BITS_PER_BLOCK * column.length ≤ r) : setBit column r v = none := by
  have hle : column.length ≤ r / 64 := by
    unfold BITS_PER_BLOCK at h
    exact (Nat.le_div_iff_mul_le (by norm_num)).2 (by omega)
  rw [setBit_eq, List.getElem?_eq_none hle]
  rfl

theorem encodeCols_none (row : row_t) (s : Store) (c : Nat) (h : encodeCols row c s = none) :
    ∀ d, c ≤ d → encodeCols row d s = none := by
  intro d hd
  induction d with
  | zero =>
    have : c = 0 := by omega
    subst this
    exact h
  | succ d ih =>
    by_cases hc : c = d + 1
    · subst hc; exact h
    · rw [encodeCols, ih (by omega)]
      rfl

theorem encodeRow_overflow (row : row_t) (s : Store) (v : Nat) (column : bitset_t)
    (hb : s.isBinary[0]? = some true) (hv : row[0]? = some v) (h2 : v ≠ 2)
    (hc : s.columns[0]? = some column) (hfull : BITS_PER_BLOCK * column.length ≤ s.numRows) :
    encodeRow row s = none := by
  have h1 : encodeCols row 1 s = none := by
    simp only [encodeCols, Option.some_bind, encodeCol, hb, hv, hc, if_neg h2,
      setBit_none (v != 0) hfull]
  have := encodeCols_none row s 1 h1 NUM_COLS (by decide)
  simp [encodeRow, this]

theorem zeroLine_tokens :
    getlineTokens [] zeroLine.data = List.replicate 41 "0" ++ ["normal"] := by
  decide

theorem zeroFields_row :
    parseRowFields (List.replicate 41 "0" ++ ["normal"]) (List.replicate NUM_COLS 0)
      = Except.ok (List.replicate NUM_COLS 0) := rfl

theorem zeroLine_row (buf : row_t) (h : buf = List.replicate NUM_COLS 0) :
    parseRow zeroLine buf = Except.ok (List.replicate NUM_COLS 0) := by
  rw [parseRow, zeroLine_tokens, h, zeroFields_row]

theorem parseCSVFile_cons (hdr : String) (lines : List String) (junk : Nat → row_t)
    (columns : List bitset_t) (isBinary : List Bool) :
    parseCSVFile (some (hdr :: lines)) junk columns isBinary =
      match parseLoop junk lines (initStore columns isBinary) with
      | Except.error e => Except.error e
      | Except.ok s => Except.ok (s.numRows, s.columns, s.isBinary) := rfl

theorem encodeRows_overflow (k : Nat) (hk : k = CAPACITY) :
    encodeRows (List.replicate (k + 1) (List.replicate NUM_COLS 0)) (initStore [] []) = none := by
  have hrows : ∀ row, row ∈ List.replicate k (List.replicate NUM_COLS 0) →
      row.length = NUM_COLS := by
    intro row hr
    rw [(List.mem_replicate.1 hr).2, List.length_replicate]
  have hroom : (initStore [] []).room (List.replicate k (List.replicate NUM_COLS 0)).length := by
    rw [List.length_replicate, hk]
    exact initStore_room
  obtain ⟨t, ht, htnum, htwf, htflags, htlen, _⟩ :=
    encodeRows_spec (List.replicate k (List.replicate NUM_COLS 0)) (initStore [] [])
      initStore_wf hrows hroom
  have h0 : 0 < NUM_COLS := by decide
  have hflag : t.isBinary[0]? = some true := by
    rw [htflags 0 h0]
    have h1 : (initStore [] []).isBinary.getD 0 false = true := by
      simp [initStore, resize, NUM_COLS]
    have h2 : (List.replicate k (List.replicate NUM_COLS 0)).all
        (fun row => row.getD 0 0 != 2) = true := by
      rw [List.all_eq_true]
      intro row hr
      rw [(List.mem_replicate.1 hr).2]
      decide
    rw [h1, h2]
    rfl
  have hcol : t.columns[0]? = some (t.columns.getD 0 []) :=
    getElem?_eq_some_getD [] (htwf.1.symm ▸ h0 : 0 < t.columns.length)
  have hlen : (t.columns.getD 0 []).length = numBlocks 500000 := by
    rw [htlen 0 h0]
    simp [initStore, resize, NUM_COLS]
  have hfull : BITS_PER_BLOCK * (t.columns.getD 0 []).length ≤ t.numRows := by
    rw [hlen, htnum, List.length_replicate, hk]
    simp [CAPACITY, initStore]
  have hlast : encodeRow (List.replicate NUM_COLS 0) t = none :=
    encodeRow_overflow (List.replicate NUM_COLS 0) t 0 (t.columns.getD 0 []) hflag
      (by decide) (by decide) hcol hfull
  rw [List.replicate_succ', encodeRows_append, ht]
  simp [encodeRows, hlast]

theorem full_columns_then_row (k : Nat) (hk : k = CAPACITY) (hdr : String) :
    parseCSVFile (some (hdr :: List.replicate (k + 1) zeroLine))
        (fun _ => List.replicate NUM_COLS 0) [] [] = Except.error Fault.outOfBounds := by
  have hp : ∀ n : Nat, parseRow zeroLine ((fun _ => List.replicate NUM_COLS 0) n)
      = Except.ok (List.replicate NUM_COLS 0) := fun _ => zeroLine_row _ rfl
  rw [parseCSVFile_cons, parseLoop_replicate _ zeroLine (List.replicate NUM_COLS 0) hp,
    encodeRows_overflow k hk]

/-- C1: for `n ≥ 1` rows and columns holding at least `n` bits, `chiSquare` returns the
reference statistic `Σ (observed − expected)² / expected` over the four cells, computed from
the counts of rows `i < n` with `(feature_i, target_i) = (1,1), (0,0), (1,0), (0,1)`, whenever
the four expected counts are non-zero. -/
theorem chiSquare_eq_reference (feature target : bitset_t) (n : Nat) (hn : 1 ≤ n)
    (hf : n ≤ BITS_PER_BLOCK * feature.length) (ht : n ≤ BITS_PER_BLOCK * target.length)
    (h1 : refE1 feature target n ≠ 0) (h2 : refE2 feature target n ≠ 0)
    (h3 : refE3 feature target n ≠ 0) (h4 : refE4 feature target n ≠ 0) :
    chiSquare feature target n = some (chiSquareRef feature target n) := by
  rw [chiSquare_eq feature target n hn hf ht, if_neg]
  rintro (h | h | h | h)
  · exact h1 h
  · exact h2 h
  · exact h3 h
  · exact h4 h

theorem cells_7_6 : cellCount [7] [6] 4 true true = 2 ∧ cellCount [7] [6] 4 false false = 1
    ∧ cellCount [7] [6] 4 true false = 1 ∧ cellCount [7] [6] 4 false true = 0 := by
  decide

/-- Witness of C1: feature bits `1,1,1,0` against target bits `0,1,1,0` over 4 rows; the
statistic is `4/3`. -/
theorem chiSquare_eq_reference_witness :
    chiSquare [7] [6] 4 = some (chiSquareRef [7] [6] 4) ∧ chiSquareRef [7] [6] 4 = 4 / 3 := by
  obtain ⟨a, b, c, d⟩ := cells_7_6
  refine ⟨chiSquare_eq_reference [7] [6] 4 (by decide) (by decide) (by decide) ?_ ?_ ?_ ?_, ?_⟩
  · simp only [refE1, refExpected, a, b, c, d]; norm_num
  · simp only [refE2, refExpected, a, b, c, d]; norm_num
  · simp only [refE3, refExpected, a, b, c, d]; norm_num
  · simp only [refE4, refExpected, a, b, c, d]; norm_num
  · simp only [chiSquareRef, refE1, refE2, refE3, refE4, refExpected, a, b, c, d]; norm_num

/-- C2: for `n ≥ 1` rows, a feature column whose first `n` bits are all 0 or all 1 makes
`chiSquare` return exactly 0 (a returned value: no division by zero is performed), and the
normalised score `chiSquare / n` is exactly 0. -/
theorem chiSquare_constant_feature (feature target : bitset_t) (n : Nat) (hn : 1 ≤ n)
    (ht : n ≤ BITS_PER_BLOCK * target.length)
    (hc : (∀ i, i < n → getBit feature i = some false)
      ∨ (∀ i, i < n → getBit feature i = some true)) :
    chiSquare feature target n = some 0 ∧ normalizedScore feature target n = some 0 := by
  have hn0 : (n : ℚ) ≠ 0 := by
    have : 0 < n := hn
    exact_mod_cast this.ne.symm
  have key : chiSquare feature target n = some 0 := by
    rcases hc with hc | hc
    · have hf := holds_of_getBit hn (hc (n - 1) (by omega))
      have hb : ∀ i, i < n → bitAt feature i = !true := fun i hi => bitAt_of_getBit (hc i hi)
      rw [chiSquare_eq feature target n hn hf ht, if_pos]
      left
      simp [refE1, refExpected, cellCount_eq_zero true hb, cellCount_eq_zero false hb]
    · have hf := holds_of_getBit hn (hc (n - 1) (by omega))
      have hb : ∀ i, i < n → bitAt feature i = !false := fun i hi => bitAt_of_getBit (hc i hi)
      rw [chiSquare_eq feature target n hn hf ht, if_pos]
      right; right; left
      simp [refE3, refExpected, cellCount_eq_zero true hb, cellCount_eq_zero false hb]
  refine ⟨key, ?_⟩
  simp [normalizedScore, key, normalize, fdiv, hn0]

/-- Witness of C2: the constant attribute `1,1,1,1` against target bits `0,1,1,0`. -/
theorem chiSquare_constant_feature_witness :
    (∀ i, i < 4 → getBit [15] i = some true) ∧ chiSquare [15] [6] 4 = some 0
      ∧ normalizedScore [15] [6] 4 = some 0 :=
  ⟨by decide, chiSquare_constant_feature [15] [6] 4 (by decide) (by decide)
    (Or.inr (by decide))⟩

/-- C3: for `n ≥ 1` rows and columns holding at least `n` bits, `chiSquare` returns a value,
and that value is `≥ 0`. -/
theorem chiSquare_nonneg (feature target : bitset_t) (n : Nat) (hn : 1 ≤ n)
    (hf : n ≤ BITS_PER_BLOCK * feature.length) (ht : n ≤ BITS_PER_BLOCK * target.length) :
    ∃ v, chiSquare feature target n = some v ∧ 0 ≤ v := by
  refine ⟨_, chiSquare_eq feature target n hn hf ht, ?_⟩
  split
  · exact le_refl 0
  · exact chiSquareRef_nonneg feature target n

/-- Witness of C3: feature bits `1,1,1,0` against target bits `0,1,1,0` over 4 rows. -/
theorem chiSquare_nonneg_witness : ∃ v, chiSquare [7] [6] 4 = some v ∧ 0 ≤ v :=
  chiSquare_nonneg [7] [6] 4 (by decide) (by decide) (by decide)

/-- C4: for a row index `r` inside the column, `setBit(column, r, v)` succeeds, keeps the word
count, and `getBit` of the result at `r` is exactly `v`, whatever the column held before. -/
theorem getBit_setBit (column : bitset_t) (r : Nat) (v : Bool)
    (h : r < BITS_PER_BLOCK * column.length) :
    ∃ c, setBit column r v = some c ∧ c.length = column.length ∧ getBit c r = some v := by
  obtain ⟨c, hc, hg⟩ := setBit_getBit column r v h
  exact ⟨c, hc, setBit_length hc, hg⟩

/-- Witness of C4: clearing bit 70 (word 1, bit 6) of a two-word column where it was set. -/
theorem getBit_setBit_witness :
    getBit [0, 64] 70 = some true
      ∧ ∃ c, setBit [0, 64] 70 false = some c ∧ c.length = 2 ∧ getBit c 70 = some false :=
  ⟨by decide, getBit_setBit [0, 64] 70 false (by decide)⟩

theorem smallStore_wf : smallStore.WF := ⟨rfl, rfl⟩

theorem smallStore_room : smallStore.room 64 := by
  intro column hmem
  have := (List.mem_replicate.1 hmem).2
  subst this
  decide

/-- C5: every flag starts true; and once an attribute's flag is false, or on the row whose slot
for it holds SENTINEL, the row leaves the flag false and the column word for word as it was,
and so does every sequence of further rows. -/
theorem binarity_latch (s : Store) (row : row_t) (rows : List row_t) (col : Nat)
    (columns : List bitset_t) (hwf : s.WF)
    (hrow : row.length = NUM_COLS) (hrows : ∀ r, r ∈ rows → r.length = NUM_COLS)
    (hroom : s.room (rows.length + 1)) (hcol : col < NUM_COLS)
    (hlatch : s.isBinary[col]? = some false ∨ row[col]? = some SENTINEL) :
    (initStore columns []).isBinary = List.replicate NUM_COLS true ∧
    ∃ t u, encodeRow row s = some t ∧ t.isBinary[col]? = some false
      ∧ t.columns[col]? = s.columns[col]?
      ∧ encodeRows rows t = some u ∧ u.isBinary[col]? = some false
      ∧ u.columns[col]? = s.columns[col]? := by
  refine ⟨by simp [initStore, resize], ?_⟩
  obtain ⟨t, ht, htnum, htwf, htflags, htcols⟩ :=
    encodeRow_spec row s hwf hrow (room_mono hroom (by omega))
  have htlen : ∀ j, j < NUM_COLS →
      (t.columns.getD j []).length = (s.columns.getD j []).length := by
    intro j hj
    rw [getD_of_getElem? [] (htcols j hj), columnAfter_length]
  have hoff : flagAfter (s.isBinary.getD col false) (row.getD col 0) = false := by
    rcases hlatch with h | h
    · rw [getD_of_getElem? false h]; rfl
    · rw [getD_of_getElem? 0 h]; simp [flagAfter, SENTINEL]
  have htf : t.isBinary[col]? = some false := by rw [htflags col hcol, hoff]
  have htc : t.columns[col]? = s.columns[col]? := by
    rw [htcols col hcol]
    have : columnAfter (s.isBinary.getD col false) (row.getD col 0) s.numRows
        (s.columns.getD col []) = s.columns.getD col [] := by
      unfold columnAfter
      unfold flagAfter at hoff
      rw [hoff]
      simp
    rw [this]
    exact (getElem?_eq_some_getD [] (hwf.1.symm ▸ hcol : col < s.columns.length)).symm
  obtain ⟨u, hu, _, _, huflags, _, hulatch⟩ :=
    encodeRows_spec rows t htwf hrows (room_step hwf hroom htnum htwf.1 htlen)
  refine ⟨t, u, ht, htf, htc, hu, ?_, ?_⟩
  · rw [huflags col hcol, getD_of_getElem? false htf]
    rfl
  · rw [hulatch col hcol (getD_of_getElem? false htf), htc]

/-- Witness of C5: attribute 3 is latched by a row of SENTINELs and then sees a row of ones. -/
theorem binarity_latch_witness :
    (initStore [] []).isBinary = List.replicate NUM_COLS true ∧
    ∃ t u, encodeRow (List.replicate 42 2) smallStore = some t ∧ t.isBinary[3]? = some false
      ∧ t.columns[3]? = smallStore.columns[3]?
      ∧ encodeRows [List.replicate 42 1] t = some u ∧ u.isBinary[3]? = some false
      ∧ u.columns[3]? = smallStore.columns[3]? :=
  binarity_latch smallStore (List.replicate 42 2) [List.replicate 42 1] 3 [] smallStore_wf
    rfl (by intro r hr; rw [List.mem_singleton.1 hr]; rfl)
    (room_mono smallStore_room (by decide)) (by decide) (Or.inr rfl)

theorem parseRowFields_spec (fields : List String) (buf : row_t) (hbuf : buf.length = NUM_COLS)
    (hok : ∀ k, k < fields.length → k < NUM_COLS - 1 → fieldThrows (fields.getD k "") = false) :
    ∃ row, parseRowFields fields buf = Except.ok row ∧ row.length = NUM_COLS ∧
      ∀ j, j < NUM_COLS → row[j]? =
        if j < fields.length then some (slotCode j (fields.getD j "")) else buf[j]? := by
  obtain ⟨out, ho, hl, hs⟩ := parseRowLoop_spec fields 0 buf hbuf
    (fun k hk hk2 => hok k hk (by simpa using hk2))
  refine ⟨out, ho, hl, ?_⟩
  intro j hj
  simpa using hs j hj

theorem parseRowLoop_noThrow (fields : List String) :
    ∀ (i : Nat) (row out : row_t), parseRowLoop fields i row = Except.ok out →
      ∀ k, k < fields.length → i + k < NUM_COLS - 1 →
        fieldThrows (fields.getD k "") = false := by
  induction fields with
  | nil =>
    intro i row out _ k hk
    simp at hk
  | cons token rest ih =>
    intro i row out h k hk hik
    have hi : i < NUM_COLS := by unfold NUM_COLS at hik ⊢; omega
    have hlast : i ≠ NUM_COLS - 1 := by omega
    rw [parseRowLoop, if_pos hi, if_neg hlast] at h
    by_cases hint : isInteger token = true
    · rw [if_pos hint] at h
      cases hst : stoi token with
      | error e =>
        rw [hst] at h
        cases h
      | ok v =>
        rw [hst] at h
        cases k with
        | zero => simp [fieldThrows, hst]
        | succ m =>
          have := ih (i + 1) _ out h m (by simpa using hk) (by omega)
          simpa using this
    · rw [if_neg hint] at h
      cases k with
      | zero =>
        have hf : isInteger token = false := by simpa using hint
        simp [fieldThrows, hf]
      | succ m =>
        have := ih (i + 1) _ out h m (by simpa using hk) (by omega)
        simpa using this

/-- C8 as stated fails: for the one-field record `0`, the slots 1..41 are not SENTINEL; they
hold what the row buffer held before the call, 0 for a buffer of zeros and 1 for a buffer of
ones. -/
theorem short_record_keeps_buffer_counterexample :
    parseRowFields ["0"] (List.replicate 42 0) = Except.ok (List.replicate 42 0)
      ∧ parseRowFields ["0"] (List.replicate 42 1) = Except.ok (0 :: List.replicate 41 1)
      ∧ (List.replicate 42 0)[1]? ≠ some SENTINEL
      ∧ (List.replicate 42 0)[1]? ≠ (0 :: List.replicate 41 1)[1]? := by
  refine ⟨rfl, rfl, by decide, by decide⟩

/-- C8, amended: on a record with `k < 42` fields that `parseRow` decodes, the slots
`k, ..., 41` are not written: each holds the value the row buffer held before the call. -/
theorem parseRow_short_record (fields : List String) (buf : row_t)
    (hbuf : buf.length = NUM_COLS)
    (hok : ∀ k, k < fields.length → k < NUM_COLS - 1 → fieldThrows (fields.getD k "") = false) :
    ∃ row, parseRowFields fields buf = Except.ok row ∧
      ∀ i, fields.length ≤ i → i < NUM_COLS → row[i]? = buf[i]? := by
  obtain ⟨row, hr, _, hs⟩ := parseRowFields_spec fields buf hbuf hok
  refine ⟨row, hr, ?_⟩
  intro i hle hi
  rw [hs i hi, if_neg (by omega)]

/-- Witness of C8 (amended): the two-field record `1,7` over a buffer of nines. -/
theorem parseRow_short_record_witness :
    parseRowFields ["1", "7"] (List.replicate 42 9) = Except.ok ([1, 2] ++ List.replicate 40 9)
      ∧ ∃ row, parseRowFields ["1", "7"] (List.replicate 42 9) = Except.ok row ∧
        ∀ i, ["1", "7"].length ≤ i → i < NUM_COLS → row[i]? = (List.replicate 42 9)[i]? :=
  ⟨rfl, parseRow_short_record ["1", "7"] (List.replicate 42 9) rfl (by decide)⟩

/-- C9, the code at the failing inputs: `isInteger` accepts a lone `-` and a digit string too
large for an `int`, and `stoi` then throws; `parseRow` leaves through the exception instead of
storing SENTINEL. -/
theorem parseRow_throws :
    isInteger "-" = true
      ∧ parseRow "-" (List.replicate 42 0) = Except.error StoiError.invalid_argument
      ∧ isInteger "99999999999" = true
      ∧ parseRow "0,99999999999" (List.replicate 42 0) = Except.error StoiError.out_of_range :=
  ⟨rfl, rfl, rfl, rfl⟩

/-- C10, amended: for every file with at most 500,032 data rows (the fixed capacity
`64 * numBlocks(500000)` of a column), no `setBit` of the encoding pass falls outside the
column: `parseCSVFile` does not run into an out-of-bounds access. -/
theorem parseCSVFile_in_bounds (hdr : String) (lines : List String) (junk : Nat → row_t)
    (hjunk : ∀ k, (junk k).length = NUM_COLS) (hlen : lines.length ≤ 500032) :
    parseCSVFile (some (hdr :: lines)) junk [] [] ≠ Except.error Fault.outOfBounds := by
  have h := parseLoop_in_bounds junk hjunk lines (initStore [] []) initStore_wf
    (room_mono initStore_room (by rw [capacity_eq]; exact hlen))
  rw [parseCSVFile_cons]
  cases hp : parseLoop junk lines (initStore [] []) with
  | error e =>
    intro heq
    apply h
    rw [hp]
    simp only [Except.error.injEq] at heq
    rw [heq]
  | ok s =>
    intro heq
    cases heq

/-- Witness of C10 (amended): a file of a header and two data rows. -/
theorem parseCSVFile_in_bounds_witness :
    parseCSVFile (some ["header", zeroLine, "1,x"]) (fun _ => List.replicate 42 0) [] []
      ≠ Except.error Fault.outOfBounds :=
  parseCSVFile_in_bounds "header" [zeroLine, "1,x"] (fun _ => List.replicate 42 0)
    (fun _ => rfl) (by decide)

/-- C10 as stated fails: on a file of a header and 500,033 complete data rows, the `setBit` for
row index 500,032 addresses word `500032 / 64 = 7813` of columns that have
`numBlocks(500000) = 7813` words, outside their storage. -/
theorem parseCSVFile_overflow_counterexample :
    parseCSVFile (some ("header" :: List.replicate (500032 + 1) zeroLine))
        (fun _ => List.replicate NUM_COLS 0) [] [] = Except.error Fault.outOfBounds
      ∧ 500032 / BITS_PER_BLOCK = numBlocks 500000 :=
  ⟨full_columns_then_row 500032 capacity_eq.symm "header", by decide⟩

theorem setBit_getBit_ne {column c : bitset_t} {r q : Nat} {v : Bool}
    (h : setBit column r v = some c) (hne : q ≠ r) : getBit c q = getBit column q := by
  rw [setBit_eq] at h
  cases hw : column[r / 64]? with
  | none => simp [hw] at h
  | some w =>
    have hlt : r / 64 < column.length := (List.getElem?_eq_some_iff.1 hw).1
    simp only [hw, Option.map_some', Option.some.injEq] at h
    subst h
    rw [getBit_eq, getBit_eq]
    by_cases hq : r / 64 = q / 64
    · rw [← hq, List.getElem?_set_self hlt, hw, Option.map_some', Option.map_some',
        newWord_testBit _ _ _ _ (Nat.mod_lt _ (by norm_num))]
      have hmod : r % 64 ≠ q % 64 := by
        intro hm
        apply hne
        have h1 := Nat.div_add_mod r 64
        have h2 := Nat.div_add_mod q 64
        omega
      rw [if_neg hmod]
    · rw [List.getElem?_set_ne hq]

/-- C19: for in-range row indices `r` and `q ≠ r`, `setBit(column, r, v)` succeeds, leaves
the word count unchanged, and `getBit` at `q` reads the same before and after, also when `q`
lies in the same 64-bit word as `r`. -/
theorem setBit_frame (column : bitset_t) (r q : Nat) (v : Bool)
    (hr : r < BITS_PER_BLOCK * column.length) (hq : q < BITS_PER_BLOCK * column.length)
    (hne : q ≠ r) :
    ∃ c, setBit column r v = some c ∧ c.length = column.length
      ∧ getBit c q = getBit column q ∧ ∃ b, getBit column q = some b := by
  obtain ⟨c, hc⟩ := setBit_isSome v hr
  exact ⟨c, hc, setBit_length hc, setBit_getBit_ne hc hne, _, getBit_of_lt hq⟩

/-- Witness of C19: setting bit 70 leaves bit 69, in the same word, as it was. -/
theorem setBit_frame_witness :
    getBit [0, 32] 69 = some true
      ∧ ∃ c, setBit [0, 32] 70 true = some c ∧ c.length = [0, 32].length
        ∧ getBit c 69 = getBit [0, 32] 69 ∧ ∃ b, getBit [0, 32] 69 = some b :=
  ⟨by decide, setBit_frame [0, 32] 70 69 true (by decide) (by decide) (by decide)⟩

/-- C16: on the 4-row dataset with target bits `0,1,1,0`, attribute A with bits `0,1,1,0`
has statistic 4 and attribute B with bits `0,0,1,1` has statistic 0, so A scores strictly
higher than B, also after division by 4 (1 against 0). -/
theorem example_A_beats_B :
    ∃ a b : ℚ, chiSquare [6] [6] 4 = some a ∧ chiSquare [12] [6] 4 = some b ∧ b < a
      ∧ normalizedScore [6] [6] 4 = some (a / 4) ∧ normalizedScore [12] [6] 4 = some (b / 4)
      ∧ b / 4 < a / 4 ∧ a = 4 ∧ b = 0 := by
  have hA : chiSquare [6] [6] 4 = some 4 := by
    simp [chiSquare, countLoop, getBit, Counts.bump, fdiv, BITS_PER_BLOCK]
    norm_num
  have hB : chiSquare [12] [6] 4 = some 0 := by
    simp [chiSquare, countLoop, getBit, Counts.bump, fdiv, BITS_PER_BLOCK]
    norm_num
  refine ⟨4, 0, hA, hB, by norm_num, ?_, ?_, by norm_num, rfl, rfl⟩
  · simp [normalizedScore, hA, normalize, fdiv]
  · simp [normalizedScore, hB, normalize, fdiv]

theorem chi_term (o r c n : ℚ) (hr : r ≠ 0) (hc : c ≠ 0) (hn : n ≠ 0) :
    (o - r * c / n) ^ 2 / (r * c / n) = (o * n - r * c) ^ 2 / (n * r * c) := by
  field_simp
  ring

theorem chi_terms_sum (D n r1 r2 c1 c2 : ℚ) (hr1 : r1 ≠ 0) (hr2 : r2 ≠ 0) (hc1 : c1 ≠ 0)
    (hc2 : c2 ≠ 0) (hn : n ≠ 0) (hr : r1 + r2 = n) (hc : c1 + c2 = n) :
    D ^ 2 / (n * r1 * c1) + D ^ 2 / (n * r1 * c2) + D ^ 2 / (n * r2 * c1)
      + D ^ 2 / (n * r2 * c2) = n * D ^ 2 / (r1 * r2 * c1 * c2) := by
  have e1 : D ^ 2 / (n * r1 * c1) + D ^ 2 / (n * r1 * c2) = D ^ 2 / (r1 * c1 * c2) := by
    rw [div_add_div _ _ (by positivity) (by positivity), div_eq_div_iff (by positivity)
      (by positivity), ← hc]
    ring
  have e2 : D ^ 2 / (n * r2 * c1) + D ^ 2 / (n * r2 * c2) = D ^ 2 / (r2 * c1 * c2) := by
    rw [div_add_div _ _ (by positivity) (by positivity), div_eq_div_iff (by positivity)
      (by positivity), ← hc]
    ring
  have e3 : D ^ 2 / (r1 * c1 * c2) + D ^ 2 / (r2 * c1 * c2)
      = n * D ^ 2 / (r1 * r2 * c1 * c2) := by
    rw [div_add_div _ _ (by positivity) (by positivity), div_eq_div_iff (by positivity)
      (by positivity), ← hr]
    ring
  rw [e1, add_assoc, e2, e3]

theorem chi_margin_bound (a b c d : ℚ) (ha : 0 ≤ a) (hb : 0 ≤ b) (hc : 0 ≤ c) (hd : 0 ≤ d) :
    (a * d - b * c) ^ 2 ≤ (a + b) * (d + c) * (a + c) * (b + d) := by
  have e : (a + b) * (d + c) * (a + c) * (b + d) - (a * d - b * c) ^ 2
      = (a * d + b * c) * (a * b + c * d + a * c + b * d) + (a * c + b * d) * (a * b + c * d)
        + 4 * (a * b * (c * d)) := by ring
  have p : 0 ≤ (a * d + b * c) * (a * b + c * d + a * c + b * d)
      + (a * c + b * d) * (a * b + c * d) + 4 * (a * b * (c * d)) := by positivity
  linarith

theorem chi_closed_form (a b c d : ℚ) (h1 : a + b ≠ 0) (h2 : d + c ≠ 0) (h3 : a + c ≠ 0)
    (h4 : b + d ≠ 0) (hn : a + b + c + d ≠ 0) :
    (a - (a + b) * (a + c) / (a + b + c + d)) ^ 2 / ((a + b) * (a + c) / (a + b + c + d))
      + (b - (a + b) * (b + d) / (a + b + c + d)) ^ 2 / ((a + b) * (b + d) / (a + b + c + d))
      + (c - (d + c) * (a + c) / (a + b + c + d)) ^ 2 / ((d + c) * (a + c) / (a + b + c + d))
      + (d - (d + c) * (b + d) / (a + b + c + d)) ^ 2 / ((d + c) * (b + d) / (a + b + c + d))
      = (a + b + c + d) * (a * d - b * c) ^ 2 / ((a + b) * (d + c) * (a + c) * (b + d)) := by
  rw [chi_term a _ _ _ h1 h3 hn, chi_term b _ _ _ h1 h4 hn, chi_term c _ _ _ h2 h3 hn,
    chi_term d _ _ _ h2 h4 hn]
  have t1 : a * (a + b + c + d) - (a + b) * (a + c) = a * d - b * c := by ring
  have t2 : (b * (a + b + c + d) - (a + b) * (b + d)) ^ 2 = (a * d - b * c) ^ 2 := by ring
  have t3 : (c * (a + b + c + d) - (d + c) * (a + c)) ^ 2 = (a * d - b * c) ^ 2 := by ring
  have t4 : d * (a + b + c + d) - (d + c) * (b + d) = a * d - b * c := by ring
  rw [t1, t2, t3, t4]
  exact chi_terms_sum (a * d - b * c) (a + b + c + d) (a + b) (d + c) (a + c) (b + d)
    h1 h2 h3 h4 hn (by ring) (by ring)

theorem chi_le (a b c d : ℚ) (ha : 0 ≤ a) (hb : 0 ≤ b) (hc : 0 ≤ c) (hd : 0 ≤ d)
    (h1 : a + b ≠ 0) (h2 : d + c ≠ 0) (h3 : a + c ≠ 0) (h4 : b + d ≠ 0) :
    (a + b + c + d) * (a * d - b * c) ^ 2 / ((a + b) * (d + c) * (a + c) * (b + d))
      ≤ a + b + c + d := by
  have p1 : 0 < a + b := lt_of_le_of_ne (by positivity) (Ne.symm h1)
  have p2 : 0 < d + c := lt_of_le_of_ne (by positivity) (Ne.symm h2)
  have p3 : 0 < a + c := lt_of_le_of_ne (by positivity) (Ne.symm h3)
  have p4 : 0 < b + d := lt_of_le_of_ne (by positivity) (Ne.symm h4)
  rw [div_le_iff₀ (by positivity)]
  exact mul_le_mul_of_nonneg_left (chi_margin_bound a b c d ha hb hc hd) (by positivity)

theorem chi_diag (a d : ℚ) (ha : a ≠ 0) (hd : d ≠ 0) :
    (a + d) * (a * d) ^ 2 / (a * d * a * d) = a + d := by
  rw [div_eq_iff (by positivity)]
  ring

theorem chiSquare_split (feature target : bitset_t) (n : Nat) :
    chiSquare feature target n
      = (countLoop feature target n).bind (fun c => (expectedCounts c n).bind (chiSum c)) := by
  unfold chiSquare expectedCounts chiSum
  cases countLoop feature target n with
  | none => rfl
  | some c =>
    simp only [Option.bind_eq_bind, Option.some_bind, Option.pure_def, Option.bind_assoc]

theorem marginCount_succ (column : bitset_t) (n : Nat) (b : Bool) :
    marginCount column (n + 1) b = marginCount column n b
      + (if bitAt column n = b then 1 else 0) := by
  simp only [marginCount, List.range_succ, List.filter_append, List.length_append]
  by_cases h : bitAt column n = b
  · simp [h]
  · rw [if_neg h]
    have : (bitAt column n == b) = false := by simpa using h
    simp [List.filter_cons, this]

theorem cellCount_feature_margin (feature target : bitset_t) (n : Nat) (a : Bool) :
    cellCount feature target n a true + cellCount feature target n a false
      = marginCount feature n a := by
  induction n with
  | zero => simp [cellCount, marginCount]
  | succ k ih =>
    rw [cellCount_succ, cellCount_succ, marginCount_succ, ← ih]
    cases bitAt feature k <;> cases bitAt target k <;> cases a <;> simp <;> omega

theorem cellCount_target_margin (feature target : bitset_t) (n : Nat) (b : Bool) :
    cellCount feature target n true b + cellCount feature target n false b
      = marginCount target n b := by
  induction n with
  | zero => simp [cellCount, marginCount]
  | succ k ih =>
    rw [cellCount_succ, cellCount_succ, marginCount_succ, ← ih]
    cases bitAt feature k <;> cases bitAt target k <;> cases b <;> simp <;> omega

theorem cellCount_total (feature target : bitset_t) (n : Nat) :
    cellCount feature target n true true + cellCount feature target n false false
      + cellCount feature target n true false + cellCount feature target n false true = n := by
  induction n with
  | zero => simp [cellCount]
  | succ k ih =>
    rw [cellCount_succ, cellCount_succ, cellCount_succ, cellCount_succ]
    cases bitAt feature k <;> cases bitAt target k <;> simp <;> omega

theorem cast_rows (feature target : bitset_t) (n : Nat) :
    (n : ℚ) = (cellCount feature target n true true : ℚ) + (cellCount feature target n true false : ℚ)
      + (cellCount feature target n false true : ℚ) + (cellCount feature target n false false : ℚ) := by
  have h := cellCount_total feature target n
  have h2 : ((cellCount feature target n true true + cellCount feature target n false false
      + cellCount feature target n true false + cellCount feature target n false true : Nat) : ℚ)
      = (n : ℚ) := by rw [h]
  push_cast at h2
  linarith

theorem chiSquareRef_closed (feature target : bitset_t) (n : Nat)
    (h1 : refE1 feature target n ≠ 0) (h4 : refE4 feature target n ≠ 0) :
    chiSquareRef feature target n
      = (n : ℚ) * ((cellCount feature target n true true : ℚ)
            * (cellCount feature target n false false : ℚ)
          - (cellCount feature target n true false : ℚ)
            * (cellCount feature target n false true : ℚ)) ^ 2
        / (((cellCount feature target n true true : ℚ) + (cellCount feature target n true false : ℚ))
          * ((cellCount feature target n false false : ℚ) + (cellCount feature target n false true : ℚ))
          * ((cellCount feature target n true true : ℚ) + (cellCount feature target n false true : ℚ))
          * ((cellCount feature target n true false : ℚ) + (cellCount feature target n false false : ℚ)))
      ∧ (cellCount feature target n true true : ℚ) + (cellCount feature target n true false : ℚ) ≠ 0
      ∧ (cellCount feature target n false false : ℚ) + (cellCount feature target n false true : ℚ) ≠ 0
      ∧ (cellCount feature target n true true : ℚ) + (cellCount feature target n false true : ℚ) ≠ 0
      ∧ (cellCount feature target n true false : ℚ) + (cellCount feature target n false false : ℚ) ≠ 0 := by
  have hn := cast_rows feature target n
  simp only [refE1, refE4, refExpected, Nat.cast_add, ne_eq, div_eq_zero_iff, mul_eq_zero,
    not_or] at h1 h4
  obtain ⟨⟨m1, m3⟩, n0⟩ := h1
  obtain ⟨⟨m2, m4⟩, _⟩ := h4
  refine ⟨?_, m1, m2, m3, m4⟩
  simp only [chiSquareRef, refE1, refE2, refE3, refE4, refExpected, Nat.cast_add]
  rw [hn] at n0 ⊢
  exact chi_closed_form _ _ _ _ m1 m2 m3 m4 n0

theorem chiSquareRef_le (feature target : bitset_t) (n : Nat)
    (h1 : refE1 feature target n ≠ 0) (h4 : refE4 feature target n ≠ 0) :
    chiSquareRef feature target n ≤ (n : ℚ) := by
  obtain ⟨hc, m1, m2, m3, m4⟩ := chiSquareRef_closed feature target n h1 h4
  rw [hc]
  have hn := cast_rows feature target n
  have key := chi_le (cellCount feature target n true true : ℚ)
    (cellCount feature target n true false : ℚ) (cellCount feature target n false true : ℚ)
    (cellCount feature target n false false : ℚ) (by positivity) (by positivity)
    (by positivity) (by positivity) m1 m2 m3 m4
  rw [← hn] at key
  exact key

theorem chiSquare_le (feature target : bitset_t) (n : Nat) (hn : 1 ≤ n)
    (hf : n ≤ BITS_PER_BLOCK * feature.length) (ht : n ≤ BITS_PER_BLOCK * target.length) :
    ∃ v, chiSquare feature target n = some v ∧ 0 ≤ v ∧ v ≤ (n : ℚ) := by
  refine ⟨_, chiSquare_eq feature target n hn hf ht, ?_, ?_⟩
  · split
    · exact le_refl 0
    · exact chiSquareRef_nonneg feature target n
  · split
    · positivity
    · rename_i hz
      exact chiSquareRef_le feature target n (fun h => hz (Or.inl h))
        (fun h => hz (Or.inr (Or.inr (Or.inr h))))

theorem cellCount_none {feature target : bitset_t} {n : Nat} {a b : Bool}
    (h : ∀ i, i < n → ¬ (bitAt feature i = a ∧ bitAt target i = b)) :
    cellCount feature target n a b = 0 := by
  simp only [cellCount, List.length_eq_zero, List.filter_eq_nil_iff, List.mem_range]
  intro i hi
  simpa using h i hi

theorem cellCount_pos {feature target : bitset_t} {n i : Nat} {a b : Bool} (hi : i < n)
    (ha : bitAt feature i = a) (hb : bitAt target i = b) :
    0 < cellCount feature target n a b := by
  apply List.length_pos_of_mem (a := i)
  simp [List.mem_filter, hi, ha, hb]

theorem chiSquare_agree (feature target : bitset_t) (n : Nat) (hn : 1 ≤ n)
    (hf : n ≤ BITS_PER_BLOCK * feature.length) (ht : n ≤ BITS_PER_BLOCK * target.length)
    (hsame : ∀ i, i < n → getBit feature i = getBit target i)
    (hone : ∃ i, i < n ∧ getBit target i = some true)
    (hzero : ∃ i, i < n ∧ getBit target i = some false) :
    chiSquare feature target n = some (n : ℚ) := by
  have hbits : ∀ i, i < n → bitAt feature i = bitAt target i := by
    intro i hi
    have h := hsame i hi
    rw [getBit_of_lt (Nat.lt_of_lt_of_le hi hf), getBit_of_lt (Nat.lt_of_lt_of_le hi ht)] at h
    exact Option.some.inj h
  have hb0 : cellCount feature target n true false = 0 :=
    cellCount_none (fun i hi h => by rw [hbits i hi, h.2] at h; exact absurd h.1 (by decide))
  have hc0 : cellCount feature target n false true = 0 :=
    cellCount_none (fun i hi h => by rw [hbits i hi, h.2] at h; exact absurd h.1 (by decide))
  obtain ⟨i, hi, hti⟩ := hone
  obtain ⟨j, hj, htj⟩ := hzero
  have ha : 0 < cellCount feature target n true true :=
    cellCount_pos hi (by rw [hbits i hi]; exact bitAt_of_getBit hti) (bitAt_of_getBit hti)
  have hd : 0 < cellCount feature target n false false :=
    cellCount_pos hj (by rw [hbits j hj]; exact bitAt_of_getBit htj) (bitAt_of_getBit htj)
  have hn0 : (n : ℚ) ≠ 0 := by
    have : 0 < n := hn
    exact_mod_cast this.ne.symm
  have ha0 : (cellCount feature target n true true : ℚ) ≠ 0 := by exact_mod_cast ha.ne.symm
  have hd0 : (cellCount feature target n false false : ℚ) ≠ 0 := by exact_mod_cast hd.ne.symm
  have e1 : refE1 feature target n ≠ 0 := by
    simp [refE1, refExpected, hb0, hc0, ha0, hn0]
  have e2 : refE2 feature target n ≠ 0 := by
    simp [refE2, refExpected, hb0, hc0, ha0, hd0, hn0]
  have e3 : refE3 feature target n ≠ 0 := by
    simp [refE3, refExpected, hb0, hc0, ha0, hd0, hn0]
  have e4 : refE4 feature target n ≠ 0 := by
    simp [refE4, refExpected, hb0, hc0, hd0, hn0]
  rw [chiSquare_eq feature target n hn hf ht, if_neg (by
    rintro (h | h | h | h)
    · exact e1 h
    · exact e2 h
    · exact e3 h
    · exact e4 h)]
  obtain ⟨hc, _⟩ := chiSquareRef_closed feature target n e1 e4
  rw [hc]
  have hcast := cast_rows feature target n
  simp only [hb0, hc0, Nat.cast_zero, add_zero, zero_add, mul_zero, sub_zero] at hcast ⊢
  rw [hcast]
  exact congrArg some (chi_diag _ _ ha0 hd0)

theorem stdSort_rankStable (scores : List ScoreEntry) :
    StdSort scoreGreater scores (rankStable scores) := by
  haveI : IsTotal ScoreEntry (fun a b => b.2 ≤ a.2) := ⟨fun a b => le_total b.2 a.2⟩
  haveI : IsTrans ScoreEntry (fun a b => b.2 ≤ a.2) := ⟨fun a b c h1 h2 => le_trans h2 h1⟩
  refine ⟨List.perm_insertionSort _ scores, ?_⟩
  have h := List.sorted_insertionSort (fun a b : ScoreEntry => b.2 ≤ a.2) scores
  refine List.Pairwise.imp ?_ h
  intro a b hab
  simpa [scoreGreater] using hab

theorem stdSort_scores_sorted {scores out : List ScoreEntry}
    (h : StdSort scoreGreater scores out) :
    (out.map Prod.snd).Sorted (fun x y => y ≤ x) := by
  unfold List.Sorted
  rw [List.pairwise_map]
  refine List.Pairwise.imp ?_ h.2
  intro a b hab
  simpa [scoreGreater] using hab

theorem stdSort_index {scores out : List ScoreEntry} (h : StdSort scoreGreater scores out)
    (i j : Nat) (hij : i < j) (hj : j < out.length) :
    (out.getD j (0, 0)).2 ≤ (out.getD i (0, 0)).2 := by
  have hi : i < out.length := Nat.lt_trans hij hj
  have hp := List.pairwise_iff_getElem.1 h.2 i j hi hj hij
  rw [List.getD_eq_getElem _ _ hj, List.getD_eq_getElem _ _ hi]
  simpa [scoreGreater] using hp

/-- C14: for every list of scored entries the ranking step (`sort` with the comparator
`a.second > b.second`) has an outcome, and every outcome is a permutation of the input in
which the scores are non-increasing: for positions `i < j`, `score(i) ≥ score(j)`. -/
theorem ranking_sorted (scores : List ScoreEntry) :
    (∃ out, StdSort scoreGreater scores out) ∧
    ∀ out, StdSort scoreGreater scores out →
      out.Perm scores ∧
      ∀ i j, i < j → j < out.length → (out.getD j (0, 0)).2 ≤ (out.getD i (0, 0)).2 :=
  ⟨⟨rankStable scores, stdSort_rankStable scores⟩,
    fun _ h => ⟨h.1, fun i j hij hj => stdSort_index h i j hij hj⟩⟩

/-- Example for C14: four entries with ties, ranked by one conforming sort. -/
theorem ranking_sorted_witness :
    rankStable [(1, 0), (2, 1), (3, 0), (4, 1)] = [(2, 1), (4, 1), (1, 0), (3, 0)]
      ∧ (∃ out, StdSort scoreGreater [(1, 0), (2, 1), (3, 0), (4, 1)] out) ∧
      ∀ out, StdSort scoreGreater [(1, 0), (2, 1), (3, 0), (4, 1)] out →
        out.Perm [(1, 0), (2, 1), (3, 0), (4, 1)] ∧
        ∀ i j, i < j → j < out.length → (out.getD j (0, 0)).2 ≤ (out.getD i (0, 0)).2 :=
  ⟨by decide, ranking_sorted [(1, 0), (2, 1), (3, 0), (4, 1)]⟩

theorem encodeCol_flags {row : row_t} {col : Nat} {s t : Store}
    (h : encodeCol row col s = some t) :
    col < s.isBinary.length ∧ t.numRows = s.numRows ∧
      t.isBinary = s.isBinary.set col (flagAfter (s.isBinary.getD col false) (row.getD col 0)) := by
  unfold encodeCol at h
  cases hb : s.isBinary[col]? with
  | none => simp [hb] at h
  | some b =>
    have hlt : col < s.isBinary.length := (List.getElem?_eq_some_iff.1 hb).1
    have hself : s.isBinary.set col b = s.isBinary := by
      apply List.ext_getElem?
      intro j
      by_cases hj : col = j
      · subst hj
        rw [List.getElem?_set_self hlt, hb]
      · rw [List.getElem?_set_ne hj]
    rw [getD_of_getElem? false hb]
    cases b with
    | false =>
      simp only [hb, Option.some.injEq] at h
      subst h
      exact ⟨hlt, rfl, by simpa [flagAfter] using hself.symm⟩
    | true =>
      simp only [hb] at h
      cases hv : row[col]? with
      | none => simp [hv] at h
      | some v =>
        rw [getD_of_getElem? 0 hv]
        simp only [hv] at h
        by_cases h2 : v = 2
        · simp only [h2, if_true, Option.some.injEq] at h
          subst h
          exact ⟨hlt, rfl, by simp [flagAfter, h2]⟩
        · simp only [h2, if_false] at h
          cases hc : s.columns[col]? with
          | none => simp [hc] at h
          | some column =>
            simp only [hc] at h
            cases hs : setBit column s.numRows (v != 0) with
            | none => simp [hs] at h
            | some c =>
              simp only [hs, Option.some.injEq] at h
              subst h
              have h2b : (v != 2) = true := by simpa using h2
              exact ⟨hlt, rfl, by simpa [flagAfter, h2b] using hself.symm⟩

theorem encodeCols_flags {row : row_t} {s : Store} :
    ∀ (c : Nat) (t : Store), encodeCols row c s = some t →
      t.numRows = s.numRows ∧ t.isBinary.length = s.isBinary.length ∧
      ∀ j, t.isBinary.getD j false =
        if j < c then flagAfter (s.isBinary.getD j false) (row.getD j 0)
        else s.isBinary.getD j false := by
  intro c
  induction c with
  | zero =>
    intro t h
    simp only [encodeCols, Option.some.injEq] at h
    subst h
    exact ⟨rfl, rfl, fun j => by simp⟩
  | succ c ih =>
    intro t h
    rw [encodeCols] at h
    cases hu : encodeCols row c s with
    | none => simp [hu] at h
    | some u =>
      rw [hu, Option.some_bind] at h
      obtain ⟨hnum, hlen, hflags⟩ := ih u hu
      obtain ⟨hlt, htnum, htflags⟩ := encodeCol_flags h
      refine ⟨htnum.trans hnum, by rw [htflags, List.length_set, hlen], ?_⟩
      intro j
      rw [htflags, List.getD_eq_getElem?_getD, List.getElem?_set]
      by_cases hj : c = j
      · subst hj
        have hc := hflags c
        rw [if_neg (Nat.lt_irrefl c)] at hc
        rw [if_pos rfl, if_pos hlt, Option.getD_some, hc, if_pos (Nat.lt_succ_self c)]
      · rw [if_neg hj, ← List.getD_eq_getElem?_getD, hflags j]
        have : (j < c + 1) = (j < c) := by
          apply propext; constructor <;> intro h <;> omega
        simp only [this]

theorem encodeRows_flags (rows : List row_t) :
    ∀ (s t : Store), encodeRows rows s = some t →
      t.numRows = s.numRows + rows.length ∧ t.isBinary.length = s.isBinary.length ∧
      ∀ j, j < NUM_COLS → t.isBinary.getD j false =
        (s.isBinary.getD j false && rows.all (fun row => row.getD j 0 != 2)) := by
  induction rows with
  | nil =>
    intro s t h
    simp only [encodeRows, Option.some.injEq] at h
    subst h
    exact ⟨rfl, rfl, fun j _ => by simp⟩
  | cons row rest ih =>
    intro s t h
    rw [encodeRows] at h
    cases hu : encodeRow row s with
    | none => simp [hu] at h
    | some u =>
      rw [hu, Option.some_bind] at h
      unfold encodeRow at hu
      cases hw : encodeCols row NUM_COLS s with
      | none => simp [hw] at hu
      | some w =>
        rw [hw, Option.map_some', Option.some.injEq] at hu
        obtain ⟨hnum, hlen, hflags⟩ := encodeCols_flags NUM_COLS w hw
        obtain ⟨htnum, htlen, htflags⟩ := ih u t h
        subst hu
        refine ⟨?_, htlen.trans hlen, ?_⟩
        · rw [htnum, List.length_cons]
          simp only [hnum]
          omega
        · intro j hj
          rw [htflags j hj]
          simp only [hflags j, if_pos hj, flagAfter, List.all_cons, Bool.and_assoc]

theorem decodeLine_length (line : String) : (decodeLine line).length = NUM_COLS := by
  simp [decodeLine]

theorem decodeLine_getD (line : String) (j : Nat) (hj : j < NUM_COLS) :
    (decodeLine line).getD j 0 = slotCode j ((fieldsOf line).getD j "") := by
  simp [decodeLine, List.getD_eq_getElem?_getD, List.getElem?_map, List.getElem?_range hj]

theorem row_eq_decodeLine {line : String} {row : row_t} (hc : complete line)
    (hlen : row.length = NUM_COLS)
    (hs : ∀ j, j < NUM_COLS → row[j]? =
      if j < (fieldsOf line).length then some (slotCode j ((fieldsOf line).getD j ""))
      else none) :
    row = decodeLine line := by
  apply List.ext_getElem?
  intro j
  by_cases hj : j < NUM_COLS
  · rw [hs j hj, if_pos (Nat.lt_of_lt_of_le hj hc)]
    simp [decodeLine, List.getElem?_map, List.getElem?_range hj]
  · rw [List.getElem?_eq_none (by omega), List.getElem?_eq_none (by
      rw [decodeLine_length]; omega)]

theorem parseRow_complete {line : String} {buf row : row_t} (hc : complete line)
    (hbuf : buf.length = NUM_COLS) (h : parseRow line buf = Except.ok row) :
    row = decodeLine line ∧ decodable line := by
  have hok : ∀ k, k < (fieldsOf line).length → k < NUM_COLS - 1 →
      fieldThrows ((fieldsOf line).getD k "") = false := by
    intro k hk hk2
    exact parseRowLoop_noThrow (fieldsOf line) 0 buf row h k hk (by simpa using hk2)
  obtain ⟨out, ho, hl, hs⟩ := parseRowFields_spec (fieldsOf line) buf hbuf hok
  have hout : out = row := by
    have h2 : parseRowFields (fieldsOf line) buf = Except.ok row := h
    rw [ho] at h2
    exact Except.ok.inj h2
  subst hout
  refine ⟨row_eq_decodeLine hc hl ?_, ?_⟩
  · intro j hj
    rw [hs j hj, if_pos (Nat.lt_of_lt_of_le hj hc), if_pos (Nat.lt_of_lt_of_le hj hc)]
  · intro k hk
    exact hok k (Nat.lt_of_lt_of_le (by unfold NUM_COLS at hk ⊢; omega) hc) hk

theorem parseRow_decodable {line : String} {buf : row_t} (hc : complete line)
    (hd : decodable line) (hbuf : buf.length = NUM_COLS) :
    parseRow line buf = Except.ok (decodeLine line) := by
  obtain ⟨out, ho, hl, hs⟩ := parseRowFields_spec (fieldsOf line) buf hbuf
    (fun k _ hk2 => hd k hk2)
  have : out = decodeLine line := by
    refine row_eq_decodeLine hc hl ?_
    intro j hj
    rw [hs j hj, if_pos (Nat.lt_of_lt_of_le hj hc), if_pos (Nat.lt_of_lt_of_le hj hc)]
  rw [← this]
  exact ho

theorem parseLoop_complete (junk : Nat → row_t) (hjunk : ∀ k, (junk k).length = NUM_COLS)
    (lines : List String) :
    ∀ (s t : Store), (∀ line, line ∈ lines → complete line) →
      parseLoop junk lines s = Except.ok t →
      encodeRows (lines.map decodeLine) s = some t ∧ ∀ line, line ∈ lines → decodable line := by
  induction lines with
  | nil =>
    intro s t _ h
    rw [parseLoop_nil] at h
    cases h
    exact ⟨rfl, fun _ hl => by simp at hl⟩
  | cons line rest ih =>
    intro s t hc h
    rw [parseLoop_cons] at h
    cases hp : parseRow line (junk s.numRows) with
    | error e =>
      rw [hp] at h
      cases h
    | ok row =>
      rw [hp] at h
      obtain ⟨hrow, hdec⟩ := parseRow_complete (hc line (List.mem_cons_self _ _)) (hjunk _) hp
      subst hrow
      dsimp only at h
      cases hu : encodeRow (decodeLine line) s with
      | none =>
        rw [hu] at h
        cases h
      | some u =>
        rw [hu] at h
        obtain ⟨he, hd⟩ := ih u t (fun l hl => hc l (List.mem_cons_of_mem _ hl)) h
        refine ⟨by simp [encodeRows, hu, he], ?_⟩
        intro l hl
        rcases List.mem_cons.1 hl with h1 | h1
        · rw [h1]; exact hdec
        · exact hd l h1

theorem parseLoop_decodable (junk : Nat → row_t) (hjunk : ∀ k, (junk k).length = NUM_COLS)
    (lines : List String) :
    ∀ (s t : Store), (∀ line, line ∈ lines → complete line) →
      (∀ line, line ∈ lines → decodable line) →
      encodeRows (lines.map decodeLine) s = some t →
      parseLoop junk lines s = Except.ok t := by
  induction lines with
  | nil =>
    intro s t _ _ h
    simp only [List.map_nil, encodeRows, Option.some.injEq] at h
    rw [parseLoop_nil, h]
  | cons line rest ih =>
    intro s t hc hd h
    rw [parseLoop_cons, parseRow_decodable (hc line (List.mem_cons_self _ _))
      (hd line (List.mem_cons_self _ _)) (hjunk _)]
    simp only [List.map_cons, encodeRows] at h
    dsimp only
    cases hu : encodeRow (decodeLine line) s with
    | none => simp [hu] at h
    | some u =>
      rw [hu, Option.some_bind] at h
      dsimp only
      exact ih u t (fun l hl => hc l (List.mem_cons_of_mem _ hl))
        (fun l hl => hd l (List.mem_cons_of_mem _ hl)) h

theorem scoreLoop_spec (columns : List bitset_t) (isBinary : List Bool) (target : bitset_t)
    (n : Nat) :
    ∀ (c : Nat) (L : List ScoreEntry), scoreLoop columns isBinary target n c = some L →
      L.map Prod.fst = ((List.range c).filter (fun col => isBinary.getD col false)).map (· + 1)
      ∧ ∀ e, e ∈ L → 1 ≤ e.1 ∧ e.1 ≤ c ∧ ∃ column, columns[e.1 - 1]? = some column
          ∧ normalizedScore column target n = some e.2 := by
  intro c
  induction c with
  | zero =>
    intro L h
    simp only [scoreLoop, Option.some.injEq] at h
    subst h
    exact ⟨rfl, fun e he => by simp at he⟩
  | succ c ih =>
    intro L h
    rw [scoreLoop] at h
    cases hM : scoreLoop columns isBinary target n c with
    | none => simp [hM] at h
    | some M =>
      obtain ⟨hids, hent⟩ := ih M hM
      simp only [hM] at h
      cases hb : isBinary[c]? with
      | none => simp [hb] at h
      | some b =>
        have hbd : isBinary.getD c false = b := getD_of_getElem? false hb
        simp only [hb] at h
        cases b with
        | false =>
          simp only [Option.some.injEq] at h
          subst h
          refine ⟨?_, fun e he => ?_⟩
          · rw [hids, List.range_succ, List.filter_append]
            simp [List.getD_eq_getElem?_getD, hb]
          · obtain ⟨h1, h2, h3⟩ := hent e he
            exact ⟨h1, Nat.le_succ_of_le h2, h3⟩
        | true =>
          simp only at h
          cases hc : columns[c]? with
          | none => simp [hc] at h
          | some column =>
            simp only [hc] at h
            cases hs : normalizedScore column target n with
            | none => simp [hs] at h
            | some score =>
              simp only [hs, Option.some.injEq] at h
              subst h
              refine ⟨?_, fun e he => ?_⟩
              · rw [List.map_append, hids, List.range_succ, List.filter_append]
                simp [List.getD_eq_getElem?_getD, hb]
              · rcases List.mem_append.1 he with h1 | h1
                · obtain ⟨h1, h2, h3⟩ := hent e h1
                  exact ⟨h1, Nat.le_succ_of_le h2, h3⟩
                · rw [List.mem_singleton] at h1
                  subst h1
                  exact ⟨Nat.succ_le_succ (Nat.zero_le c), Nat.le_refl _, column,
                    by simpa using hc, hs⟩

theorem scoreLoop_some (columns : List bitset_t) (isBinary : List Bool) (target : bitset_t)
    (n : Nat) (hflags : ∀ col, col < NUM_COLS → col < isBinary.length)
    (hscore : ∀ col, col < NUM_COLS → isBinary[col]? = some true →
      ∃ column s, columns[col]? = some column ∧ normalizedScore column target n = some s) :
    ∀ c, c ≤ NUM_COLS → ∃ L, scoreLoop columns isBinary target n c = some L := by
  intro c
  induction c with
  | zero => intro _; exact ⟨[], rfl⟩
  | succ c ih =>
    intro hc
    have hc1 : c < NUM_COLS := hc
    obtain ⟨M, hM⟩ := ih (Nat.le_of_lt hc1)
    rw [scoreLoop, hM]
    obtain ⟨b, hb⟩ : ∃ b, isBinary[c]? = some b :=
      ⟨_, List.getElem?_eq_getElem (hflags c hc1)⟩
    cases b with
    | false =>
      simp only [hb]
      exact ⟨M, rfl⟩
    | true =>
      obtain ⟨column, s, hcol, hs⟩ := hscore c hc1 hb
      simp only [hb, hcol, hs]
      exact ⟨_, rfl⟩

theorem ids_count (isBinary : List Bool) (c k : Nat) :
    (((List.range c).filter (fun col => isBinary.getD col false)).map (· + 1)).count k
      = if 1 ≤ k ∧ k ≤ c ∧ isBinary.getD (k - 1) false = true then 1 else 0 := by
  have hnd : (((List.range c).filter (fun col => isBinary.getD col false)).map (· + 1)).Nodup :=
    ((List.nodup_range c).filter _).map (fun a b h => Nat.succ_injective h)
  rw [List.count_eq_of_nodup hnd]
  have hiff : k ∈ ((List.range c).filter (fun col => isBinary.getD col false)).map (· + 1)
      ↔ (1 ≤ k ∧ k ≤ c ∧ isBinary.getD (k - 1) false = true) := by
    simp only [List.mem_map, List.mem_filter, List.mem_range]
    constructor
    · rintro ⟨col, ⟨hlt, hfl⟩, rfl⟩
      exact ⟨Nat.succ_le_succ (Nat.zero_le col), hlt, by simpa using hfl⟩
    · rintro ⟨h1, h2, h3⟩
      exact ⟨k - 1, ⟨by omega, h3⟩, by omega⟩
  by_cases h : 1 ≤ k ∧ k ≤ c ∧ isBinary.getD (k - 1) false = true
  · rw [if_pos h, if_pos (hiff.2 h)]
  · rw [if_neg h, if_neg (fun hm => h (hiff.1 hm))]

theorem encodeRow_numRows {row : row_t} {s t : Store} (h : encodeRow row s = some t) :
    t.numRows = s.numRows + 1 := by
  unfold encodeRow at h
  cases hw : encodeCols row NUM_COLS s with
  | none => simp [hw] at h
  | some w =>
    rw [hw, Option.map_some', Option.some.injEq] at h
    subst h
    simp [(encodeCols_flags NUM_COLS w hw).1]

theorem parseLoop_numRows (junk : Nat → row_t) (lines : List String) :
    ∀ (s t : Store), parseLoop junk lines s = Except.ok t →
      t.numRows = s.numRows + lines.length := by
  induction lines with
  | nil =>
    intro s t h
    rw [parseLoop_nil] at h
    cases h
    rfl
  | cons line rest ih =>
    intro s t h
    rw [parseLoop_cons] at h
    cases hp : parseRow line (junk s.numRows) with
    | error e =>
      rw [hp] at h
      cases h
    | ok row =>
      rw [hp] at h
      dsimp only at h
      cases hu : encodeRow row s with
      | none =>
        rw [hu] at h
        cases h
      | some u =>
        rw [hu] at h
        rw [ih u t h, encodeRow_numRows hu, List.length_cons]
        omega

theorem mainScores_parse {hdr : String} {lines : List String} {junk : Nat → row_t}
    {L : List ScoreEntry} (h : mainScores (some (hdr :: lines)) junk = some L) :
    ∃ t target, parseLoop junk lines (initStore [] []) = Except.ok t
      ∧ parseCSVFile (some (hdr :: lines)) junk [] []
          = Except.ok (lines.length, t.columns, t.isBinary)
      ∧ t.numRows = lines.length
      ∧ t.columns[NUM_COLS - 1]? = some target
      ∧ scoreLoop t.columns t.isBinary target lines.length NUM_COLS = some L := by
  unfold mainScores at h
  rw [parseCSVFile_cons] at h
  cases hp : parseLoop junk lines (initStore [] []) with
  | error e =>
    rw [hp] at h
    cases h
  | ok t =>
    rw [hp] at h
    dsimp only at h
    have hn : t.numRows = lines.length := by
      rw [parseLoop_numRows junk lines _ t hp]
      simp [initStore]
    cases ht : t.columns[NUM_COLS - 1]? with
    | none =>
      rw [ht] at h
      cases h
    | some target =>
      rw [ht] at h
      dsimp only at h
      rw [hn] at h
      refine ⟨t, target, rfl, ?_, hn, ht, h⟩
      rw [parseCSVFile_cons, hp]
      dsimp only
      rw [hn]

theorem initStore_flag (j : Nat) (hj : j < NUM_COLS) :
    (initStore [] []).isBinary.getD j false = true := by
  have h : (initStore [] []).isBinary = List.replicate NUM_COLS true := by
    simp [initStore, resize]
  rw [h, List.getD_eq_getElem?_getD, List.getElem?_replicate, if_pos hj]
  rfl

theorem all_decodeLine (lines : List String) (j : Nat) (hj : j < NUM_COLS) :
    (lines.map decodeLine).all (fun row => row.getD j 0 != 2)
      = lines.all (fun line => slotCode j ((fieldsOf line).getD j "") != SENTINEL) := by
  induction lines with
  | nil => rfl
  | cons line rest ih =>
    rw [List.map_cons, List.all_cons, List.all_cons, ih, decodeLine_getD line j hj]
    rfl

theorem parse_flags {junk : Nat → row_t} (hjunk : ∀ k, (junk k).length = NUM_COLS)
    {lines : List String} (hc : ∀ line, line ∈ lines → complete line) {t : Store}
    (hp : parseLoop junk lines (initStore [] []) = Except.ok t) (j : Nat) (hj : j < NUM_COLS) :
    t.isBinary.getD j false
      = lines.all (fun line => slotCode j ((fieldsOf line).getD j "") != SENTINEL) := by
  obtain ⟨he, _⟩ := parseLoop_complete junk hjunk lines _ t hc hp
  obtain ⟨_, _, hflags⟩ := encodeRows_flags _ _ t he
  rw [hflags j hj, initStore_flag j hj, Bool.true_and, all_decodeLine lines j hj]

theorem initStore_column_length (j : Nat) (hj : j < NUM_COLS) :
    ((initStore [] []).columns.getD j []).length = numBlocks 500000 := by
  have h : (initStore [] []).columns
      = List.replicate NUM_COLS (List.replicate (numBlocks 500000) 0) := by
    simp [initStore, resize]
  rw [h, List.getD_eq_getElem?_getD, List.getElem?_replicate, if_pos hj]
  simp

theorem normalizedScore_some (feature target : bitset_t) (n : Nat) (hn : 1 ≤ n)
    (hf : n ≤ BITS_PER_BLOCK * feature.length) (ht : n ≤ BITS_PER_BLOCK * target.length) :
    ∃ s, normalizedScore feature target n = some s := by
  obtain ⟨v, hv, _, _⟩ := chiSquare_le feature target n hn hf ht
  have hn0 : (n : ℚ) ≠ 0 := by
    have : 0 < n := hn
    exact_mod_cast this.ne.symm
  exact ⟨v / n, by simp [normalizedScore, hv, normalize, fdiv, hn0]⟩

theorem mainScores_some (hdr : String) (lines : List String) (junk : Nat → row_t)
    (hjunk : ∀ k, (junk k).length = NUM_COLS) (hc : ∀ line, line ∈ lines → complete line)
    (hd : ∀ line, line ∈ lines → decodable line) (h1 : 1 ≤ lines.length)
    (hcap : lines.length ≤ 500032) :
    ∃ L, mainScores (some (hdr :: lines)) junk = some L := by
  have hrows : ∀ row, row ∈ lines.map decodeLine → row.length = NUM_COLS := by
    intro row hr
    obtain ⟨line, _, rfl⟩ := List.mem_map.1 hr
    exact decodeLine_length line
  have hroom : (initStore [] []).room (lines.map decodeLine).length := by
    rw [List.length_map]
    exact room_mono initStore_room (by rw [capacity_eq]; exact hcap)
  obtain ⟨t, ht, htnum, htwf, _, htlen, _⟩ :=
    encodeRows_spec (lines.map decodeLine) (initStore [] []) initStore_wf hrows hroom
  have hp := parseLoop_decodable junk hjunk lines _ t hc hd ht
  have hn : t.numRows = lines.length := by
    rw [htnum, List.length_map]
    simp [initStore]
  have hlen : ∀ j, j < NUM_COLS →
      lines.length ≤ BITS_PER_BLOCK * (t.columns.getD j []).length := by
    intro j hj
    rw [htlen j hj, initStore_column_length j hj, numBlocks_500000]
    unfold BITS_PER_BLOCK
    omega
  have h41 : NUM_COLS - 1 < NUM_COLS := by decide
  have htarget : t.columns[NUM_COLS - 1]? = some (t.columns.getD (NUM_COLS - 1) []) :=
    getElem?_eq_some_getD [] (htwf.1.symm ▸ h41 : NUM_COLS - 1 < t.columns.length)
  obtain ⟨L, hL⟩ := scoreLoop_some t.columns t.isBinary (t.columns.getD (NUM_COLS - 1) [])
    lines.length (fun col hcol => htwf.2.symm ▸ hcol)
    (fun col hcol _ => by
      obtain ⟨s, hs⟩ := normalizedScore_some (t.columns.getD col [])
        (t.columns.getD (NUM_COLS - 1) []) lines.length h1 (hlen col hcol) (hlen _ h41)
      exact ⟨_, s, getElem?_eq_some_getD [] (htwf.1.symm ▸ hcol : col < t.columns.length), hs⟩)
    NUM_COLS (Nat.le_refl _)
  refine ⟨L, ?_⟩
  unfold mainScores
  rw [parseCSVFile_cons, hp]
  dsimp only
  rw [htarget]
  dsimp only
  rw [hn]
  exact hL

theorem mainRanked_some (hdr : String) (lines : List String) (junk : Nat → row_t)
    (hjunk : ∀ k, (junk k).length = NUM_COLS) (hc : ∀ line, line ∈ lines → complete line)
    (hd : ∀ line, line ∈ lines → decodable line) (h1 : 1 ≤ lines.length)
    (hcap : lines.length ≤ 500032) :
    ∃ out, mainRanked (some (hdr :: lines)) junk out := by
  obtain ⟨L, hL⟩ := mainScores_some hdr lines junk hjunk hc hd h1 hcap
  exact ⟨rankStable L, L, hL, stdSort_rankStable L⟩

theorem normalizedScore_eq {feature target : bitset_t} {n : Nat} {s : ℚ}
    (h : normalizedScore feature target n = some s) :
    ∃ v, chiSquare feature target n = some v ∧ s = v / (n : ℚ) := by
  unfold normalizedScore at h
  cases hv : chiSquare feature target n with
  | none => simp [hv] at h
  | some v =>
    rw [hv, Option.some_bind] at h
    unfold normalize fdiv at h
    by_cases hn : (n : ℚ) = 0
    · simp [hn] at h
    · rw [if_neg hn] at h
      exact ⟨v, rfl, (Option.some.inj h).symm⟩

theorem ranked_count {hdr : String} {lines : List String} {junk : Nat → row_t}
    (hjunk : ∀ k, (junk k).length = NUM_COLS) (hc : ∀ line, line ∈ lines → complete line)
    {out : List ScoreEntry} (h : mainRanked (some (hdr :: lines)) junk out) (c : Nat)
    (h1 : 1 ≤ c) (h2 : c ≤ NUM_COLS) :
    (out.map Prod.fst).count c =
      if lines.all (fun line =>
        slotCode (c - 1) ((fieldsOf line).getD (c - 1) "") != SENTINEL) = true then 1 else 0 := by
  obtain ⟨L, hL, hsort⟩ := h
  obtain ⟨t, target, hp, _, _, _, hscore⟩ := mainScores_parse hL
  obtain ⟨hids, _⟩ := scoreLoop_spec _ _ _ _ NUM_COLS L hscore
  rw [(hsort.1.map Prod.fst).count_eq, hids, ids_count,
    parse_flags hjunk hc hp (c - 1) (by omega)]
  by_cases hall : lines.all (fun line =>
      slotCode (c - 1) ((fieldsOf line).getD (c - 1) "") != SENTINEL) = true
  · rw [if_pos hall, if_pos ⟨h1, h2, hall⟩]
  · rw [if_neg hall, if_neg (fun h => hall h.2.2)]

theorem exampleLines_complete : ∀ line, line ∈ exampleLines → complete line := by
  unfold exampleLines complete fieldsOf
  decide

theorem exampleLines_decodable : ∀ line, line ∈ exampleLines → decodable line := by
  unfold exampleLines decodable fieldsOf
  decide

/-- C11: for a dataset of complete records and a non-label attribute `c` (`1 ≤ c ≤ 41`),
every ranked output of `main` contains exactly one entry with identifier `c` if no row's
field for `c` decodes to SENTINEL, and none otherwise; and `main` has a ranked output when
no field makes `stoi` throw and there are between 1 and 500,032 rows. -/
theorem ranked_attribute_ids (hdr : String) (lines : List String) (junk : Nat → row_t)
    (hjunk : ∀ k, (junk k).length = NUM_COLS) (hc : ∀ line, line ∈ lines → complete line) :
    (∀ out, mainRanked (some (hdr :: lines)) junk out → ∀ c, 1 ≤ c → c ≤ NUM_COLS - 1 →
      (out.map Prod.fst).count c =
        if lines.all (fun line =>
          slotCode (c - 1) ((fieldsOf line).getD (c - 1) "") != SENTINEL) = true
        then 1 else 0)
    ∧ ((∀ line, line ∈ lines → decodable line) → 1 ≤ lines.length → lines.length ≤ 500032 →
      ∃ out, mainRanked (some (hdr :: lines)) junk out) :=
  ⟨fun _ h c h1 h2 => ranked_count hjunk hc h c h1 (Nat.le_trans h2 (Nat.sub_le _ _)),
    fun hd h1 hcap => mainRanked_some hdr lines junk hjunk hc hd h1 hcap⟩

/-- Witness of C11: in the 4-row example the attribute with values `0,1,7,0` (identifier 1)
has no entry in any ranked output, the constant attribute (identifier 2) has exactly one, and
a ranked output exists. -/
theorem ranked_attribute_ids_witness :
    (∀ out, mainRanked (some ("header" :: exampleLines)) (fun _ => List.replicate 42 0) out →
      (out.map Prod.fst).count 1 = 0 ∧ (out.map Prod.fst).count 2 = 1)
    ∧ ∃ out, mainRanked (some ("header" :: exampleLines)) (fun _ => List.replicate 42 0) out := by
  have h := ranked_attribute_ids "header" exampleLines (fun _ => List.replicate 42 0)
    (fun _ => rfl) exampleLines_complete
  refine ⟨fun out ho => ⟨?_, ?_⟩, h.2 exampleLines_decodable (by decide) (by decide)⟩
  · rw [h.1 out ho 1 (by decide) (by decide)]
    decide
  · rw [h.1 out ho 2 (by decide) (by decide)]
    decide

/-- C13: for a dataset with `n ≥ 1` rows, every entry `(id, s)` of a ranked output of `main`
has `s = chiSquare(columns[id - 1], target, n) / n`, where `columns` are the columns
`parseCSVFile` leaves, `target = columns[41]` and `n` is the row count it returns; and `main`
has a ranked output when the records are complete, no field makes `stoi` throw and there are
at most 500,032 rows. -/
theorem ranked_scores (hdr : String) (lines : List String) (junk : Nat → row_t)
    (hn : 1 ≤ lines.length) :
    (∀ out, mainRanked (some (hdr :: lines)) junk out →
      ∃ columns isBinary target,
        parseCSVFile (some (hdr :: lines)) junk [] []
          = Except.ok (lines.length, columns, isBinary)
        ∧ columns[NUM_COLS - 1]? = some target
        ∧ ∀ e, e ∈ out → ∃ column v, columns[e.1 - 1]? = some column
            ∧ chiSquare column target lines.length = some v
            ∧ e.2 = v / (lines.length : ℚ))
    ∧ ((∀ k, (junk k).length = NUM_COLS) → (∀ line, line ∈ lines → complete line) →
        (∀ line, line ∈ lines → decodable line) → lines.length ≤ 500032 →
        ∃ out, mainRanked (some (hdr :: lines)) junk out) := by
  constructor
  · rintro out ⟨L, hL, hsort⟩
    obtain ⟨t, target, _, hparse, _, htarget, hscore⟩ := mainScores_parse hL
    obtain ⟨_, hent⟩ := scoreLoop_spec _ _ _ _ NUM_COLS L hscore
    refine ⟨t.columns, t.isBinary, target, hparse, htarget, ?_⟩
    intro e he
    obtain ⟨_, _, column, hcol, hs⟩ := hent e (hsort.1.mem_iff.1 he)
    obtain ⟨v, hv, hev⟩ := normalizedScore_eq hs
    exact ⟨column, v, hcol, hv, hev⟩
  · intro hjunk hc hd hcap
    exact mainRanked_some hdr lines junk hjunk hc hd hn hcap

/-- Witness of C13: the 4-row example. -/
theorem ranked_scores_witness :
    (∀ out, mainRanked (some ("header" :: exampleLines)) (fun _ => List.replicate 42 0) out →
      ∃ columns isBinary target,
        parseCSVFile (some ("header" :: exampleLines)) (fun _ => List.replicate 42 0) [] []
          = Except.ok (exampleLines.length, columns, isBinary)
        ∧ columns[NUM_COLS - 1]? = some target
        ∧ ∀ e, e ∈ out → ∃ column v, columns[e.1 - 1]? = some column
            ∧ chiSquare column target exampleLines.length = some v
            ∧ e.2 = v / (exampleLines.length : ℚ))
    ∧ ∃ out, mainRanked (some ("header" :: exampleLines)) (fun _ => List.replicate 42 0) out := by
  have h := ranked_scores "header" exampleLines (fun _ => List.replicate 42 0) (by decide)
  exact ⟨h.1, h.2 (fun _ => rfl) exampleLines_complete exampleLines_decodable (by decide)⟩

theorem encodeRows_bits (rows : List row_t) :
    ∀ s : Store, s.WF → (∀ row, row ∈ rows → row.length = NUM_COLS) → s.room rows.length →
    ∀ t, encodeRows rows s = some t → ∀ j, j < NUM_COLS → t.isBinary.getD j false = true →
    ∀ i, getBit (t.columns.getD j []) i =
      if s.numRows ≤ i ∧ i < s.numRows + rows.length then
        some ((rows.getD (i - s.numRows) []).getD j 0 != 0)
      else getBit (s.columns.getD j []) i := by
  induction rows with
  | nil =>
    intro s _ _ _ t ht j _ _ i
    simp only [encodeRows, Option.some.injEq] at ht
    subst ht
    rw [if_neg (by simp only [List.length_nil]; omega)]
  | cons row rest ih =>
    intro s hwf hrows hroom t ht j hj hflag i
    have hrow : row.length = NUM_COLS := hrows row (List.mem_cons_self _ _)
    obtain ⟨u, hu, hunum, huwf, _, hucols⟩ :=
      encodeRow_spec row s hwf hrow (room_mono hroom (by simp))
    have hulen : ∀ k, k < NUM_COLS →
        (u.columns.getD k []).length = (s.columns.getD k []).length := by
      intro k hk
      rw [getD_of_getElem? [] (hucols k hk), columnAfter_length]
    have huroom : u.room rest.length := room_step hwf hroom hunum huwf.1 hulen
    have ht2 : encodeRows rest u = some t := by
      rw [encodeRows, hu, Option.some_bind] at ht
      exact ht
    have hih := ih u huwf (fun r hr => hrows r (List.mem_cons_of_mem _ hr)) huroom t ht2 j hj
      hflag i
    obtain ⟨_, _, hall⟩ := encodeRows_flags (row :: rest) s t ht
    have hall2 := hall j hj
    rw [hflag, List.all_cons] at hall2
    have hsflag : s.isBinary.getD j false = true := by
      cases h : s.isBinary.getD j false
      · rw [h] at hall2; simp at hall2
      · rfl
    have hv2 : (row.getD j 0 != 2) = true := by
      cases h : (row.getD j 0 != 2)
      · rw [h] at hall2; simp at hall2
      · rfl
    have hmem : s.columns.getD j [] ∈ s.columns :=
      getD_mem_of_lt [] (hwf.1.symm ▸ hj : j < s.columns.length)
    have hr : s.numRows < BITS_PER_BLOCK * (s.columns.getD j []).length := by
      have := hroom _ hmem
      simp only [List.length_cons] at this
      omega
    obtain ⟨c, hc, hcget⟩ := setBit_getBit (s.columns.getD j []) s.numRows
      (row.getD j 0 != 0) hr
    have hucol : u.columns.getD j [] = c := by
      rw [getD_of_getElem? [] (hucols j hj)]
      unfold columnAfter
      rw [hsflag, hv2, hc]
      rfl
    rw [hih, hunum, hucol]
    by_cases him : i = s.numRows
    · subst him
      rw [if_neg (by omega), if_pos (by simp only [List.length_cons]; omega), hcget]
      simp
    · rw [setBit_getBit_ne hc him]
      by_cases hin : s.numRows + 1 ≤ i ∧ i < s.numRows + 1 + rest.length
      · rw [if_pos hin, if_pos (by simp only [List.length_cons]; omega)]
        have : i - s.numRows = (i - (s.numRows + 1)) + 1 := by omega
        rw [this, List.getD_cons_succ]
      · rw [if_neg hin, if_neg (by simp only [List.length_cons]; omega)]

theorem getBit_zeros (k i : Nat) (h : i < BITS_PER_BLOCK * k) :
    getBit (List.replicate k 0) i = some false := by
  have hlt : i / 64 < k := blockIndex_lt h
  rw [getBit_eq, List.getElem?_replicate, if_pos hlt]
  simp

theorem slotCode_cases (j : Nat) (token : String) :
    slotCode j token = 0 ∨ slotCode j token = 1 ∨ slotCode j token = 2 := by
  unfold slotCode
  split
  · split
    · exact Or.inl rfl
    · exact Or.inr (Or.inl rfl)
  · split
    · split
      · rename_i v _
        unfold codeOfValue
        split
        · exact Or.inl rfl
        · split
          · exact Or.inr (Or.inl rfl)
          · exact Or.inr (Or.inr rfl)
      · exact Or.inr (Or.inr rfl)
    · exact Or.inr (Or.inr rfl)

theorem initStore_column (j : Nat) (hj : j < NUM_COLS) :
    (initStore [] []).columns.getD j [] = List.replicate (numBlocks 500000) 0 := by
  have h : (initStore [] []).columns
      = List.replicate NUM_COLS (List.replicate (numBlocks 500000) 0) := by
    simp [initStore, resize]
  rw [h, List.getD_eq_getElem?_getD, List.getElem?_replicate, if_pos hj]
  rfl

/-- C18: after `parseCSVFile` has processed `k` complete rows, `k` within the column capacity
of 500,032 and no field making `stoi` throw, it returns `k`, and every column whose flag is
still true holds one bit per row at the positions `0 .. k - 1`: `getBit(column, i)` is true
exactly when the decoded value of row `i` for that attribute is 1; the positions from `k` on
still read 0. -/
theorem row_count_invariant (hdr : String) (lines : List String) (junk : Nat → row_t)
    (hjunk : ∀ k, (junk k).length = NUM_COLS) (hc : ∀ line, line ∈ lines → complete line)
    (hd : ∀ line, line ∈ lines → decodable line) (hcap : lines.length ≤ 500032) :
    ∃ columns isBinary,
      parseCSVFile (some (hdr :: lines)) junk [] [] = Except.ok (lines.length, columns, isBinary)
      ∧ ∀ col, col < NUM_COLS → isBinary[col]? = some true →
        ∃ column, columns[col]? = some column
          ∧ (∀ i, i < lines.length → getBit column i = some
              (decide (slotCode col ((fieldsOf (lines.getD i "")).getD col "") = 1)))
          ∧ (∀ i, lines.length ≤ i → i < 500032 → getBit column i = some false) := by
  have hrows : ∀ row, row ∈ lines.map decodeLine → row.length = NUM_COLS := by
    intro row hr
    obtain ⟨line, _, rfl⟩ := List.mem_map.1 hr
    exact decodeLine_length line
  have hroom : (initStore [] []).room (lines.map decodeLine).length := by
    rw [List.length_map]
    exact room_mono initStore_room (by rw [capacity_eq]; exact hcap)
  obtain ⟨t, ht, htnum, htwf, _, _, _⟩ :=
    encodeRows_spec (lines.map decodeLine) (initStore [] []) initStore_wf hrows hroom
  have hp := parseLoop_decodable junk hjunk lines _ t hc hd ht
  have hn : t.numRows = lines.length := by
    rw [htnum, List.length_map]
    simp [initStore]
  refine ⟨t.columns, t.isBinary, ?_, ?_⟩
  · rw [parseCSVFile_cons, hp]
    dsimp only
    rw [hn]
  · intro col hcol hflag
    have hflagD : t.isBinary.getD col false = true := getD_of_getElem? false hflag
    refine ⟨t.columns.getD col [],
      getElem?_eq_some_getD [] (htwf.1.symm ▸ hcol : col < t.columns.length), ?_, ?_⟩
    · intro i hi
      have hbits := encodeRows_bits (lines.map decodeLine) (initStore [] []) initStore_wf
        hrows hroom t ht col hcol hflagD i
      have h0 : (initStore [] []).numRows = 0 := rfl
      rw [h0, if_pos (by rw [List.length_map]; omega), Nat.sub_zero] at hbits
      rw [hbits]
      have hrowi : (lines.map decodeLine).getD i [] = decodeLine (lines.getD i "") := by
        rw [List.getD_eq_getElem _ _ (by rw [List.length_map]; exact hi),
          List.getD_eq_getElem _ _ hi, List.getElem_map]
      rw [hrowi, decodeLine_getD _ col hcol]
      have hne : slotCode col ((fieldsOf (lines.getD i "")).getD col "") ≠ 2 := by
        have hall := parse_flags hjunk hc hp col hcol
        rw [hflagD] at hall
        have hmem : lines.getD i "" ∈ lines := by
          rw [List.getD_eq_getElem _ _ hi]
          exact List.getElem_mem _
        have := List.all_eq_true.1 hall.symm _ hmem
        simpa [SENTINEL] using this
      rcases slotCode_cases col ((fieldsOf (lines.getD i "")).getD col "") with h | h | h
      · rw [h]; rfl
      · rw [h]; rfl
      · exact absurd h hne
    · intro i hle hlt
      have hbits := encodeRows_bits (lines.map decodeLine) (initStore [] []) initStore_wf
        hrows hroom t ht col hcol hflagD i
      have h0 : (initStore [] []).numRows = 0 := rfl
      rw [h0, if_neg (by rw [List.length_map]; omega), initStore_column col hcol] at hbits
      rw [hbits]
      apply getBit_zeros
      rw [numBlocks_500000]
      unfold BITS_PER_BLOCK
      omega

/-- Witness of C18: the 4-row example; bit `i` of the column of attribute 3 (index 2) is the
decoded value `0,1,1,0` of row `i`. -/
theorem row_count_invariant_witness :
    (List.range 4).map (fun i => slotCode 2 ((fieldsOf (exampleLines.getD i "")).getD 2 ""))
        = [0, 1, 1, 0]
    ∧ ∃ columns isBinary,
      parseCSVFile (some ("header" :: exampleLines)) (fun _ => List.replicate 42 0) [] []
        = Except.ok (exampleLines.length, columns, isBinary)
      ∧ ∀ col, col < NUM_COLS → isBinary[col]? = some true →
        ∃ column, columns[col]? = some column
          ∧ (∀ i, i < exampleLines.length → getBit column i = some
              (decide (slotCode col ((fieldsOf (exampleLines.getD i "")).getD col "") = 1)))
          ∧ (∀ i, exampleLines.length ≤ i → i < 500032 → getBit column i = some false) :=
  ⟨by decide, row_count_invariant "header" exampleLines (fun _ => List.replicate 42 0)
    (fun _ => rfl) exampleLines_complete exampleLines_decodable (by decide)⟩

theorem chiSquare_some_holds {feature target : bitset_t} {n : Nat} {v : ℚ}
    (h : chiSquare feature target n = some v) (hn : 1 ≤ n) :
    n ≤ BITS_PER_BLOCK * feature.length ∧ n ≤ BITS_PER_BLOCK * target.length := by
  obtain ⟨k, rfl⟩ : ∃ k, n = k + 1 := ⟨n - 1, by omega⟩
  rw [chiSquare_split] at h
  cases hc : countLoop feature target (k + 1) with
  | none => simp [hc] at h
  | some c =>
    simp only [countLoop, Option.bind_eq_bind, Option.bind_eq_some, Option.pure_def,
      Option.some.injEq] at hc
    obtain ⟨_, _, f, hf, t, ht, _⟩ := hc
    exact ⟨holds_of_getBit hn (by simpa using hf), holds_of_getBit hn (by simpa using ht)⟩

theorem normalizedScore_unit {feature target : bitset_t} {n : Nat} {s : ℚ}
    (h : normalizedScore feature target n = some s) : 0 ≤ s ∧ s ≤ 1 := by
  obtain ⟨v, hv, hs⟩ := normalizedScore_eq h
  have hn : 1 ≤ n := by
    by_contra hc
    have h0 : n = 0 := by omega
    subst h0
    simp [normalizedScore, hv, normalize, fdiv] at h
  have hpos : (0 : ℚ) < n := by
    have : 0 < n := hn
    exact_mod_cast this
  obtain ⟨hf, ht⟩ := chiSquare_some_holds hv hn
  obtain ⟨w, hw, h0, hle⟩ := chiSquare_le feature target n hn hf ht
  rw [hv] at hw
  have hvw : v = w := Option.some.inj hw
  subst hvw
  rw [hs]
  exact ⟨div_nonneg h0 hpos.le, (div_le_one hpos).2 hle⟩

theorem splitFields_ne_nil (cs : List Char) : ∀ cur, splitFields cur cs ≠ [] := by
  induction cs with
  | nil => intro cur; simp [splitFields]
  | cons c cs ih =>
    intro cur
    unfold splitFields
    split
    · simp
    · exact ih _

theorem string_mk_eq_empty (l : List Char) : String.mk l = "" ↔ l = [] := by
  constructor
  · intro h
    have := congrArg String.data h
    simpa using this
  · rintro rfl
    rfl

theorem getlineTokens_eq (cs : List Char) : ∀ cur,
    getlineTokens cur cs =
      if (splitFields cur cs).getLast? = some "" then (splitFields cur cs).dropLast
      else splitFields cur cs := by
  induction cs with
  | nil =>
    intro cur
    unfold getlineTokens splitFields
    by_cases h : cur = []
    · subst h
      simp
    · have h2 : String.mk cur.reverse ≠ "" := by
        rw [Ne, string_mk_eq_empty]
        simpa using h
      simp [h, h2]
  | cons c cs ih =>
    intro cur
    unfold getlineTokens splitFields
    by_cases hc : c = ','
    · rw [if_pos hc, if_pos hc, ih []]
      have hne := splitFields_ne_nil cs []
      obtain ⟨x, xs, hx⟩ := List.exists_cons_of_ne_nil hne
      rw [hx, List.getLast?_cons_cons]
      by_cases hl : (x :: xs).getLast? = some ""
      · rw [if_pos hl, if_pos hl, List.dropLast_cons₂]
      · rw [if_neg hl, if_neg hl]
    · rw [if_neg hc, if_neg hc, ih (c :: cur)]

/-- What `getline` reads of a record: all its fields, except an empty last field. -/
theorem fieldsOf_eq (line : String) :
    fieldsOf line =
      if (recordFields line).getLast? = some "" then (recordFields line).dropLast
      else recordFields line :=
  getlineTokens_eq line.data []

theorem fieldsOf_getD (line : String) (k : Nat) :
    (fieldsOf line).getD k "" = (recordFields line).getD k "" := by
  rw [fieldsOf_eq]
  split
  · rename_i h
    by_cases hk : k < (recordFields line).dropLast.length
    · rw [List.getD_eq_getElem _ _ hk, List.getElem_dropLast,
        List.getD_eq_getElem _ _ (by rw [List.length_dropLast] at hk; omega)]
    · rw [List.getD_eq_default _ _ (by omega)]
      rw [List.length_dropLast] at hk
      by_cases hk2 : k < (recordFields line).length
      · have hkl : k = (recordFields line).length - 1 := by omega
        rw [List.getLast?_eq_getElem?] at h
        rw [List.getD_eq_getElem?_getD, hkl, h]
        rfl
      · rw [List.getD_eq_default _ _ (by omega)]
  · rfl

theorem fieldsOf_length (line : String) :
    (fieldsOf line).length =
      if (recordFields line).getLast? = some "" then (recordFields line).length - 1
      else (recordFields line).length := by
  rw [fieldsOf_eq]
  split
  · rw [List.length_dropLast]
  · rfl

theorem trailingEmpty_iff (line : String) (i : Nat) :
    trailingEmpty line i ↔
      i + 1 = (recordFields line).length ∧ (recordFields line).getLast? = some "" := by
  unfold trailingEmpty
  constructor
  · rintro ⟨h1, h2⟩
    refine ⟨h1, ?_⟩
    rw [List.getLast?_eq_getElem?]
    have hi : i < (recordFields line).length := by omega
    have : (recordFields line).length - 1 = i := by omega
    rw [this, List.getElem?_eq_getElem hi]
    rw [List.getD_eq_getElem _ _ hi] at h2
    rw [h2]
  · rintro ⟨h1, h2⟩
    refine ⟨h1, ?_⟩
    rw [List.getLast?_eq_getElem?] at h2
    have : (recordFields line).length - 1 = i := by omega
    rw [this] at h2
    rw [List.getD_eq_getElem?_getD, h2]
    rfl

/-- Slot `j` of the row `parseRow` returns, in terms of the fields of the record: the code of
field `j` when the record has that field and `getline` yields a token for it, the value of the
buffer otherwise. -/
theorem parseRow_spec (line : String) (buf : row_t) (hbuf : buf.length = NUM_COLS)
    (hok : ∀ k, k < NUM_COLS - 1 → fieldThrows ((recordFields line).getD k "") = false) :
    ∃ row, parseRow line buf = Except.ok row ∧ row.length = NUM_COLS ∧
      ∀ j, j < NUM_COLS →
        (j < (recordFields line).length → ¬ trailingEmpty line j →
          row[j]? = some (slotCode j ((recordFields line).getD j ""))) ∧
        ((recordFields line).length ≤ j ∨ trailingEmpty line j → row[j]? = buf[j]?) := by
  have hok2 : ∀ k, k < (fieldsOf line).length → k < NUM_COLS - 1 →
      fieldThrows ((fieldsOf line).getD k "") = false := by
    intro k _ hk
    rw [fieldsOf_getD]
    exact hok k hk
  obtain ⟨row, hr, hl, hs⟩ := parseRowFields_spec (fieldsOf line) buf hbuf hok2
  refine ⟨row, hr, hl, ?_⟩
  intro j hj
  rw [hs j hj, fieldsOf_getD, fieldsOf_length, trailingEmpty_iff]
  constructor
  · intro h1 h2
    rw [if_pos]
    split
    · rename_i hl
      by_contra hc
      exact h2 ⟨by omega, hl⟩
    · exact h1
  · intro h
    rw [if_neg]
    split
    · omega
    · rename_i hl
      rcases h with h | h
      · omega
      · exact absurd h.2 hl

theorem parseRow_noThrow (line : String) (buf row : row_t)
    (h : parseRow line buf = Except.ok row) :
    ∀ k, k < NUM_COLS - 1 → fieldThrows ((recordFields line).getD k "") = false := by
  intro k hk
  rw [← fieldsOf_getD]
  by_cases hlt : k < (fieldsOf line).length
  · exact parseRowLoop_noThrow (fieldsOf line) 0 buf row h k hlt (by simpa using hk)
  · rw [List.getD_eq_default _ _ (by omega)]
    rfl

theorem emptyLabelLine_tokens :
    getlineTokens [] emptyLabelLine.data = List.replicate 41 "0" := by
  decide

theorem emptyLabelLine_fields :
    recordFields emptyLabelLine = List.replicate 41 "0" ++ [""] := by
  decide

/-- C6 as stated fails, in two ways. The field text `01` is neither `0` nor `1`, so the claim
sends it to SENTINEL, but `parseRow` stores its integer value 1. The record `1,,0,` has four
fields, the last one empty; the claim sends it to SENTINEL, but `getline` yields no token for
it and slot 3 keeps what the buffer held, here 0. -/
theorem parseRow_leading_zero_counterexample :
    recordFields "01" = ["01"]
      ∧ parseRow "01" (List.replicate 42 0) = Except.ok (1 :: List.replicate 41 0)
      ∧ specDecode "01" = SENTINEL ∧ SENTINEL ≠ 1
      ∧ recordFields "1,,0," = ["1", "", "0", ""]
      ∧ parseRow "1,,0," (List.replicate 42 0) = Except.ok ([1, 2, 0, 0] ++ List.replicate 38 0)
      ∧ specDecode "" = SENTINEL ∧ SENTINEL ≠ 0 := by
  refine ⟨by decide, rfl, by decide, by decide, by decide, rfl, by decide, by decide⟩

/-- C6, amended: on a record none of whose attribute fields makes `stoi` throw, `parseRow`
returns, and for a slot `i < 41` for which the record has a field: if the field is the last
one of the record and is empty, the slot is not written and holds what the buffer held;
otherwise the slot holds 0 for the text `0`, 1 for the text `1`; for a text that `isInteger`
accepts (an optional leading `-`, then digits only), the code of its integer value `v` as read
by `stoi`, namely 0 if `v = 0`, 1 if `v = 1`, SENTINEL otherwise; SENTINEL for every text that
`isInteger` rejects. -/
theorem parseRow_attribute_slot (line : String) (buf : row_t) (i : Nat)
    (hbuf : buf.length = NUM_COLS) (hi : i < NUM_COLS - 1)
    (hlen : i < (recordFields line).length)
    (hok : ∀ k, k < NUM_COLS - 1 → fieldThrows ((recordFields line).getD k "") = false) :
    ∃ row, parseRow line buf = Except.ok row ∧
      (trailingEmpty line i → row[i]? = buf[i]?) ∧
      (¬ trailingEmpty line i →
        ((recordFields line).getD i "" = "0" → row[i]? = some 0) ∧
        ((recordFields line).getD i "" = "1" → row[i]? = some 1) ∧
        (isInteger ((recordFields line).getD i "") = false → row[i]? = some SENTINEL) ∧
        (∀ v : Int, isInteger ((recordFields line).getD i "") = true →
          stoi ((recordFields line).getD i "") = Except.ok v →
          row[i]? = some (if v = 0 then 0 else if v = 1 then 1 else SENTINEL))) := by
  obtain ⟨row, hr, _, hs⟩ := parseRow_spec line buf hbuf hok
  have hi42 : i < NUM_COLS := by unfold NUM_COLS at hi ⊢; omega
  have hne : i ≠ NUM_COLS - 1 := by omega
  obtain ⟨hwritten, hkept⟩ := hs i hi42
  refine ⟨row, hr, fun ht => hkept (Or.inr ht), fun hnt => ?_⟩
  have hslot := hwritten hlen hnt
  refine ⟨?_, ?_, ?_, ?_⟩
  · intro h0
    rw [hslot, h0, slotCode, if_neg hne]
    rfl
  · intro h1
    rw [hslot, h1, slotCode, if_neg hne]
    rfl
  · intro hint
    rw [hslot, slotCode, if_neg hne, hint]
    rfl
  · intro v hint hst
    rw [hslot, slotCode, if_neg hne, hint, hst]
    rfl

/-- Witness of C6 (amended): the record `0,1,7,01,-0,x,+1,,` has nine fields, the last two
empty; it decodes to `0,1,2,1,0,2,2,2` in the slots 0 to 7, and slot 8, the empty last field,
keeps the 9 of the buffer. The theorem is applied at the field `01` (slot 3). -/
theorem parseRow_attribute_slot_witness :
    recordFields "0,1,7,01,-0,x,+1,," = ["0", "1", "7", "01", "-0", "x", "+1", "", ""]
      ∧ parseRow "0,1,7,01,-0,x,+1,," (List.replicate 42 9)
        = Except.ok ([0, 1, 2, 1, 0, 2, 2, 2] ++ List.replicate 34 9)
      ∧ trailingEmpty "0,1,7,01,-0,x,+1,," 8 ∧ ¬ trailingEmpty "0,1,7,01,-0,x,+1,," 7
      ∧ ¬ trailingEmpty "0,1,7,01,-0,x,+1,," 3
      ∧ ∃ row, parseRow "0,1,7,01,-0,x,+1,," (List.replicate 42 9) = Except.ok row ∧
        (trailingEmpty "0,1,7,01,-0,x,+1,," 3 → row[3]? = (List.replicate 42 9)[3]?) ∧
        (¬ trailingEmpty "0,1,7,01,-0,x,+1,," 3 →
          ((recordFields "0,1,7,01,-0,x,+1,,").getD 3 "" = "0" → row[3]? = some 0) ∧
          ((recordFields "0,1,7,01,-0,x,+1,,").getD 3 "" = "1" → row[3]? = some 1) ∧
          (isInteger ((recordFields "0,1,7,01,-0,x,+1,,").getD 3 "") = false →
            row[3]? = some SENTINEL) ∧
          (∀ v : Int, isInteger ((recordFields "0,1,7,01,-0,x,+1,,").getD 3 "") = true →
            stoi ((recordFields "0,1,7,01,-0,x,+1,,").getD 3 "") = Except.ok v →
            row[3]? = some (if v = 0 then 0 else if v = 1 then 1 else SENTINEL))) :=
  ⟨by decide, rfl, by unfold trailingEmpty; decide, by unfold trailingEmpty; decide,
    by unfold trailingEmpty; decide,
    parseRow_attribute_slot "0,1,7,01,-0,x,+1,," (List.replicate 42 9) 3 rfl
      (by decide) (by decide) (by decide)⟩

/-- C7 as stated fails: the record of 41 fields `0` followed by an empty label field (the line
ends in a comma) has 42 fields and its label text is not `normal`, so the claim sets the
label slot to 1; but `getline` yields no token for the empty last field and `parseRow` does
not write `row[41]`: it stays 0 over a buffer of zeros and SENTINEL over a buffer of twos. -/
theorem empty_label_counterexample :
    (recordFields emptyLabelLine).length = 42
      ∧ (recordFields emptyLabelLine).getD 41 "x" = ""
      ∧ parseRow emptyLabelLine (List.replicate 42 0) = Except.ok (List.replicate 42 0)
      ∧ parseRow emptyLabelLine (List.replicate 42 2)
          = Except.ok (List.replicate 41 0 ++ [SENTINEL])
      ∧ (List.replicate 42 0)[41]? ≠ some 1
      ∧ (List.replicate 41 0 ++ [SENTINEL])[41]? = some SENTINEL := by
  refine ⟨by rw [emptyLabelLine_fields]; rfl, by rw [emptyLabelLine_fields]; rfl, ?_, ?_,
    by decide, by decide⟩
  · rw [parseRow, emptyLabelLine_tokens]
    rfl
  · rw [parseRow, emptyLabelLine_tokens]
    rfl

/-- C7, amended: on a record with at least 42 fields, whenever `parseRow` returns: unless the
record has exactly 42 fields and its label field is empty, the label slot `row[41]` is 0 if
the 42nd field is exactly `normal` and 1 for every other text, and it is not SENTINEL; if
the record has exactly 42 fields and its label field is empty, `row[41]` is not written and
holds what the buffer held. And `parseRow` does return whenever no attribute field makes
`stoi` throw. -/
theorem parseRow_label_slot (line : String) (buf : row_t)
    (hbuf : buf.length = NUM_COLS) (hlen : NUM_COLS ≤ (recordFields line).length) :
    (∀ row, parseRow line buf = Except.ok row →
      (¬ trailingEmpty line (NUM_COLS - 1) →
        row[NUM_COLS - 1]? =
          some (if (recordFields line).getD (NUM_COLS - 1) "" = "normal" then 0 else 1) ∧
        row[NUM_COLS - 1]? ≠ some SENTINEL) ∧
      (trailingEmpty line (NUM_COLS - 1) → row[NUM_COLS - 1]? = buf[NUM_COLS - 1]?)) ∧
    ((∀ k, k < NUM_COLS - 1 → fieldThrows ((recordFields line).getD k "") = false) →
      ∃ row, parseRow line buf = Except.ok row) := by
  constructor
  · intro row hrow
    obtain ⟨out, hr, _, hs⟩ := parseRow_spec line buf hbuf (parseRow_noThrow line buf row hrow)
    have hout : out = row := by
      rw [hr] at hrow
      exact Except.ok.inj hrow
    subst hout
    obtain ⟨hwritten, hkept⟩ := hs (NUM_COLS - 1) (by decide)
    refine ⟨fun hnt => ?_, fun ht => hkept (Or.inr ht)⟩
    have hslot := hwritten (by unfold NUM_COLS at hlen ⊢; omega) hnt
    simp only [slotCode, if_true] at hslot
    refine ⟨hslot, ?_⟩
    rw [hslot]
    split <;> simp [SENTINEL]
  · intro hok
    obtain ⟨row, hr, _⟩ := parseRow_spec line buf hbuf hok
    exact ⟨row, hr⟩

/-- Witness of C7 (amended): a record of 42 fields whose label field is the numeric text `2`;
the label slot is 1. -/
theorem parseRow_label_slot_witness :
    recordFields (emptyLabelLine ++ "2") = List.replicate 41 "0" ++ ["2"]
      ∧ parseRow (emptyLabelLine ++ "2") (List.replicate 42 9)
        = Except.ok (List.replicate 41 0 ++ [1])
      ∧ ¬ trailingEmpty (emptyLabelLine ++ "2") (NUM_COLS - 1)
      ∧ (∀ row, parseRow (emptyLabelLine ++ "2") (List.replicate 42 9) = Except.ok row →
        (¬ trailingEmpty (emptyLabelLine ++ "2") (NUM_COLS - 1) →
          row[NUM_COLS - 1]? = some
            (if (recordFields (emptyLabelLine ++ "2")).getD (NUM_COLS - 1) "" = "normal"
              then 0 else 1) ∧
          row[NUM_COLS - 1]? ≠ some SENTINEL) ∧
        (trailingEmpty (emptyLabelLine ++ "2") (NUM_COLS - 1) →
          row[NUM_COLS - 1]? = (List.replicate 42 9)[NUM_COLS - 1]?)) ∧
      ((∀ k, k < NUM_COLS - 1 →
          fieldThrows ((recordFields (emptyLabelLine ++ "2")).getD k "") = false) →
        ∃ row, parseRow (emptyLabelLine ++ "2") (List.replicate 42 9) = Except.ok row) := by
  have hf : recordFields (emptyLabelLine ++ "2") = List.replicate 41 "0" ++ ["2"] := by
    decide
  have ht : getlineTokens [] (emptyLabelLine ++ "2").data = List.replicate 41 "0" ++ ["2"] := by
    decide
  refine ⟨hf, ?_, ?_, parseRow_label_slot (emptyLabelLine ++ "2") (List.replicate 42 9) rfl
    (by rw [hf]; decide)⟩
  · rw [parseRow, ht]
    rfl
  · unfold trailingEmpty
    rw [hf]
    decide

/-- C12, the code on the 4-row example: `main` has a ranked output, and every ranked output
contains exactly one entry with the label's identifier 42. Its score is that of the label
column against itself, `chiSquare(target, target, 4) / 4 = 1`, the highest score there is:
the loop of `main` over `col < NUM_COLS` does not stop before the label column `NUM_COLS - 1`
that it has taken as the target. -/
theorem label_column_ranked :
    (∃ out, mainRanked (some ("header" :: exampleLines)) (fun _ => List.replicate 42 0) out)
    ∧ ∀ out, mainRanked (some ("header" :: exampleLines)) (fun _ => List.replicate 42 0) out →
      (out.map Prod.fst).count 42 = 1 ∧ (42, (1 : ℚ)) ∈ out := by
  have hj : ∀ k : Nat, ((fun _ => List.replicate 42 0 : Nat → row_t) k).length = NUM_COLS :=
    fun _ => rfl
  refine ⟨mainRanked_some "header" exampleLines _ hj exampleLines_complete
    exampleLines_decodable (by decide) (by decide), fun out ho => ?_⟩
  have hcount : (out.map Prod.fst).count 42 = 1 := by
    rw [ranked_count hj exampleLines_complete ho 42 (by decide) (by decide)]
    decide
  refine ⟨hcount, ?_⟩
  have hmem : 42 ∈ out.map Prod.fst := by
    apply List.count_pos_iff.1
    omega
  obtain ⟨e, he, he42⟩ := List.mem_map.1 hmem
  obtain ⟨L, hL, hsort⟩ := ho
  obtain ⟨t, target, hp, _, _, htarget, hscore⟩ := mainScores_parse hL
  obtain ⟨_, hent⟩ := scoreLoop_spec _ _ _ _ NUM_COLS L hscore
  obtain ⟨_, _, column, hcol, hs⟩ := hent e (hsort.1.mem_iff.1 he)
  rw [he42] at hcol
  have hct : column = target := by
    have h41 : (42 : Nat) - 1 = NUM_COLS - 1 := rfl
    rw [h41, htarget] at hcol
    exact (Option.some.inj hcol).symm
  subst hct
  obtain ⟨v, hv, hev⟩ := normalizedScore_eq hs
  obtain ⟨hf, _⟩ := chiSquare_some_holds hv (by decide)
  have hrows : ∀ row, row ∈ exampleLines.map decodeLine → row.length = NUM_COLS := by
    intro row hr
    obtain ⟨line, _, rfl⟩ := List.mem_map.1 hr
    exact decodeLine_length line
  have hroom : (initStore [] []).room (exampleLines.map decodeLine).length :=
    room_mono initStore_room (by rw [capacity_eq]; decide)
  obtain ⟨henc, _⟩ := parseLoop_complete _ hj exampleLines _ t exampleLines_complete hp
  have hflag : t.isBinary.getD (NUM_COLS - 1) false = true := by
    rw [parse_flags hj exampleLines_complete hp (NUM_COLS - 1) (by decide)]
    decide
  have hcolD : t.columns.getD (NUM_COLS - 1) [] = column := getD_of_getElem? [] htarget
  have hbits := encodeRows_bits (exampleLines.map decodeLine) (initStore [] []) initStore_wf
    hrows hroom t henc (NUM_COLS - 1) (by decide) hflag
  rw [hcolD] at hbits
  have hb0 : getBit column 0 = some false := by
    rw [hbits 0, if_pos (by decide)]
    decide
  have hb1 : getBit column 1 = some true := by
    rw [hbits 1, if_pos (by decide)]
    decide
  have h4 := chiSquare_agree column column exampleLines.length (by decide) hf hf
    (fun _ _ => rfl) ⟨1, by decide, hb1⟩ ⟨0, by decide, hb0⟩
  rw [hv] at h4
  have hv4 : v = ((exampleLines.length : Nat) : ℚ) := Option.some.inj h4
  have he1 : e.2 = 1 := by
    rw [hev, hv4]
    exact div_self (by decide)
  have : e = (42, (1 : ℚ)) := Prod.ext he42 he1
  rw [← this]
  exact he

theorem roundDouble_eq (q : ℚ) (m : ℕ) (k : ℤ)
    (hlo : (2 : ℚ) ^ (k + 52) ≤ q) (hhi : q < (2 : ℚ) ^ (k + 53))
    (h1 : (m : ℚ) * 2 ^ k - 2 ^ k / 2 < q) (h2 : q < (m : ℚ) * 2 ^ k + 2 ^ k / 2) :
    roundDouble q = (m : ℚ) * 2 ^ k := by
  have hpos : (0 : ℚ) < q := lt_of_lt_of_le (by positivity) hlo
  have hu : (0 : ℚ) < 2 ^ k := by positivity
  have hlog : Int.log 2 q = k + 52 := by
    have a : k + 52 ≤ Int.log 2 q := (Int.zpow_le_iff_le_log (by norm_num) hpos).1 (by exact_mod_cast hlo)
    have b : Int.log 2 q < k + 53 := (Int.lt_zpow_iff_log_lt (by norm_num) hpos).1 (by exact_mod_cast hhi)
    omega
  unfold roundDouble
  rw [if_neg hpos.ne.symm, abs_of_pos hpos, hlog]
  have hk : k + 52 - 52 = k := by ring
  simp only [hk, if_neg (not_lt.2 hpos.le)]
  have ht1 : (m : ℚ) - 1 / 2 < q / 2 ^ k := by
    rw [lt_div_iff₀ hu]
    linarith
  have ht2 : q / 2 ^ k < (m : ℚ) + 1 / 2 := by
    rw [div_lt_iff₀ hu]
    linarith
  by_cases hge : (m : ℚ) ≤ q / 2 ^ k
  · have hfl : ⌊q / 2 ^ k⌋ = (m : ℤ) := by
      rw [Int.floor_eq_iff]
      constructor
      · exact_mod_cast hge
      · push_cast
        linarith
    rw [hfl]
    have hr : q / 2 ^ k - ((m : ℤ) : ℚ) < 1 / 2 := by
      push_cast
      linarith
    rw [if_pos (Or.inl hr)]
    push_cast
    ring
  · have hlt : q / 2 ^ k < (m : ℚ) := not_le.1 hge
    have hfl : ⌊q / 2 ^ k⌋ = (m : ℤ) - 1 := by
      rw [Int.floor_eq_iff]
      constructor
      · push_cast
        linarith
      · push_cast
        linarith
    rw [hfl]
    have hr : ¬ (q / 2 ^ k - (((m : ℤ) - 1 : ℤ) : ℚ) < 1 / 2 ∨
        (q / 2 ^ k - (((m : ℤ) - 1 : ℤ) : ℚ) = 1 / 2 ∧ ((m : ℤ) - 1) % 2 = 0)) := by
      push_cast
      rintro (h | ⟨h, _⟩) <;> linarith
    rw [if_neg hr]
    push_cast
    ring

theorem roundDouble_neg (q : ℚ) : roundDouble (-q) = -roundDouble q := by
  unfold roundDouble
  by_cases h0 : q = 0
  · simp [h0]
  · have h0n : -q ≠ 0 := neg_ne_zero.2 h0
    rw [if_neg h0, if_neg h0n, abs_neg]
    rcases lt_or_gt_of_ne h0 with h | h
    · have hn : ¬ (-q < 0) := by linarith
      simp only [if_pos h, if_neg hn]
      ring
    · have hn : -q < 0 := by linarith
      have hq : ¬ (q < 0) := by linarith
      simp only [if_pos hn, if_neg hq]
      ring

theorem roundDouble_zero : roundDouble 0 = 0 := by
  unfold roundDouble
  rw [if_pos rfl]

theorem roundDouble_natCast (n : ℕ) (hn : n < 2 ^ 53) : roundDouble (n : ℚ) = (n : ℚ) := by
  by_cases h0 : n = 0
  · subst h0
    simpa using roundDouble_zero
  have hL : Nat.log 2 n < 53 := Nat.log_lt_of_lt_pow h0 hn
  have hle : 2 ^ Nat.log 2 n ≤ n := Nat.pow_log_le_self 2 h0
  have hlt : n < 2 ^ (Nat.log 2 n + 1) := Nat.lt_pow_succ_log_self (by norm_num) n
  have hleq : ((2 : ℚ) ^ (Nat.log 2 n)) ≤ (n : ℚ) := by exact_mod_cast hle
  have hltq : (n : ℚ) < (2 : ℚ) ^ (Nat.log 2 n + 1) := by exact_mod_cast hlt
  have key : ((n * 2 ^ (52 - Nat.log 2 n) : ℕ) : ℚ) * 2 ^ ((Nat.log 2 n : ℤ) - 52) = (n : ℚ) := by
    have e : ((Nat.log 2 n : ℤ) - 52) = -((52 - Nat.log 2 n : ℕ) : ℤ) := by omega
    rw [e, zpow_neg, zpow_natCast]
    push_cast
    field_simp
  have hu : (0 : ℚ) < 2 ^ ((Nat.log 2 n : ℤ) - 52) := by positivity
  have h := roundDouble_eq (n : ℚ) (n * 2 ^ (52 - Nat.log 2 n)) ((Nat.log 2 n : ℤ) - 52)
    (by
      have : ((Nat.log 2 n : ℤ) - 52 + 52) = (Nat.log 2 n : ℤ) := by ring
      rw [this, zpow_natCast]
      exact hleq)
    (by
      have : ((Nat.log 2 n : ℤ) - 52 + 53) = ((Nat.log 2 n + 1 : ℕ) : ℤ) := by push_cast; ring
      rw [this, zpow_natCast]
      exact hltq)
    (by rw [key]; linarith)
    (by rw [key]; linarith)
  rw [h, key]

theorem roundDouble_tie (q : ℚ) (m : ℕ) (k : ℤ)
    (hlo : (2 : ℚ) ^ (k + 52) ≤ q) (hhi : q < (2 : ℚ) ^ (k + 53))
    (hq : q = (m : ℚ) * 2 ^ k + 2 ^ k / 2) :
    roundDouble q = (if m % 2 = 0 then (m : ℚ) else (m : ℚ) + 1) * 2 ^ k := by
  have hpos : (0 : ℚ) < q := lt_of_lt_of_le (by positivity) hlo
  have hu : (0 : ℚ) < 2 ^ k := by positivity
  have hlog : Int.log 2 q = k + 52 := by
    have a : k + 52 ≤ Int.log 2 q :=
      (Int.zpow_le_iff_le_log (by norm_num) hpos).1 (by exact_mod_cast hlo)
    have b : Int.log 2 q < k + 53 :=
      (Int.lt_zpow_iff_log_lt (by norm_num) hpos).1 (by exact_mod_cast hhi)
    omega
  unfold roundDouble
  rw [if_neg hpos.ne.symm, abs_of_pos hpos, hlog]
  have hk : k + 52 - 52 = k := by ring
  simp only [hk, if_neg (not_lt.2 hpos.le)]
  have ht : q / 2 ^ k = (m : ℚ) + 1 / 2 := by
    rw [hq]
    field_simp
    ring
  have hfl : ⌊q / 2 ^ k⌋ = (m : ℤ) := by
    rw [Int.floor_eq_iff, ht]
    constructor
    · push_cast
      linarith
    · push_cast
      linarith
  rw [hfl, ht]
  have hr : ¬ ((m : ℚ) + 1 / 2 - ((m : ℤ) : ℚ) < 1 / 2) := by
    push_cast
    linarith
  have hr2 : (m : ℚ) + 1 / 2 - ((m : ℤ) : ℚ) = 1 / 2 := by
    push_cast
    ring
  by_cases hpar : m % 2 = 0
  · have hpz : (m : ℤ) % 2 = 0 := by omega
    rw [if_pos (Or.inr ⟨hr2, hpz⟩), if_pos hpar]
    push_cast
    ring
  · have hpz : ¬ ((m : ℤ) % 2 = 0) := by omega
    rw [if_neg (by rintro (h | ⟨_, h⟩); exact hr h; exact hpz h), if_neg hpar]
    push_cast
    ring

theorem roundDouble_one : roundDouble 1 = 1 := by
  simpa using roundDouble_natCast 1 (by norm_num)

theorem roundDouble_two : roundDouble 2 = 2 := by
  simpa using roundDouble_natCast 2 (by norm_num)

theorem roundDouble_three : roundDouble 3 = 3 := by
  simpa using roundDouble_natCast 3 (by norm_num)

theorem roundDouble_four : roundDouble 4 = 4 := by
  simpa using roundDouble_natCast 4 (by norm_num)

theorem countLoop_1_1_3 : countLoop [1] [1] 3 = some ⟨1, 2, 0, 0⟩ := by
  decide

theorem countLoop_1_6_3 : countLoop [1] [6] 3 = some ⟨0, 0, 1, 2⟩ := by
  decide

/-- The `double` nearest to 1/3; it lies below 1/3. -/
theorem roundDouble_third :
    roundDouble (1 / 3)
      = 6004799503160661 / 18014398509481984 := by
  rw [roundDouble_eq (1 / 3) 6004799503160661 (-54)
    (by norm_num) (by norm_num) (by norm_num) (by norm_num)]
  norm_num

/-- The `double` nearest to 2/3; it lies below 2/3. -/
theorem roundDouble_two_thirds :
    roundDouble (2 / 3)
      = 6004799503160661 / 9007199254740992 := by
  rw [roundDouble_eq (2 / 3) 6004799503160661 (-53)
    (by norm_num) (by norm_num) (by norm_num) (by norm_num)]
  norm_num

/-- The `double` nearest to 4/3; it lies below 4/3. -/
theorem roundDouble_four_thirds :
    roundDouble (4 / 3)
      = 6004799503160661 / 4503599627370496 := by
  rw [roundDouble_eq (4 / 3) 6004799503160661 (-52)
    (by norm_num) (by norm_num) (by norm_num) (by norm_num)]
  norm_num

/-- The `double` nearest to 2/3 is left unchanged by rounding. -/
theorem roundDouble_two_thirds_exact :
    roundDouble (6004799503160661 / 9007199254740992)
      = 6004799503160661 / 9007199254740992 := by
  rw [roundDouble_eq (6004799503160661 / 9007199254740992) 6004799503160661 (-53)
    (by norm_num) (by norm_num) (by norm_num) (by norm_num)]
  norm_num

/-- On the columns `[1]`, `[1]` over 3 rows: the difference `tp - e1 = 1 - e1` lies half-way
between two `double`s and rounds to the even one. -/
theorem roundDouble_tp_diff :
    roundDouble (12009599006321323 / 18014398509481984)
      = 3002399751580331 / 4503599627370496 := by
  rw [roundDouble_tie (12009599006321323 / 18014398509481984) 6004799503160661 (-53)
    (by norm_num) (by norm_num) (by norm_num)]
  norm_num

/-- On the columns `[1]`, `[1]` over 3 rows: the square of the rounded difference `tp - e1`
(and of `tn - e4`, which is the same `double`). -/
theorem roundDouble_tp_square :
    roundDouble (9014404268289633301131946069561 / 20282409603651670423947251286016)
      = 4003199668773775 / 9007199254740992 := by
  rw [roundDouble_eq (9014404268289633301131946069561 / 20282409603651670423947251286016) 8006399337547550 (-54)
    (by norm_num) (by norm_num) (by norm_num) (by norm_num)]
  norm_num

/-- On the columns `[1]`, `[1]` over 3 rows: the term `pow(tp - e1, 2) / e1`. -/
theorem roundDouble_tp_term :
    roundDouble (8006399337547550 / 6004799503160661)
      = 6004799503160663 / 4503599627370496 := by
  rw [roundDouble_eq (8006399337547550 / 6004799503160661) 6004799503160663 (-52)
    (by norm_num) (by norm_num) (by norm_num) (by norm_num)]
  norm_num

/-- On the columns `[1]`, `[1]` over 3 rows: the square of `fp - e2 = -e2` (and of
`fn - e3`). -/
theorem roundDouble_fp_square :
    roundDouble (36057617073158521194928777956921 / 81129638414606681695789005144064)
      = 2001599834386887 / 4503599627370496 := by
  rw [roundDouble_eq (36057617073158521194928777956921 / 81129638414606681695789005144064) 8006399337547548 (-54)
    (by norm_num) (by norm_num) (by norm_num) (by norm_num)]
  norm_num

/-- On the columns `[1]`, `[1]` over 3 rows: the difference `tn - e4 = 2 - e4` is a
`double`. -/
theorem roundDouble_tn_diff :
    roundDouble (3002399751580331 / 4503599627370496)
      = 3002399751580331 / 4503599627370496 := by
  rw [roundDouble_eq (3002399751580331 / 4503599627370496) 6004799503160662 (-53)
    (by norm_num) (by norm_num) (by norm_num) (by norm_num)]
  norm_num

/-- On the columns `[1]`, `[1]` over 3 rows: the term `pow(tn - e4, 2) / e4`. -/
theorem roundDouble_tn_term :
    roundDouble (4003199668773775 / 12009599006321322)
      = 6004799503160663 / 18014398509481984 := by
  rw [roundDouble_eq (4003199668773775 / 12009599006321322) 6004799503160663 (-54)
    (by norm_num) (by norm_num) (by norm_num) (by norm_num)]
  norm_num

/-- On the columns `[1]`, `[1]` over 3 rows: the sum of the first two terms. -/
theorem roundDouble_sum2 :
    roundDouble (18014398509481987 / 9007199254740992)
      = 4503599627370497 / 2251799813685248 := by
  rw [roundDouble_eq (18014398509481987 / 9007199254740992) 4503599627370497 (-51)
    (by norm_num) (by norm_num) (by norm_num) (by norm_num)]
  norm_num

/-- On the columns `[1]`, `[1]` over 3 rows: the sum of the first three terms. -/
theorem roundDouble_sum3 :
    roundDouble (24019198012642649 / 9007199254740992)
      = 3002399751580331 / 1125899906842624 := by
  rw [roundDouble_eq (24019198012642649 / 9007199254740992) 6004799503160662 (-51)
    (by norm_num) (by norm_num) (by norm_num) (by norm_num)]
  norm_num

/-- On the columns `[1]`, `[1]` over 3 rows: the sum of the four terms, the value
`chiSquare` returns. -/
theorem roundDouble_sum4 :
    roundDouble (54043195528445959 / 18014398509481984)
      = 6755399441055745 / 2251799813685248 := by
  rw [roundDouble_eq (54043195528445959 / 18014398509481984) 6755399441055745 (-51)
    (by norm_num) (by norm_num) (by norm_num) (by norm_num)]
  norm_num

/-- On the columns `[1]`, `[1]` over 3 rows: the quotient of the returned value by 3, the score. -/
theorem roundDouble_score :
    roundDouble (6755399441055745 / 6755399441055744)
      = 4503599627370497 / 4503599627370496 := by
  rw [roundDouble_eq (6755399441055745 / 6755399441055744) 4503599627370497 (-52)
    (by norm_num) (by norm_num) (by norm_num) (by norm_num)]
  norm_num

theorem expectedCountsDouble_1_1_3 :
    expectedCountsDouble ⟨1, 2, 0, 0⟩ 3
      = some (6004799503160661 / 18014398509481984, 6004799503160661 / 9007199254740992,
          6004799503160661 / 9007199254740992, 6004799503160661 / 4503599627370496) := by
  simp only [expectedCountsDouble]
  norm_num [roundDouble_one, roundDouble_two, roundDouble_three, roundDouble_four, ddiv,
    roundDouble_third, roundDouble_two_thirds, roundDouble_four_thirds]

theorem chiTermDouble_tp :
    chiTermDouble 1 (6004799503160661 / 18014398509481984)
      = some (6004799503160663 / 4503599627370496) := by
  simp only [chiTermDouble]
  norm_num [roundDouble_one, ddiv, roundDouble_tp_diff, roundDouble_tp_square, roundDouble_tp_term]

theorem chiTermDouble_fp :
    chiTermDouble 0 (6004799503160661 / 9007199254740992)
      = some (6004799503160661 / 9007199254740992) := by
  simp only [chiTermDouble]
  norm_num [roundDouble_zero, ddiv, roundDouble_neg, roundDouble_two_thirds_exact, roundDouble_fp_square,
    roundDouble_two_thirds]

theorem chiTermDouble_tn :
    chiTermDouble 2 (6004799503160661 / 4503599627370496)
      = some (6004799503160663 / 18014398509481984) := by
  simp only [chiTermDouble]
  norm_num [roundDouble_two, ddiv, roundDouble_tn_diff, roundDouble_tp_square, roundDouble_tn_term]

theorem chiSumDouble_1_1_3 :
    chiSumDouble ⟨1, 2, 0, 0⟩ (6004799503160661 / 18014398509481984,
        6004799503160661 / 9007199254740992, 6004799503160661 / 9007199254740992,
        6004799503160661 / 4503599627370496)
      = some (6755399441055745 / 2251799813685248) := by
  simp only [chiSumDouble, chiTermDouble_tp, chiTermDouble_fp, chiTermDouble_tn]
  norm_num [roundDouble_sum2, roundDouble_sum3, roundDouble_sum4]

theorem chiSquareDouble_1_1_3 :
    chiSquareDouble [1] [1] 3 = some (6755399441055745 / 2251799813685248) := by
  rw [chiSquareDouble, countLoop_1_1_3, Option.some_bind, expectedCountsDouble_1_1_3,
    Option.some_bind, chiSumDouble_1_1_3]

theorem normalizedScoreDouble_1_1_3 :
    normalizedScoreDouble [1] [1] 3 = some (4503599627370497 / 4503599627370496) := by
  rw [normalizedScoreDouble, chiSquareDouble_1_1_3, Option.some_bind]
  norm_num [ddiv, roundDouble_three, roundDouble_score]

theorem round_half (t : ℚ) :
    |((if t - ⌊t⌋ < 1 / 2 ∨ (t - ⌊t⌋ = 1 / 2 ∧ ⌊t⌋ % 2 = 0) then ⌊t⌋ else ⌊t⌋ + 1 : ℤ) : ℚ)
      - t| ≤ 1 / 2 := by
  have h1 := Int.floor_le t
  have h2 := Int.lt_floor_add_one t
  split
  · rename_i h
    rw [abs_le]
    rcases h with h | ⟨h, _⟩ <;> constructor <;> linarith
  · rename_i h
    rw [not_or] at h
    have h3 : 1 / 2 ≤ t - ⌊t⌋ := not_lt.1 h.1
    rw [abs_le]
    push_cast
    constructor <;> linarith

theorem roundDouble_error (q : ℚ) : |roundDouble q - q| ≤ |q| / 2 ^ 53 := by
  by_cases h0 : q = 0
  · subst h0
    simp [roundDouble_zero]
  have ha : (0 : ℚ) < |q| := abs_pos.2 h0
  have hlo : (2 : ℚ) ^ (Int.log 2 |q|) ≤ |q| := by
    have h2 : 1 < 2 := by norm_num
    have := Int.zpow_log_le_self h2 ha
    exact_mod_cast this
  have hu : (0 : ℚ) < 2 ^ (Int.log 2 |q| - 52) := by positivity
  have hulp : (2 : ℚ) ^ (Int.log 2 |q| - 52) / 2 ≤ |q| / 2 ^ 53 := by
    have e : (2 : ℚ) ^ (Int.log 2 |q| - 52) = 2 ^ (Int.log 2 |q|) / 2 ^ 52 := by
      rw [zpow_sub₀ (by norm_num)]
      norm_num
    rw [e, div_div, div_le_div_iff₀ (by positivity) (by positivity)]
    nlinarith [hlo]
  have hk := round_half (|q| / 2 ^ (Int.log 2 |q| - 52))
  have hq : |q| = |q| / 2 ^ (Int.log 2 |q| - 52) * 2 ^ (Int.log 2 |q| - 52) :=
    (div_mul_cancel₀ _ hu.ne.symm).symm
  generalize hu_def : (2 : ℚ) ^ (Int.log 2 |q| - 52) = u at hu hulp hk hq
  generalize ht_def : |q| / u = t at hk hq
  have hrd : roundDouble q = (if q < 0 then -1 else 1) *
      ((if t - ⌊t⌋ < 1 / 2 ∨ (t - ⌊t⌋ = 1 / 2 ∧ ⌊t⌋ % 2 = 0) then ⌊t⌋ else ⌊t⌋ + 1 : ℤ) : ℚ)
      * u := by
    unfold roundDouble
    rw [if_neg h0]
    simp only [hu_def, ht_def]
  generalize ((if t - ⌊t⌋ < 1 / 2 ∨ (t - ⌊t⌋ = 1 / 2 ∧ ⌊t⌋ % 2 = 0) then ⌊t⌋ else ⌊t⌋ + 1 : ℤ)
    : ℚ) = k at hk hrd
  have hval : |roundDouble q - q| = |k - t| * u := by
    have e : |k - t| * u = |(k - t) * u| := by rw [abs_mul, abs_of_pos hu]
    rw [e, sub_mul, ← hq, hrd]
    rcases lt_or_gt_of_ne h0 with h | h
    · rw [if_pos h, abs_of_neg h, ← abs_neg]
      congr 1
      ring
    · rw [if_neg (not_lt.2 h.le), abs_of_pos h]
      congr 1
      ring
  rw [hval]
  calc |k - t| * u ≤ 1 / 2 * u := mul_le_mul_of_nonneg_right hk hu.le
    _ = u / 2 := by ring
    _ ≤ |q| / 2 ^ 53 := hulp

theorem roundDouble_mul_natCast (a b : ℕ) (ha : a < 2 ^ 26) (hb : b < 2 ^ 26) :
    roundDouble (roundDouble (a : ℚ) * roundDouble (b : ℚ)) = (a : ℚ) * (b : ℚ) := by
  have h2 : (2 : ℕ) ^ 26 < 2 ^ 53 := by norm_num
  rw [roundDouble_natCast a (lt_trans ha h2), roundDouble_natCast b (lt_trans hb h2)]
  have hab : a * b < 2 ^ 53 := by
    have hle : a * b ≤ (2 ^ 26 - 1) * (2 ^ 26 - 1) :=
      Nat.mul_le_mul (Nat.le_sub_one_of_lt ha) (Nat.le_sub_one_of_lt hb)
    calc a * b ≤ (2 ^ 26 - 1) * (2 ^ 26 - 1) := hle
      _ < 2 ^ 53 := by norm_num
  have := roundDouble_natCast (a * b) hab
  push_cast at this
  exact this

theorem expectedCountsDouble_eq (c : Counts) (n : ℕ) (hn : n ≠ 0) (hcap : n < 2 ^ 26)
    (hsum : c.tp + c.tn + c.fp + c.fn = n) (e1 e2 e3 e4 : ℚ)
    (he : expectedCounts c n = some (e1, e2, e3, e4)) :
    expectedCountsDouble c n
      = some (roundDouble e1, roundDouble e2, roundDouble e3, roundDouble e4) := by
  have hn0 : (n : ℚ) ≠ 0 := by exact_mod_cast hn
  have h2 : (2 : ℕ) ^ 26 < 2 ^ 53 := by norm_num
  have hnn : roundDouble (n : ℚ) = (n : ℚ) := roundDouble_natCast n (lt_trans hcap h2)
  simp only [expectedCounts, fdiv_of_ne hn0, Option.bind_eq_bind, Option.some_bind,
    Option.pure_def, Option.some.injEq, Prod.mk.injEq] at he
  obtain ⟨h1, h2', h3, h4⟩ := he
  simp only [expectedCountsDouble, hnn, ddiv, if_neg hn0, Option.bind_eq_bind, Option.some_bind,
    Option.pure_def]
  rw [roundDouble_mul_natCast _ _ (by omega) (by omega),
    roundDouble_mul_natCast _ _ (by omega) (by omega),
    roundDouble_mul_natCast _ _ (by omega) (by omega),
    roundDouble_mul_natCast _ _ (by omega) (by omega), h1, h2', h3, h4]

theorem roundDouble_sum_error (e1 e2 e3 e4 : ℚ) (h1 : 0 ≤ e1) (h2 : 0 ≤ e2) (h3 : 0 ≤ e3)
    (h4 : 0 ≤ e4) :
    |roundDouble e1 + roundDouble e2 + roundDouble e3 + roundDouble e4 - (e1 + e2 + e3 + e4)|
      ≤ (e1 + e2 + e3 + e4) / 2 ^ 53 := by
  have a1 := roundDouble_error e1
  have a2 := roundDouble_error e2
  have a3 := roundDouble_error e3
  have a4 := roundDouble_error e4
  rw [abs_of_nonneg h1] at a1
  rw [abs_of_nonneg h2] at a2
  rw [abs_of_nonneg h3] at a3
  rw [abs_of_nonneg h4] at a4
  rw [abs_le] at a1 a2 a3 a4 ⊢
  constructor
  · have : -((e1 + e2 + e3 + e4) / 2 ^ 53)
        = -(e1 / 2 ^ 53) + -(e2 / 2 ^ 53) + -(e3 / 2 ^ 53) + -(e4 / 2 ^ 53) := by ring
    rw [this]
    linarith [a1.1, a2.1, a3.1, a4.1]
  · have : (e1 + e2 + e3 + e4) / 2 ^ 53
        = e1 / 2 ^ 53 + e2 / 2 ^ 53 + e3 / 2 ^ 53 + e4 / 2 ^ 53 := by ring
    rw [this]
    linarith [a1.2, a2.2, a3.2, a4.2]

theorem expected_counts_exact (feature target : bitset_t) (n : Nat) (hn : 1 ≤ n)
    (hf : n ≤ BITS_PER_BLOCK * feature.length) (ht : n ≤ BITS_PER_BLOCK * target.length) :
    countLoop feature target n = some ⟨cellCount feature target n true true,
        cellCount feature target n false false, cellCount feature target n true false,
        cellCount feature target n false true⟩
      ∧ expectedCounts ⟨cellCount feature target n true true,
          cellCount feature target n false false, cellCount feature target n true false,
          cellCount feature target n false true⟩ n
        = some (refE1 feature target n, refE2 feature target n, refE3 feature target n,
            refE4 feature target n)
      ∧ refE1 feature target n + refE2 feature target n + refE3 feature target n
          + refE4 feature target n = (n : ℚ)
      ∧ refE1 feature target n
          = refExpected (marginCount feature n true) (marginCount target n true) n
      ∧ refE2 feature target n
          = refExpected (marginCount feature n true) (marginCount target n false) n
      ∧ refE3 feature target n
          = refExpected (marginCount feature n false) (marginCount target n true) n
      ∧ refE4 feature target n
          = refExpected (marginCount feature n false) (marginCount target n false) n := by
  have hn0 : (n : ℚ) ≠ 0 := by
    have : 0 < n := hn
    exact_mod_cast this.ne.symm
  have hc := countLoop_eq feature target n hf ht
  have hft := cellCount_feature_margin feature target n true
  have hff := cellCount_feature_margin feature target n false
  have htt := cellCount_target_margin feature target n true
  have htf := cellCount_target_margin feature target n false
  have htot := cellCount_total feature target n
  refine ⟨hc, ?_, ?_, ?_, ?_, ?_, ?_⟩
  · simp only [expectedCounts, fdiv_of_ne hn0, Option.bind_eq_bind, Option.some_bind,
      Option.pure_def, refE1, refE2, refE3, refE4, refExpected]
  · simp only [refE1, refE2, refE3, refE4, refExpected]
    have hq : ((cellCount feature target n true true + cellCount feature target n false false
        + cellCount feature target n true false + cellCount feature target n false true : Nat) : ℚ)
        = (n : ℚ) := by rw [htot]
    push_cast at hq ⊢
    field_simp
    nlinarith [hq]
  · rw [← hft, ← htt]; rfl
  · rw [← hft, ← htf]; rfl
  · rw [← hff, ← htt, Nat.add_comm (cellCount feature target n false true)]; rfl
  · rw [← hff, ← htf, Nat.add_comm (cellCount feature target n false true)]; rfl

/-- C17 as stated fails for the expected counts `chiSquare` computes, which are `double`s: on
the feature bits `1,0,0` and the target bits `0,1,1` over 3 rows the counters are `tp = 0`,
`tn = 0`, `fp = 1`, `fn = 2`, and the four expected counts are the `double`s nearest to 2/3,
1/3, 4/3 and 2/3, each of them below the exact quotient; their sum is `3 - 3 / 2 ^ 54`, not
3. -/
theorem expected_sum_rounding_counterexample :
    countLoop [1] [6] 3 = some ⟨0, 0, 1, 2⟩
      ∧ expectedCountsDouble ⟨0, 0, 1, 2⟩ 3
        = some (6004799503160661 / 9007199254740992, 6004799503160661 / 18014398509481984,
            6004799503160661 / 4503599627370496, 6004799503160661 / 9007199254740992)
      ∧ (6004799503160661 / 9007199254740992 + 6004799503160661 / 18014398509481984
          + 6004799503160661 / 4503599627370496 + 6004799503160661 / 9007199254740992 : ℚ)
        = 3 - 3 / 2 ^ 54
      ∧ (3 - 3 / 2 ^ 54 : ℚ) ≠ 3 := by
  refine ⟨countLoop_1_6_3, ?_, by norm_num, by norm_num⟩
  simp only [expectedCountsDouble]
  norm_num [roundDouble_one, roundDouble_two, roundDouble_three, roundDouble_four, ddiv,
    roundDouble_third, roundDouble_two_thirds, roundDouble_four_thirds]

/-- C17, amended: for `n ≥ 1` rows and columns holding at least `n` bits, the counters of
`chiSquare` satisfy `tp + tn + fp + fn = n`, and each expected count is that of the cell it is
used with in the sum: `tp` counts the rows `(1,1)` and `e1` is the quotient (rows with feature
1)(rows with target 1)/n, `fp` counts `(1,0)` and `e2` is (feature 1)(target 0)/n, `fn` counts
`(0,1)` and `e3` is (feature 0)(target 1)/n, `tn` counts `(0,0)` and `e4` is (feature
0)(target 0)/n. Taken exactly, over the rationals, the four quotients sum to `n`. The
`double`s `chiSquare` computes are, for `n < 2 ^ 26`, these quotients rounded to the nearest
`double`, and their sum differs from `n` by at most `n / 2 ^ 53`. -/
theorem counts_and_expected_total (feature target : bitset_t) (n : Nat) (hn : 1 ≤ n)
    (hf : n ≤ BITS_PER_BLOCK * feature.length) (ht : n ≤ BITS_PER_BLOCK * target.length) :
    ∃ (c : Counts) (e1 e2 e3 e4 : ℚ),
      countLoop feature target n = some c ∧ expectedCounts c n = some (e1, e2, e3, e4)
      ∧ chiSquare feature target n = chiSum c (e1, e2, e3, e4)
      ∧ c.tp + c.tn + c.fp + c.fn = n ∧ e1 + e2 + e3 + e4 = (n : ℚ)
      ∧ (c.tp = cellCount feature target n true true
          ∧ e1 = refExpected (marginCount feature n true) (marginCount target n true) n)
      ∧ (c.fp = cellCount feature target n true false
          ∧ e2 = refExpected (marginCount feature n true) (marginCount target n false) n)
      ∧ (c.fn = cellCount feature target n false true
          ∧ e3 = refExpected (marginCount feature n false) (marginCount target n true) n)
      ∧ (c.tn = cellCount feature target n false false
          ∧ e4 = refExpected (marginCount feature n false) (marginCount target n false) n)
      ∧ (n < 2 ^ 26 →
          expectedCountsDouble c n
            = some (roundDouble e1, roundDouble e2, roundDouble e3, roundDouble e4)
          ∧ chiSquareDouble feature target n
            = chiSumDouble c (roundDouble e1, roundDouble e2, roundDouble e3, roundDouble e4)
          ∧ |roundDouble e1 + roundDouble e2 + roundDouble e3 + roundDouble e4 - (n : ℚ)|
            ≤ (n : ℚ) / 2 ^ 53) := by
  obtain ⟨hc, he, hsum, h1, h2, h3, h4⟩ := expected_counts_exact feature target n hn hf ht
  have htot := countLoop_total feature target n _ hc
  refine ⟨_, refE1 feature target n, refE2 feature target n, refE3 feature target n,
    refE4 feature target n, hc, he, ?_, htot, hsum, ⟨rfl, h1⟩, ⟨rfl, h2⟩, ⟨rfl, h3⟩, ⟨rfl, h4⟩,
    fun hcap => ?_⟩
  · rw [chiSquare_split, hc, Option.some_bind, he, Option.some_bind]
  · have hed := expectedCountsDouble_eq _ n (by omega) hcap htot _ _ _ _ he
    refine ⟨hed, ?_, ?_⟩
    · rw [chiSquareDouble, hc, Option.some_bind, hed, Option.some_bind]
    · have hb := roundDouble_sum_error (refE1 feature target n) (refE2 feature target n)
        (refE3 feature target n) (refE4 feature target n)
        (by rw [h1]; exact refExpected_nonneg _ _ _) (by rw [h2]; exact refExpected_nonneg _ _ _)
        (by rw [h3]; exact refExpected_nonneg _ _ _) (by rw [h4]; exact refExpected_nonneg _ _ _)
      rw [hsum] at hb
      exact hb

/-- Witness of C17 (amended): feature bits `1,1,1,0` against target bits `0,1,1,0` over 4
rows. -/
theorem counts_and_expected_total_witness :
    ∃ (c : Counts) (e1 e2 e3 e4 : ℚ),
      countLoop [7] [6] 4 = some c ∧ expectedCounts c 4 = some (e1, e2, e3, e4)
      ∧ chiSquare [7] [6] 4 = chiSum c (e1, e2, e3, e4)
      ∧ c.tp + c.tn + c.fp + c.fn = 4 ∧ e1 + e2 + e3 + e4 = ((4 : Nat) : ℚ)
      ∧ (c.tp = cellCount [7] [6] 4 true true
          ∧ e1 = refExpected (marginCount [7] 4 true) (marginCount [6] 4 true) 4)
      ∧ (c.fp = cellCount [7] [6] 4 true false
          ∧ e2 = refExpected (marginCount [7] 4 true) (marginCount [6] 4 false) 4)
      ∧ (c.fn = cellCount [7] [6] 4 false true
          ∧ e3 = refExpected (marginCount [7] 4 false) (marginCount [6] 4 true) 4)
      ∧ (c.tn = cellCount [7] [6] 4 false false
          ∧ e4 = refExpected (marginCount [7] 4 false) (marginCount [6] 4 false) 4)
      ∧ (4 < 2 ^ 26 →
          expectedCountsDouble c 4
            = some (roundDouble e1, roundDouble e2, roundDouble e3, roundDouble e4)
          ∧ chiSquareDouble [7] [6] 4
            = chiSumDouble c (roundDouble e1, roundDouble e2, roundDouble e3, roundDouble e4)
          ∧ |roundDouble e1 + roundDouble e2 + roundDouble e3 + roundDouble e4 - ((4 : Nat) : ℚ)|
            ≤ ((4 : Nat) : ℚ) / 2 ^ 53) :=
  counts_and_expected_total [7] [6] 4 (by decide) (by decide) (by decide)

/-- C20 as stated fails for the values the program computes, which are `double`s: on the
feature bits `1,0,0` against the equal target over 3 rows, `chiSquare` in `double`
arithmetic returns `3 + 2 ^ (-51)` (printed 3.0000000000000004), which exceeds `n = 3`, and
the score `main` stores is `1 + 2 ^ (-52)` (printed 1.0000000000000002), which lies outside
`[0, 1]`; over the rationals the statistic is exactly 3. -/
theorem score_rounding_counterexample :
    chiSquareDouble [1] [1] 3 = some (3 + 1 / 2 ^ 51)
      ∧ normalizedScoreDouble [1] [1] 3 = some (1 + 1 / 2 ^ 52)
      ∧ ((3 : Nat) : ℚ) < 3 + 1 / 2 ^ 51 ∧ (1 : ℚ) < 1 + 1 / 2 ^ 52
      ∧ chiSquare [1] [1] 3 = some 3 := by
  refine ⟨?_, ?_, by norm_num, by norm_num, ?_⟩
  · rw [chiSquareDouble_1_1_3]
    norm_num
  · rw [normalizedScoreDouble_1_1_3]
    norm_num
  · simp [chiSquare, countLoop, getBit, Counts.bump, fdiv, BITS_PER_BLOCK]
    norm_num

/-- C20, amended: for `n ≥ 1` rows and columns holding at least `n` bits, `chiSquare` with
its arithmetic taken over the rationals returns a value `v ≤ n`, so the normalised score
`v / n` lies in `[0, 1]`; and `v = n` (score 1) when the first `n` bits of the feature equal
those of the target and the target takes both values. -/
theorem chiSquare_le_rows (feature target : bitset_t) (n : Nat) (hn : 1 ≤ n)
    (hf : n ≤ BITS_PER_BLOCK * feature.length) (ht : n ≤ BITS_PER_BLOCK * target.length) :
    ∃ v s : ℚ, chiSquare feature target n = some v ∧ v ≤ (n : ℚ)
      ∧ normalizedScore feature target n = some s ∧ 0 ≤ s ∧ s ≤ 1
      ∧ ((∀ i, i < n → getBit feature i = getBit target i) →
          (∃ i, i < n ∧ getBit target i = some true) →
          (∃ i, i < n ∧ getBit target i = some false) → v = (n : ℚ) ∧ s = 1) := by
  have hpos : (0 : ℚ) < n := by
    have : 0 < n := hn
    exact_mod_cast this
  obtain ⟨v, hv, h0, hle⟩ := chiSquare_le feature target n hn hf ht
  refine ⟨v, v / n, hv, hle, ?_, div_nonneg h0 hpos.le, ?_, ?_⟩
  · simp [normalizedScore, hv, normalize, fdiv, hpos.ne.symm]
  · rw [div_le_one hpos]
    exact hle
  · intro hsame hone hzero
    have := chiSquare_agree feature target n hn hf ht hsame hone hzero
    rw [hv] at this
    have hvn : v = (n : ℚ) := Option.some.inj this
    refine ⟨hvn, ?_⟩
    rw [hvn]
    exact div_self hpos.ne.symm

/-- Witness of C20 (amended): the feature `0,1,1,0` against the equal target over 4 rows. -/
theorem chiSquare_le_rows_witness :
    ∃ v s : ℚ, chiSquare [6] [6] 4 = some v ∧ v ≤ ((4 : Nat) : ℚ)
      ∧ normalizedScore [6] [6] 4 = some s ∧ 0 ≤ s ∧ s ≤ 1
      ∧ ((∀ i, i < 4 → getBit [6] i = getBit [6] i) →
          (∃ i, i < 4 ∧ getBit [6] i = some true) →
          (∃ i, i < 4 ∧ getBit [6] i = some false) → v = ((4 : Nat) : ℚ) ∧ s = 1) :=
  chiSquare_le_rows [6] [6] 4 (by decide) (by decide) (by decide)

theorem sortLibstdcxx_tiedScores :
    sortLibstdcxx scoreGreater tiedScores = some tiedRanked := by
  decide

theorem stdSort_tiedRanked : StdSort scoreGreater tiedScores tiedRanked := by
  constructor
  · decide
  · decide

theorem two_mem_sublist {α : Type} {a b : α} (hne : a ≠ b) :
    ∀ l : List α, a ∈ l → b ∈ l → List.Sublist [a, b] l ∨ List.Sublist [b, a] l := by
  intro l
  induction l with
  | nil => intro ha; simp at ha
  | cons x xs ih =>
    intro ha hb
    by_cases hxa : x = a
    · subst hxa
      have hb2 : b ∈ xs := by
        rcases List.mem_cons.1 hb with h | h
        · exact absurd h.symm hne
        · exact h
      exact Or.inl (List.Sublist.cons₂ _ (List.singleton_sublist.2 hb2))
    · by_cases hxb : x = b
      · subst hxb
        have ha2 : a ∈ xs := by
          rcases List.mem_cons.1 ha with h | h
          · exact absurd h hne
          · exact h
        exact Or.inr (List.Sublist.cons₂ _ (List.singleton_sublist.2 ha2))
      · have ha2 : a ∈ xs := by
          rcases List.mem_cons.1 ha with h | h
          · exact absurd h.symm hxa
          · exact h
        have hb2 : b ∈ xs := by
          rcases List.mem_cons.1 hb with h | h
          · exact absurd h.symm hxb
          · exact h
        rcases ih ha2 hb2 with h | h
        · exact Or.inl (List.Sublist.cons _ h)
        · exact Or.inr (List.Sublist.cons _ h)

theorem stdSort_tie_first (scores : List ScoreEntry) (a b : ScoreEntry) (ha : a ∈ scores)
    (hb : b ∈ scores) (hne : a ≠ b) (heq : a.2 = b.2) :
    ∃ out, StdSort scoreGreater scores out ∧ List.Sublist [a, b] out := by
  let r : ScoreEntry → ScoreEntry → Prop :=
    fun x y => y.2 < x.2 ∨ (y.2 = x.2 ∧ (x = a ∨ y ≠ a))
  haveI : DecidableRel r := fun x y => by
    show Decidable (y.2 < x.2 ∨ (y.2 = x.2 ∧ (x = a ∨ y ≠ a)))
    exact inferInstance
  haveI : IsTotal ScoreEntry r := by
    constructor
    intro x y
    rcases lt_trichotomy x.2 y.2 with h | h | h
    · exact Or.inr (Or.inl h)
    · by_cases hy : y = a
      · exact Or.inr (Or.inr ⟨h, Or.inl hy⟩)
      · exact Or.inl (Or.inr ⟨h.symm, Or.inr hy⟩)
    · exact Or.inl (Or.inl h)
  haveI : IsTrans ScoreEntry r := by
    constructor
    intro x y z h1 h2
    rcases h1 with h1 | ⟨h1, h1b⟩
    · rcases h2 with h2 | ⟨h2, _⟩
      · exact Or.inl (lt_trans h2 h1)
      · exact Or.inl (h2 ▸ h1)
    · rcases h2 with h2 | ⟨h2, h2b⟩
      · exact Or.inl (h1 ▸ h2)
      · refine Or.inr ⟨h2.trans h1, ?_⟩
        rcases h1b with h | h
        · exact Or.inl h
        · rcases h2b with h' | h'
          · exact absurd h' h
          · exact Or.inr h'
  have hsorted := List.sorted_insertionSort r scores
  have hperm := List.perm_insertionSort r scores
  refine ⟨scores.insertionSort r, ⟨hperm, ?_⟩, ?_⟩
  · refine List.Pairwise.imp ?_ hsorted
    intro x y hxy
    simp only [scoreGreater, gt_iff_lt, decide_eq_false_iff_not, not_lt]
    rcases hxy with h | ⟨h, _⟩
    · exact h.le
    · exact h.le
  · rcases two_mem_sublist hne _ (hperm.mem_iff.2 ha) (hperm.mem_iff.2 hb) with h | h
    · exact h
    · exfalso
      have hp : List.Pairwise r [b, a] := List.Pairwise.sublist h hsorted
      have hba : r b a := by
        simpa using hp
      rcases hba with h1 | ⟨_, h1 | h1⟩
      · rw [heq] at h1
        exact lt_irrefl _ h1
      · exact hne h1.symm
      · exact h1 rfl

theorem chiSquare_one_row {feature target : bitset_t} {v : ℚ}
    (h : chiSquare feature target 1 = some v) : v = 0 := by
  obtain ⟨hf, ht⟩ := chiSquare_some_holds h (Nat.le_refl 1)
  rw [chiSquare_eq feature target 1 (Nat.le_refl 1) hf ht] at h
  have htot := cellCount_total feature target 1
  have hz : refE1 feature target 1 = 0 ∨ refE2 feature target 1 = 0
      ∨ refE3 feature target 1 = 0 ∨ refE4 feature target 1 = 0 := by
    by_cases h1 : cellCount feature target 1 true true + cellCount feature target 1 true false = 0
    · left
      simp only [refE1, refExpected, h1]
      simp
    · right; right; left
      have h2 : cellCount feature target 1 false false + cellCount feature target 1 false true
          = 0 := by omega
      simp only [refE3, refExpected, h2]
      simp
  rw [if_pos hz] at h
  exact (Option.some.inj h).symm

theorem mainScores_zeroLine (junk : Nat → row_t) (hjunk : ∀ k, (junk k).length = NUM_COLS) :
    mainScores (some ["header", zeroLine]) junk = some tiedScores := by
  have hc : ∀ line, line ∈ [zeroLine] → complete line := by
    unfold zeroLine complete fieldsOf
    decide
  have hd : ∀ line, line ∈ [zeroLine] → decodable line := by
    unfold zeroLine decodable fieldsOf
    decide
  obtain ⟨L, hL⟩ := mainScores_some "header" [zeroLine] junk hjunk hc hd (by decide)
    (by decide)
  rw [hL]
  obtain ⟨t, target, hp, _, _, _, hscore⟩ := mainScores_parse hL
  obtain ⟨hids, hent⟩ := scoreLoop_spec _ _ _ _ NUM_COLS L hscore
  have hflags : ∀ j, j < NUM_COLS → t.isBinary.getD j false = true := by
    intro j hj
    rw [parse_flags hjunk hc hp j hj]
    have hall : ∀ j, j < NUM_COLS → [zeroLine].all (fun line =>
        slotCode j ((fieldsOf line).getD j "") != SENTINEL) = true := by
      unfold zeroLine fieldsOf
      decide
    exact hall j hj
  have hfilter : (List.range NUM_COLS).filter (fun col => t.isBinary.getD col false)
      = List.range NUM_COLS := by
    rw [List.filter_eq_self]
    intro j hj
    exact hflags j (List.mem_range.1 hj)
  rw [hfilter] at hids
  have hzero : ∀ e, e ∈ L → e.2 = 0 := by
    intro e he
    obtain ⟨_, _, column, _, hs⟩ := hent e he
    obtain ⟨v, hv, hev⟩ := normalizedScore_eq hs
    rw [hev, chiSquare_one_row hv]
    simp
  have hL2 : L = (L.map Prod.fst).map (fun i => (i, (0 : ℚ))) := by
    rw [List.map_map]
    conv_lhs => rw [← List.map_id L]
    apply List.map_congr_left
    intro e he
    exact Prod.ext rfl (hzero e he)
  rw [hL2, hids, List.map_map]
  rfl

/-- C15 as stated fails: on the dataset of the single record `zeroLine` every column is
constant, so `main` builds the 42 entries `(1, 0), ..., (42, 0)`, all of score 0; on them the
`std::sort` of libstdc++ with the comparator of `main` returns the identifiers in the order
33, 23, 24, ..., an order that the contract of `std::sort` allows, so that it is a ranked
output of `main`: the entry with identifier 33 comes first, before the entry with identifier
23 of the same score. -/
theorem tie_order_counterexample :
    mainScores (some ["header", zeroLine]) (fun _ => List.replicate 42 0) = some tiedScores
      ∧ sortLibstdcxx scoreGreater tiedScores = some tiedRanked
      ∧ mainRanked (some ["header", zeroLine]) (fun _ => List.replicate 42 0) tiedRanked
      ∧ tiedScores.getD 22 (0, 1) = (23, 0) ∧ tiedScores.getD 32 (0, 1) = (33, 0)
      ∧ tiedRanked.getD 0 (0, 1) = (33, 0) ∧ tiedRanked.getD 1 (0, 1) = (23, 0) :=
  ⟨mainScores_zeroLine _ (fun _ => rfl), sortLibstdcxx_tiedScores,
    ⟨tiedScores, mainScores_zeroLine _ (fun _ => rfl), stdSort_tiedRanked⟩,
    by decide, by decide, by decide, by decide⟩

/-- C15, amended: the ranking step fixes the order of two entries only when their scores
differ, the higher score coming first; any two outcomes of the step on the same input carry
the same scores at the same positions; and two different entries of equal score are not
ordered by their identifiers: for each of them there is an outcome within the contract of
`std::sort` in which it comes before the other. -/
theorem ranking_ties_unordered (scores out1 out2 : List ScoreEntry)
    (h1 : StdSort scoreGreater scores out1) (h2 : StdSort scoreGreater scores out2) :
    out1.map Prod.snd = out2.map Prod.snd
    ∧ (∀ i j, i < out1.length → j < out1.length →
      (out1.getD j (0, 0)).2 < (out1.getD i (0, 0)).2 → i < j)
    ∧ ∀ a b, a ∈ scores → b ∈ scores → a ≠ b → a.2 = b.2 →
      (∃ out, StdSort scoreGreater scores out ∧ List.Sublist [a, b] out)
      ∧ (∃ out, StdSort scoreGreater scores out ∧ List.Sublist [b, a] out) := by
  refine ⟨?_, ?_, ?_⟩
  · haveI : IsAntisymm ℚ (fun x y => y ≤ x) := ⟨fun a b hab hba => le_antisymm hba hab⟩
    have hp : (out1.map Prod.snd).Perm (out2.map Prod.snd) :=
      (h1.1.trans h2.1.symm).map Prod.snd
    exact List.eq_of_perm_of_sorted hp (stdSort_scores_sorted h1) (stdSort_scores_sorted h2)
  · intro i j hi hj hlt
    by_contra hnot
    have hji : j ≤ i := Nat.le_of_not_lt hnot
    rcases Nat.lt_or_eq_of_le hji with h | h
    · have := stdSort_index h1 j i h hi
      exact absurd hlt (not_lt.2 this)
    · subst h
      exact lt_irrefl _ hlt
  · intro a b ha hb hne heq
    exact ⟨stdSort_tie_first scores a b ha hb hne heq,
      stdSort_tie_first scores b a hb ha (Ne.symm hne) heq.symm⟩

/-- Witness of C15 (amended): the order of the identifiers and the order that libstdc++
returns are both outcomes of the ranking step on the 42 entries of score 0. -/
theorem ranking_ties_unordered_witness :
    StdSort scoreGreater tiedScores (rankStable tiedScores)
      ∧ StdSort scoreGreater tiedScores tiedRanked
      ∧ (rankStable tiedScores).map Prod.snd = tiedRanked.map Prod.snd
      ∧ (∀ i j, i < (rankStable tiedScores).length → j < (rankStable tiedScores).length →
        ((rankStable tiedScores).getD j (0, 0)).2 < ((rankStable tiedScores).getD i (0, 0)).2 →
          i < j)
      ∧ ∀ a b, a ∈ tiedScores → b ∈ tiedScores → a ≠ b → a.2 = b.2 →
        (∃ out, StdSort scoreGreater tiedScores out ∧ List.Sublist [a, b] out)
        ∧ (∃ out, StdSort scoreGreater tiedScores out ∧ List.Sublist [b, a] out) :=
  ⟨stdSort_rankStable _, stdSort_tiedRanked,
    ranking_ties_unordered tiedScores _ _ (stdSort_rankStable _) stdSort_tiedRanked⟩

end KDD
